import Mathlib

/-!
# proglog: the segmented commit log (store, index, segment, log)

A shallow embedding of `internal/log/store.go`, `internal/log/index.go` and
`internal/log/log.go`.

Conventions of the embedding

* A byte is a natural number; a byte string, a file and a memory mapping are
  `List Nat`.
* `uint64` / `uint32` values are natural numbers; every arithmetic operation the
  Go code performs on them is followed by an explicit `% 2 ^ 64` / `% 2 ^ 32`.
* Stateful methods take the receiver and return the new receiver together with
  the Go results.
* Operating-system calls (open, write, truncate, mmap, close) are assumed to
  succeed; the errors that remain are the ones the Go code computes itself
  (`io.EOF`, `ErrOffsetOutOfRange`, a read past the end of a file) and run-time
  panics (nil dereference, slice bounds).
* The mutexes are not modelled: every method runs as one atomic step.
-/

namespace Proglog

/-! ## Errors -/

/-- Error values that the modelled code can return. `panic` stands for a Go
run-time panic (nil dereference, index or slice bounds out of range, makeslice);
`ErrNotExist` is the error of a file-system call on a path at which nothing
exists. -/
inductive Err where
  | EOF
  | negativeOffset
  | ErrOffsetOutOfRange (Offset : Nat)
  | panic
  | ErrNotExist
  deriving DecidableEq

deriving instance DecidableEq for Except

/-! ## Machine integers and `encoding/binary` -/

/-- The Go conversion `int64(v)` of a `uint64` value. -/
def int64 (v : Nat) : Int :=
  if v % 2 ^ 64 < 2 ^ 63 then ((v % 2 ^ 64 : Nat) : Int) else ((v % 2 ^ 64 : Nat) : Int) - 2 ^ 64

/-- The Go conversion `uint32(v)` of an `int64` value. -/
def uint32 (v : Int) : Nat := (v % 2 ^ 32).toNat

/-- The function `binary.BigEndian.PutUint64`: the eight bytes, most significant first. -/
def encoding.PutUint64 (v : Nat) : List Nat :=
  [v / 2 ^ 56 % 256, v / 2 ^ 48 % 256, v / 2 ^ 40 % 256, v / 2 ^ 32 % 256,
   v / 2 ^ 24 % 256, v / 2 ^ 16 % 256, v / 2 ^ 8 % 256, v % 256]

/-- The function `binary.BigEndian.PutUint32`: the four bytes, most significant first. -/
def encoding.PutUint32 (v : Nat) : List Nat :=
  [v / 2 ^ 24 % 256, v / 2 ^ 16 % 256, v / 2 ^ 8 % 256, v % 256]

/-- The function `binary.BigEndian.Uint64` on a slice of at least eight bytes
(Go panics on a shorter slice; every caller below passes exactly eight). -/
def encoding.Uint64 (b : List Nat) : Nat :=
  match b with
  | b0 :: b1 :: b2 :: b3 :: b4 :: b5 :: b6 :: b7 :: _ =>
    b7 + b6 * 2 ^ 8 + b5 * 2 ^ 16 + b4 * 2 ^ 24 + b3 * 2 ^ 32 + b2 * 2 ^ 40 + b1 * 2 ^ 48
      + b0 * 2 ^ 56
  | _ => 0

/-- The function `binary.BigEndian.Uint32` on a slice of at least four bytes. -/
def encoding.Uint32 (b : List Nat) : Nat :=
  match b with
  | b0 :: b1 :: b2 :: b3 :: _ => b3 + b2 * 2 ^ 8 + b1 * 2 ^ 16 + b0 * 2 ^ 24
  | _ => 0

/-- The Go slice expression `m[lo:hi]` of a slice whose capacity is its length;
`none` is the slice-bounds panic. -/
def slice (m : List Nat) (lo hi : Nat) : Option (List Nat) :=
  if lo ≤ hi ∧ hi ≤ m.length then some ((m.drop lo).take (hi - lo)) else none

/-- Storing the bytes `bs` through the slice `m[lo:lo+len(bs)]`; `none` is the
slice-bounds panic. -/
def putAt (m : List Nat) (lo : Nat) (bs : List Nat) : Option (List Nat) :=
  if lo + bs.length ≤ m.length then some (m.take lo ++ bs ++ m.drop (lo + bs.length)) else none

/-! ## Files and `bufio.Writer` -/

/-- The method `os.File.ReadAt(p, off)` on a file whose contents are `file`.
Returns the buffer `p` after the call, the number of bytes read and the error:
a negative offset is refused, and fewer than `len(p)` available bytes give
`io.EOF` together with the bytes that were there. -/
def File.ReadAt (file : List Nat) (p : List Nat) (off : Int) : List Nat × Nat × Option Err :=
  if off < 0 then (p, 0, some Err.negativeOffset)
  else
    let got := (file.drop off.toNat).take p.length
    if got.length < p.length then (got ++ p.drop got.length, got.length, some Err.EOF)
    else (got, got.length, none)

/-- The default buffer size of `bufio.NewWriter`. -/
def bufio.defaultBufSize : Nat := 4096

/-- The method `bufio.Writer.Write(p)` over a file opened for appending, as a
function of the file contents and the pending bytes. The loop of the library
runs at most twice: while `p` does not fit in what is left of the buffer, an
empty buffer lets `p` go to the file directly, and a non-empty one is filled up
and flushed; what remains of `p` is then copied into the buffer. -/
def bufio.Write (file buf p : List Nat) : List Nat × List Nat :=
  if p.length ≤ bufio.defaultBufSize - buf.length then (file, buf ++ p)
  else if buf.length = 0 then (file ++ p, [])
  else
    let n := bufio.defaultBufSize - buf.length
    let file1 := file ++ (buf ++ p.take n)
    let p1 := p.drop n
    if p1.length ≤ bufio.defaultBufSize then (file1, p1) else (file1 ++ p1, [])

/-! ## store.go -/

/-- The constant `lenWidth`. -/
def lenWidth : Nat := 8

/-- The struct `store`: the contents of the file, the bytes pending in the
`bufio.Writer`, and the logical size. -/
structure store where
  File : List Nat
  buf : List Nat
  size : Nat
  deriving DecidableEq

/-- The function `newStore`: the size is the current size of the file. -/
def newStore (inputFile : List Nat) : store :=
  { File := inputFile, buf := [], size := inputFile.length % 2 ^ 64 }

/-- The call `s.buf.Flush()`. -/
def store.Flush (s : store) : store :=
  { s with File := s.File ++ s.buf, buf := [] }

/-- The method `store.Append`: returns the store afterwards, `bytesWritten` and `pos`. -/
def store.Append (s : store) (input : List Nat) : store × Nat × Nat :=
  let pos := s.size
  let w1 := bufio.Write s.File s.buf (encoding.PutUint64 (input.length % 2 ^ 64))
  let w2 := bufio.Write w1.1 w1.2 input
  let w := input.length + lenWidth
  ({ File := w2.1, buf := w2.2, size := (s.size + w % 2 ^ 64) % 2 ^ 64 }, w % 2 ^ 64, pos)

/-- The method `store.Read`: flush, read the eight length bytes at `pos`, then
that many bytes right after them. -/
def store.Read (s : store) (pos : Nat) : store × Except Err (List Nat) :=
  let s1 := s.Flush
  match File.ReadAt s1.File (List.replicate lenWidth 0) (int64 pos) with
  | (_, _, some e) => (s1, Except.error e)
  | (size, _, none) =>
    if 2 ^ 63 ≤ encoding.Uint64 size then (s1, Except.error Err.panic)
    else
      match File.ReadAt s1.File (List.replicate (encoding.Uint64 size) 0)
          (int64 ((pos + lenWidth) % 2 ^ 64)) with
      | (_, _, some e) => (s1, Except.error e)
      | (b, _, none) => (s1, Except.ok b)

/-- The method `store.ReadAt`: flush, then `File.ReadAt`. Returns the store, the
buffer `p` after the call, the number of bytes read and the error. -/
def store.ReadAt (s : store) (p : List Nat) (off : Int) : store × List Nat × Nat × Option Err :=
  let s1 := s.Flush
  (s1, File.ReadAt s1.File p off)

/-- The method `store.Close`: flush, then close the file. The result is the
store as it stands when the file is closed, that is, what the file holds from
then on; that the descriptor is closed is not recorded, so no property below
reads or appends through a store after `Close`. -/
def store.Close (s : store) : store := s.Flush

/-- Appending the payloads one after the other; returns the store and, for each
payload, the pair `(bytesWritten, pos)` that `store.Append` returned. -/
def store.appendAll : store → List (List Nat) → store × List (Nat × Nat)
  | s, [] => (s, [])
  | s, p :: ps =>
    let r := s.Append p
    let rest := store.appendAll r.1 ps
    (rest.1, r.2 :: rest.2)

/-- One store record: the eight-byte big-endian length, then the payload. -/
def storeRecord (p : List Nat) : List Nat := encoding.PutUint64 (p.length % 2 ^ 64) ++ p

/-- The byte layout of a sequence of store records. -/
def storeBytes : List (List Nat) → List Nat
  | [] => []
  | p :: ps => storeRecord p ++ storeBytes ps

/-! ## Configuration and records -/

/-- Modelled from the spec: the options `segment.max_store_bytes`,
`segment.max_index_bytes` and `segment.initial_offset` of section 3; the file
`config.go` that declares `Config` is not among the sources. All three are
`uint64`. -/
structure Config.SegmentConfig where
  MaxStoreBytes : Nat
  MaxIndexBytes : Nat
  InitialOffset : Nat
  deriving DecidableEq

/-- Modelled from the spec: the type `Config`, whose declaration is not among
the sources; `log.go` reads `Config.Segment.MaxStoreBytes`,
`Config.Segment.MaxIndexBytes` and `Config.Segment.InitialOffset`. -/
structure Config where
  Segment : Config.SegmentConfig
  deriving DecidableEq

/-- Modelled from the spec: a record is an opaque byte string (section 3); the
package `api/v1` that declares `api.Record` is not among the sources. -/
abbrev Record := List Nat

/-- A directory: the files it holds, each with its name and contents. -/
abbrev Dir := List (String × List Nat)

/-! ## index.go -/

/-- The variable `offWidth`. -/
def offWidth : Nat := 4

/-- The variable `posWidth`. -/
def posWidth : Nat := 8

/-- The variable `entWidth`. -/
def entWidth : Nat := offWidth + posWidth

/-- The struct `index`: the memory mapping and the logical size. -/
structure index where
  mmap : List Nat
  size : Nat
  deriving DecidableEq

/-- The function `newIndex` on a file whose contents are `file`: the size is the
current size of the file, the file is then truncated (cut or zero-extended) to
`MaxIndexBytes` and mapped. -/
def newIndex (file : List Nat) (config : Config) : index :=
  { size := file.length % 2 ^ 64
    mmap := (file ++ List.replicate (config.Segment.MaxIndexBytes - file.length) 0).take
      config.Segment.MaxIndexBytes }

/-- The method `index.Read`; `inp` is the `int64` argument `in`. -/
def index.Read (i : index) (inp : Int) : Except Err (Nat × Nat) :=
  if i.size = 0 then Except.error Err.EOF
  else
    let out := if inp = -1 then (i.size / entWidth + 2 ^ 64 - 1) % 2 ^ 64 % 2 ^ 32 else uint32 inp
    let pos := out * entWidth % 2 ^ 64
    if i.size < (pos + entWidth) % 2 ^ 64 then Except.error Err.EOF
    else
      match slice i.mmap pos ((pos + offWidth) % 2 ^ 64),
          slice i.mmap ((pos + offWidth) % 2 ^ 64) ((pos + entWidth) % 2 ^ 64) with
      | some a, some b => Except.ok (encoding.Uint32 a, encoding.Uint64 b)
      | _, _ => Except.error Err.panic

/-- The method `index.Write`; `off` is a `uint32` and `pos` a `uint64`. -/
def index.Write (i : index) (off pos : Nat) : index × Option Err :=
  if i.mmap.length < (i.size + entWidth) % 2 ^ 64 then (i, some Err.EOF)
  else
    match slice i.mmap i.size ((i.size + offWidth) % 2 ^ 64) with
    | none => (i, some Err.panic)
    | some _ =>
      match putAt i.mmap i.size (encoding.PutUint32 off) with
      | none => (i, some Err.panic)
      | some m1 =>
        match slice m1 ((i.size + offWidth) % 2 ^ 64) ((i.size + entWidth) % 2 ^ 64) with
        | none => (i, some Err.panic)
        | some _ =>
          match putAt m1 ((i.size + offWidth) % 2 ^ 64) (encoding.PutUint64 pos) with
          | none => (i, some Err.panic)
          | some m2 => ({ mmap := m2, size := (i.size + entWidth) % 2 ^ 64 }, none)

/-! ## The segment -/

/-- Modelled from the spec: the state of a segment (section 4.3), `base_offset`,
`next_offset`, the store and the index, together with the configuration it was
opened with; the file `segment.go` is not among the sources. -/
structure segment where
  store : store
  index : index
  baseOffset : Nat
  nextOffset : Nat
  config : Config
  deriving DecidableEq

/-- Modelled from the spec: `open(dir, base_offset, config)` of section 4.3, for
the function `newSegment` of the missing `segment.go`. The two files
`<base_offset>.store` and `<base_offset>.index` are opened, or created empty;
the store and the index are built over them; when the index already has
entries (its last entry can be read) `next_offset` is
`base_offset + last_relative_offset + 1`, otherwise it is `base_offset`. -/
def newSegment (dir : Dir) (baseOffset : Nat) (c : Config) : segment :=
  let storeFile := (dir.lookup (toString baseOffset ++ ".store")).getD []
  let indexFile := (dir.lookup (toString baseOffset ++ ".index")).getD []
  let idx := newIndex indexFile c
  let next :=
    match idx.Read (-1) with
    | Except.ok (off, _) => (baseOffset + off + 1) % 2 ^ 64
    | Except.error _ => baseOffset
  { store := newStore storeFile, index := idx, baseOffset := baseOffset, nextOffset := next,
    config := c }

/-- Modelled from the spec: `append(record_bytes)` of section 4.3, for the
method `segment.Append` of the missing `segment.go`. With `cur := next_offset`,
the bytes are appended to the store, the index entry
`(cur - base_offset, position)` is written (the relative offset as a 32-bit
unsigned integer), `next_offset` is incremented and `cur` returned; an index
that has no space left makes the append fail, and `next_offset` stays. -/
def segment.Append (s : segment) (record : Record) : segment × Except Err Nat :=
  let cur := s.nextOffset
  let r := s.store.Append record
  let pos := r.2.2
  match s.index.Write ((cur + 2 ^ 64 - s.baseOffset) % 2 ^ 64 % 2 ^ 32) pos with
  | (idx, some e) => ({ s with store := r.1, index := idx }, Except.error e)
  | (idx, none) =>
    ({ s with store := r.1, index := idx, nextOffset := (s.nextOffset + 1) % 2 ^ 64 },
      Except.ok cur)

/-- Modelled from the spec: `read(absolute_offset)` of section 4.3, for the
method `segment.Read` of the missing `segment.go`. With
`relative := absolute_offset - base_offset`, the index entry at `relative` is
read, `Eof` there gives `OffsetOutOfRange`, and the store is read at the
position the entry holds. -/
def segment.Read (s : segment) (off : Nat) : segment × Except Err Record :=
  match s.index.Read (int64 ((off + 2 ^ 64 - s.baseOffset) % 2 ^ 64)) with
  | Except.error Err.EOF => (s, Except.error (Err.ErrOffsetOutOfRange off))
  | Except.error e => (s, Except.error e)
  | Except.ok (_, pos) =>
    let r := s.store.Read pos
    ({ s with store := r.1 }, r.2)

/-- Modelled from the spec: `is_maxed()` of section 4.3, for the method
`segment.IsMaxed` of the missing `segment.go`: the size of the store is at
least `max_store_bytes`, or the size of the index plus 12 exceeds
`max_index_bytes`. -/
def segment.IsMaxed (s : segment) : Bool :=
  decide (s.config.Segment.MaxStoreBytes ≤ s.store.size) ||
    decide (s.config.Segment.MaxIndexBytes < s.index.size + entWidth)

/-! ## log.go -/

/-- The struct `Log`. A `*segment` is a position in `heap`, the list of all
segment objects allocated so far; `activeSegment` and the elements of `segments`
are such pointers (`none` is `nil`, and the empty list is the `nil` slice), so
that an append through `activeSegment` is seen through `segments` exactly when
both hold the same pointer. `Dir` is the directory the log was opened on, as the
files found at that path, and `removed` says that the directory itself has
been deleted (by `Log.Remove`), so that nothing exists at the path any more. -/
structure Log where
  Dir : Dir
  Config : Config
  heap : List segment
  activeSegment : Option Nat
  segments : List Nat
  removed : Bool
  deriving DecidableEq

/-- The method `Log.newSegment`. -/
def Log.newSegment (l : Log) (off : Nat) : Log :=
  let s := Proglog.newSegment l.Dir off l.Config
  { l with
    heap := l.heap ++ [s]
    segments := l.segments ++ [l.heap.length]
    activeSegment := some l.heap.length }

/-- The function `path.Ext` after reversal of the name: scanning from the last
character, the extension starts at the first dot met before any slash. -/
def path.Ext.scan : List Char → List Char → List Char
  | [], _ => []
  | c :: rest, acc =>
    if c = '/' then [] else if c = '.' then c :: acc else path.Ext.scan rest (c :: acc)

/-- The function `path.Ext`. -/
def path.Ext (name : List Char) : List Char := path.Ext.scan name.reverse []

/-- The function `strings.TrimSuffix`. -/
def strings.TrimSuffix (s suffix : List Char) : List Char :=
  if s.drop (s.length - suffix.length) = suffix then s.take (s.length - suffix.length) else s

/-- The digit loop of `strconv.ParseUint(s, 10, 0)`: a character that is not a
decimal digit gives 0 (syntax error), a value that leaves the 64-bit range
gives the largest `uint64` (range error). -/
def strconv.ParseUint.loop : List Char → Nat → Nat
  | [], n => n
  | c :: cs, n =>
    if c.isDigit then
      if 2 ^ 64 ≤ n * 10 + (c.toNat - 48) then 2 ^ 64 - 1
      else strconv.ParseUint.loop cs (n * 10 + (c.toNat - 48))
    else 0

/-- The value that `strconv.ParseUint(s, 10, 0)` returns, its error dropped. -/
def strconv.ParseUint (s : List Char) : Nat :=
  if s = [] then 0 else strconv.ParseUint.loop s 0

/-- The elements at the positions 0, 2, 4, ... : the loop of `setup` advances
its counter twice in every pass. -/
def Log.setup.everyOther : List Nat → List Nat
  | [] => []
  | [a] => [a]
  | a :: _ :: rest => a :: Log.setup.everyOther rest

/-- The call `ioutil.ReadDir(l.Dir)`: the files of the directory, or an error
when the directory has been deleted. -/
def ioutil.ReadDir (l : Log) : Except Err Dir :=
  if l.removed then Except.error Err.ErrNotExist else Except.ok l.Dir

/-- The method `Log.setup`, the log it leaves. When `ioutil.ReadDir` fails the
method returns at once and the log is as it was. -/
def Log.setup (l : Log) : Log :=
  match ioutil.ReadDir l with
  | Except.error _ => l
  | Except.ok files =>
    let baseOffsets := files.map fun file =>
      strconv.ParseUint (strings.TrimSuffix file.1.toList (path.Ext file.1.toList))
    let sorted := baseOffsets.insertionSort (· ≤ ·)
    let l1 := (Log.setup.everyOther sorted).foldl Log.newSegment l
    if l1.segments = [] then l1.newSegment l1.Config.Segment.InitialOffset else l1

/-- The method `Log.setup`, the error it returns: that of `ioutil.ReadDir`. -/
def Log.setup.err (l : Log) : Option Err :=
  match ioutil.ReadDir l with
  | Except.error err => some err
  | Except.ok _ => none

/-- The function `NewLog` on a directory that exists and holds the files `dir`;
returns the log (the error of `setup` is `nil` there). -/
def NewLog (dir : Dir) (c : Config) : Log :=
  let c1 : Config :=
    if c.Segment.MaxStoreBytes = 0 then { Segment := { c.Segment with MaxStoreBytes := 1024 } }
    else c
  let c2 : Config :=
    if c1.Segment.MaxIndexBytes = 0 then { Segment := { c1.Segment with MaxIndexBytes := 1024 } }
    else c1
  Log.setup
    { Dir := dir, Config := c2, heap := [], activeSegment := none, segments := [],
      removed := false }

/-- The method `Log.Append`: returns the log afterwards and the pair
`(offset, err)`. -/
def Log.Append (l : Log) (record : Record) : Log × Nat × Option Err :=
  match l.activeSegment with
  | none => (l, 0, some Err.panic)
  | some p =>
    match l.heap[p]? with
    | none => (l, 0, some Err.panic)
    | some s =>
      match s.Append record with
      | (s1, Except.error err) => ({ l with heap := l.heap.set p s1 }, 0, some err)
      | (s1, Except.ok off) =>
        let l1 := { l with heap := l.heap.set p s1 }
        if s1.IsMaxed then (l1.newSegment ((off + 1) % 2 ^ 64), off, none) else (l1, off, none)

/-- The loop of `Log.Read`: the first segment of the list with
`baseOffset <= off < nextOffset`, as pointer and value. -/
def Log.Read.find (heap : List segment) (off : Nat) : List Nat → Option (Nat × segment)
  | [] => none
  | p :: ps =>
    match heap[p]? with
    | none => Log.Read.find heap off ps
    | some s =>
      if s.baseOffset ≤ off ∧ off < s.nextOffset then some (p, s) else Log.Read.find heap off ps

/-- The method `Log.Read`: returns the log afterwards (the store of the segment
that was read has flushed its buffer) and the record or the error. -/
def Log.Read (l : Log) (off : Nat) : Log × Except Err Record :=
  match Log.Read.find l.heap off l.segments with
  | none => (l, Except.error (Err.ErrOffsetOutOfRange off))
  | some (p, s) =>
    if s.nextOffset ≤ off then (l, Except.error (Err.ErrOffsetOutOfRange off))
    else
      let r := s.Read off
      ({ l with heap := l.heap.set p r.1 }, r.2)

/-- The method `Log.LowestOffset`; the index expression panics on an empty list. -/
def Log.LowestOffset (l : Log) : Except Err Nat :=
  match l.segments with
  | [] => Except.error Err.panic
  | p :: _ =>
    match l.heap[p]? with
    | none => Except.error Err.panic
    | some s => Except.ok s.baseOffset

/-- The method `Log.HighestOffset`; the index expression panics on an empty list. -/
def Log.HighestOffset (l : Log) : Except Err Nat :=
  match l.segments.getLast? with
  | none => Except.error Err.panic
  | some p =>
    match l.heap[p]? with
    | none => Except.error Err.panic
    | some s => if s.nextOffset = 0 then Except.ok 0 else Except.ok (s.nextOffset - 1)

/-- Calling `Log.Append` on the records one after the other; returns the log and
the pair `(offset, err)` of every call. -/
def Log.appendAll : Log → List Record → Log × List (Nat × Option Err)
  | l, [] => (l, [])
  | l, r :: rs =>
    let a := l.Append r
    let rest := Log.appendAll a.1 rs
    (rest.1, a.2 :: rest.2)

/-! ## Runs of store calls -/

/-- The bytes a store holds: the file followed by the bytes pending in the buffer. -/
def store.content (s : store) : List Nat := s.File ++ s.buf

/-- A call that changes a store: an append, or the flush of the buffer that
`store.Read`, `store.ReadAt` and `store.Close` start with. -/
inductive store.Call where
  | Append (input : List Nat)
  | Flush
  deriving DecidableEq

/-- One call on a store; an append gives back `(bytesWritten, pos)`. -/
def store.call (s : store) : store.Call → store × Option (Nat × Nat)
  | store.Call.Append input => ((s.Append input).1, some (s.Append input).2)
  | store.Call.Flush => (s.Flush, none)

/-- A sequence of calls on a store, with what each of them gave back. -/
def store.run : store → List store.Call → store × List (Option (Nat × Nat))
  | s, [] => (s, [])
  | s, c :: cs =>
    let r := s.call c
    let rest := store.run r.1 cs
    (rest.1, r.2 :: rest.2)

/-- The bytes that a sequence of calls adds to a store. -/
def store.Call.bytes : List store.Call → List Nat
  | [] => []
  | store.Call.Append input :: cs => storeRecord input ++ store.Call.bytes cs
  | store.Call.Flush :: cs => store.Call.bytes cs

/-- The entry number that `index.Read` uses for the argument `inp`. -/
def index.entryOf (i : index) (inp : Int) : Nat :=
  if inp = -1 then (i.size / entWidth + 2 ^ 64 - 1) % 2 ^ 64 % 2 ^ 32 else uint32 inp

/-! ## Views of the log used in the proofs -/

/-- The configuration after `NewLog` has set the defaults. -/
def Config.withDefaults (c : Config) : Config :=
  let c1 : Config :=
    if c.Segment.MaxStoreBytes = 0 then { Segment := { c.Segment with MaxStoreBytes := 1024 } }
    else c
  if c1.Segment.MaxIndexBytes = 0 then { Segment := { c1.Segment with MaxIndexBytes := 1024 } }
  else c1

/-- The log over an empty directory whose segment list holds, in order, every
segment object of `heap`, the last of them being the active segment. -/
def Log.ofHeap (c : Proglog.Config) (heap : List segment) : Log :=
  { Dir := [], Config := c, heap := heap, activeSegment := some (heap.length - 1),
    segments := List.range heap.length, removed := false }

/-- The loop of `Log.Read` over the segments themselves, `p` being the pointer
of the first of them. -/
def findSegment (off : Nat) : List segment → Nat → Option (Nat × segment)
  | [], _ => none
  | s :: ss, p =>
    if s.baseOffset ≤ off ∧ off < s.nextOffset then some (p, s) else findSegment off ss (p + 1)

/-- Segments that follow one another from `lo` to `hi`: each starts where the
one before it ends, and none ends before it starts. -/
def HeapChain : Nat → List segment → Nat → Prop
  | lo, [], hi => lo = hi
  | lo, s :: ss, hi => s.baseOffset = lo ∧ lo ≤ s.nextOffset ∧ HeapChain s.nextOffset ss hi

/-- Calling `Log.Read` on the offsets one after the other; returns the log and
what every call returned. -/
def Log.readAll : Log → List Nat → Log × List (Except Err Record)
  | l, [] => (l, [])
  | l, k :: ks =>
    let a := l.Read k
    let rest := Log.readAll a.1 ks
    (rest.1, a.2 :: rest.2)

/-- The log holds the segments of a heap that follow one another from `init`,
and its last segment ends at most `n` offsets after `init`. -/
def Log.Ordered (c : Proglog.Config) (init n : Nat) (l : Log) : Prop :=
  ∃ pre a, l = Log.ofHeap c (pre ++ [a]) ∧ HeapChain init (pre ++ [a]) a.nextOffset ∧
    a.nextOffset ≤ init + n

/-- The log holds the segments of a heap, the active one has room for another
entry and will give the offset `(init + n) % 2 ^ 64` next, and every segment
starts at `init` or right after one of the first `n` offsets given. -/
def Log.Dense (c : Proglog.Config) (init n : Nat) (l : Log) : Prop :=
  ∃ pre a, l = Log.ofHeap c (pre ++ [a]) ∧ a.config = c ∧
    a.index.mmap.length = c.Segment.MaxIndexBytes ∧ a.IsMaxed = false ∧
    a.nextOffset = (init + n) % 2 ^ 64 ∧
    ∀ s ∈ pre ++ [a], s.baseOffset = init ∨
      ∃ i, i < n ∧ s.baseOffset = ((init + i) % 2 ^ 64 + 1) % 2 ^ 64

/-- The index entries of the records `rs`, when the first of them has the
relative offset `rel` and lies at the position `pos` of the store. -/
def indexBytes : Nat → Nat → List Record → List Nat
  | _, _, [] => []
  | rel, pos, r :: rs =>
    encoding.PutUint32 rel ++ encoding.PutUint64 pos ++ indexBytes (rel + 1) (pos + (8 + r.length)) rs

/-- The segment `s`, opened with the configuration `c`, holds exactly the
records `g`: its store holds their store records, its index their entries, and
the counters agree with them and stay within their machine ranges. -/
structure segment.Holds (c : Config) (s : segment) (g : List Record) : Prop where
  config : s.config = c
  next : s.nextOffset = s.baseOffset + g.length
  next_lt : s.nextOffset < 2 ^ 64
  isize : s.index.size = 12 * g.length
  mlen : s.index.mmap.length = c.Segment.MaxIndexBytes
  room : 12 * g.length ≤ c.Segment.MaxIndexBytes
  entries : s.index.mmap.take (12 * g.length) = indexBytes 0 0 g
  content : s.store.content = storeBytes g
  ssize : s.store.size = (storeBytes g).length
  sfit : (storeBytes g).length < 2 ^ 63
  count : g.length ≤ 2 ^ 32

/-- The segments of a heap hold the records `rs` between them, in order, the
first segment starting at the offset `lo` and each next one where the one
before it ends. -/
def HeapHolds (c : Config) : Nat → List segment → List Record → Prop
  | _, [], rs => rs = []
  | lo, s :: ss, rs =>
    ∃ g rest, rs = g ++ rest ∧ s.baseOffset = lo ∧ s.Holds c g ∧
      HeapHolds c (lo + g.length) ss rest

/-- The log holds the records `rs` in the segments of its heap, from the offset
`init` on, and its active segment is not maxed. -/
def Log.Holds (c : Proglog.Config) (init : Nat) (l : Log) (rs : List Record) : Prop :=
  ∃ heap, l = Log.ofHeap c heap ∧ HeapHolds c init heap rs ∧
    (heap.map segment.IsMaxed).getLast? = some false

/-- A configuration whose first offset is the largest `uint64`, with room for
one entry in every index. -/
def Config.atTop : Config :=
  { Segment := { MaxStoreBytes := 32, MaxIndexBytes := 12, InitialOffset := 2 ^ 64 - 1 } }

/-- The configuration that leaves every option at zero, so that `NewLog` sets
both maxima to 1024. -/
def Config.zero : Config :=
  { Segment := { MaxStoreBytes := 0, MaxIndexBytes := 0, InitialOffset := 0 } }

/-- The configuration of the first end-to-end scenario of the spec. -/
def Config.scenario : Config :=
  { Segment := { MaxStoreBytes := 32, MaxIndexBytes := 36, InitialOffset := 0 } }

/-- The variable `write` of `store_test.go`: the bytes of "hello world". -/
def store_test.write : List Nat := [104, 101, 108, 108, 111, 32, 119, 111, 114, 108, 100]

/-! ## Closing, truncating and resetting -/

/-- The method `index.Close` on an index over a file: the mapping is synced to
the file, which is then truncated to the logical size and closed. Returns the
contents of the file afterwards; the mapping and the size stay as they are. -/
def index.Close (i : index) : List Nat :=
  (i.mmap ++ List.replicate (i.size - i.mmap.length) 0).take i.size

/-- Modelled from the spec: `close()` of section 4.3, for the method
`segment.Close` of the missing `segment.go`: close the index, then the store.
Closing the store flushes its buffer; closing the index changes neither the
mapping nor the size. -/
def segment.Close (s : segment) : segment :=
  { s with store := s.store.Close }

/-- Modelled from the spec: `remove()` of section 4.3, for the method
`segment.Remove` of the missing `segment.go`: close the segment, then delete
its two files from the directory. -/
def segment.Remove (s : segment) (dir : Dir) : segment × Dir :=
  (s.Close,
    dir.filter fun file =>
      !(file.1 == toString s.baseOffset ++ ".store" || file.1 == toString s.baseOffset ++ ".index"))

/-- The loop of `Log.Truncate` over the pointers still to visit, with the
directory, the heap, the new segment list and the pointers on which `Remove`
has been called so far. A nil pointer in the list is a panic. -/
def Log.Truncate.loop (lowest : Nat) :
    List Nat → Proglog.Dir → List segment → List Nat → List Nat →
      Except Err (Proglog.Dir × List segment × List Nat × List Nat)
  | [], dir, heap, segments, removed => Except.ok (dir, heap, segments, removed)
  | p :: ps, dir, heap, segments, removed =>
    match heap[p]? with
    | none => Except.error Err.panic
    | some s =>
      if s.nextOffset ≤ (lowest + 1) % 2 ^ 64 then
        Log.Truncate.loop lowest ps (s.Remove dir).2 (heap.set p (s.Remove dir).1) segments
          (removed ++ [p])
      else Log.Truncate.loop lowest ps dir heap (segments ++ [p]) removed

/-- The method `Log.Truncate`: returns the log afterwards, the pointers of the
segments on which `Remove` was called, in the order of the calls, and the
error. -/
def Log.Truncate (l : Log) (lowest : Nat) : Log × List Nat × Option Err :=
  match Log.Truncate.loop lowest l.segments l.Dir l.heap [] [] with
  | Except.error err => (l, [], some err)
  | Except.ok (dir, heap, segments, removed) =>
    ({ l with Dir := dir, heap := heap, segments := segments }, removed, none)

/-- The loop of `Log.Close`: every segment of the list is closed. A nil pointer
in the list is a panic. -/
def Log.Close.loop : List Nat → List segment → Except Err (List segment)
  | [], heap => Except.ok heap
  | p :: ps, heap =>
    match heap[p]? with
    | none => Except.error Err.panic
    | some s => Log.Close.loop ps (heap.set p s.Close)

/-- The method `Log.Close`. -/
def Log.Close (l : Log) : Log × Option Err :=
  match Log.Close.loop l.segments l.heap with
  | Except.error err => (l, some err)
  | Except.ok heap => ({ l with heap := heap }, none)

/-- The method `Log.Remove`: close, then `os.RemoveAll(l.Dir)`, which deletes
the files and the directory itself. The pointers stay in the segment list. -/
def Log.Remove (l : Log) : Log × Option Err :=
  match l.Close with
  | (l1, some err) => (l1, some err)
  | (l1, none) => ({ l1 with Dir := [], removed := true }, none)

/-- The method `Log.Reset`: remove, then `setup` on the log as `Remove` left it,
its segment list included; the error of `setup` is returned. -/
def Log.Reset (l : Log) : Log × Option Err :=
  match l.Remove with
  | (l1, some err) => (l1, some err)
  | (l1, none) => (l1.setup, Log.setup.err l1)

/-- The segments of the segment list, in order. -/
def Log.segmentList (l : Log) : List segment :=
  l.segments.filterMap fun p => l.heap[p]?

/-- A call that changes a log. -/
inductive Log.Call where
  | Append (record : Record)
  | Truncate (lowest : Nat)
  deriving DecidableEq

/-- One call on a log, with the error it returned. -/
def Log.call (l : Log) : Log.Call → Log × Option Err
  | Log.Call.Append record => ((l.Append record).1, (l.Append record).2.2)
  | Log.Call.Truncate lowest => ((l.Truncate lowest).1, (l.Truncate lowest).2.2)

/-- A sequence of calls on a log, with the error each of them returned. -/
def Log.run : Log → List Log.Call → Log × List (Option Err)
  | l, [] => (l, [])
  | l, c :: cs =>
    let r := l.call c
    let rest := Log.run r.1 cs
    (rest.1, r.2 :: rest.2)

/-- The number of `Append` calls in a sequence of calls. -/
def Log.Call.appends : List Log.Call → Nat
  | [] => 0
  | Log.Call.Append _ :: cs => Log.Call.appends cs + 1
  | Log.Call.Truncate _ :: cs => Log.Call.appends cs

/-- A sequence of `index.Write` calls, whatever each of them returns. -/
def index.writeAll : index → List (Nat × Nat) → index
  | i, [] => i
  | i, w :: ws => index.writeAll (i.Write w.1 w.2).1 ws

/-- The base offsets that `Log.setup` parses from the names of a directory. -/
def Dir.baseOffsets (dir : Dir) : List Nat :=
  dir.map fun file =>
    strconv.ParseUint (strings.TrimSuffix file.1.toList (path.Ext file.1.toList))

/-- A configuration under which a segment takes three records of the store
test: the index has room for three entries. -/
def Config.threeEntries : Config :=
  { Segment := { MaxStoreBytes := 1024, MaxIndexBytes := 36, InitialOffset := 0 } }

/-- The pair `(baseOffset, nextOffset)` of a segment. -/
def segment.span (s : segment) : Nat × Nat := (s.baseOffset, s.nextOffset)

/-- Every element twice: the sorted base offsets of a directory that holds the
two files of every segment. -/
def Log.setup.twice : List Nat → List Nat
  | [] => []
  | d :: ds => d :: d :: Log.setup.twice ds

/-- The relation between the spans of two segments that follow one another in
the heap: the first is not empty and ends where the second starts. -/
def segment.span.Follows (a b : Nat × Nat) : Prop := a.1 < a.2 ∧ a.2 = b.1 ∧ b.1 ≤ b.2

/-- What holds of a log reached from a new log by calls that succeeded, of
which `n` were appends: the active segment is the last one created, the
segment list holds the last segments created, and the segments created follow
one another from offsets that stay below `init + n`. -/
def Log.Sound (c : Proglog.Config) (init n : Nat) (l : Log) : Prop :=
  l.Dir = [] ∧ l.Config = c ∧ l.heap ≠ [] ∧ l.activeSegment = some (l.heap.length - 1) ∧
    (∃ j, j ≤ l.heap.length ∧ l.segments = List.range' j (l.heap.length - j)) ∧
    List.Chain' segment.span.Follows (l.heap.map segment.span) ∧
    ∀ x ∈ (l.heap.map segment.span).getLast?, x.1 ≤ x.2 ∧ x.2 ≤ init + n

/-- The log after `n` appends of the record of the store test to a new log on
an empty directory, under `Config.threeEntries`: its segments take three
records each. -/
def Log.appended (n : Nat) : Log :=
  ((NewLog [] Config.threeEntries).appendAll (List.replicate n store_test.write)).1

/-- Four appends, a truncation at offset 2 and one more append. -/
def Log.Call.scenario : List Log.Call :=
  [Log.Call.Append store_test.write, Log.Call.Append store_test.write,
    Log.Call.Append store_test.write, Log.Call.Append store_test.write,
    Log.Call.Truncate 2, Log.Call.Append store_test.write]

/-! # Properties

## Encoding and files -/

theorem encoding.PutUint64_length (v : Nat) : (encoding.PutUint64 v).length = 8 := rfl

theorem encoding.PutUint32_length (v : Nat) : (encoding.PutUint32 v).length = 4 := rfl

theorem encoding.Uint64_PutUint64 (v : Nat) (rest : List Nat) (h : v < 2 ^ 64) :
    encoding.Uint64 (encoding.PutUint64 v ++ rest) = v := by
  simp only [encoding.PutUint64, encoding.Uint64, List.cons_append, List.nil_append]
  omega

theorem encoding.Uint32_PutUint32 (v : Nat) (rest : List Nat) (h : v < 2 ^ 32) :
    encoding.Uint32 (encoding.PutUint32 v ++ rest) = v := by
  simp only [encoding.PutUint32, encoding.Uint32, List.cons_append, List.nil_append]
  omega

theorem int64_of_lt (v : Nat) (h : v < 2 ^ 63) : int64 v = (v : Int) := by
  unfold int64
  have h1 : v % 2 ^ 64 = v := Nat.mod_eq_of_lt (by omega)
  rw [h1, if_pos h]

theorem bufio.Write_content (file buf p : List Nat) :
    (bufio.Write file buf p).1 ++ (bufio.Write file buf p).2 = file ++ buf ++ p := by
  unfold bufio.Write
  split
  · simp
  · split
    · rename_i h
      have : buf = [] := List.length_eq_zero.mp h
      simp [this]
    · simp only []
      split <;> simp [List.append_assoc]

/-- Reading exactly the middle part of a file. -/
theorem File.ReadAt_mid (pre mid post p : List Nat) (h : p.length = mid.length) :
    File.ReadAt (pre ++ mid ++ post) p (pre.length : Int) = (mid, mid.length, none) := by
  unfold File.ReadAt
  have h0 : ¬ ((pre.length : Int) < 0) := by omega
  rw [if_neg h0]
  have h1 : ((pre ++ mid ++ post).drop (pre.length : Int).toNat).take p.length = mid := by
    simp [h, List.append_assoc]
  simp only [h1]
  rw [if_neg (by omega)]

/-! ## The store -/

theorem storeRecord_length (p : List Nat) : (storeRecord p).length = 8 + p.length := by
  simp [storeRecord, encoding.PutUint64_length]

theorem store.Flush_content (s : store) : s.Flush.content = s.content := by
  simp [store.Flush, store.content]

theorem store.Flush_File (s : store) : s.Flush.File = s.content := rfl

theorem store.Flush_size (s : store) : s.Flush.size = s.size := rfl

theorem store.Append_content (s : store) (p : List Nat) :
    (s.Append p).1.content = s.content ++ storeRecord p := by
  simp only [store.Append, store.content, storeRecord]
  rw [bufio.Write_content, bufio.Write_content]
  simp [List.append_assoc]

theorem store.Append_size (s : store) (p : List Nat) :
    (s.Append p).1.size = (s.size + (p.length + 8) % 2 ^ 64) % 2 ^ 64 := rfl

theorem store.Append_result (s : store) (p : List Nat) :
    (s.Append p).2 = ((p.length + 8) % 2 ^ 64, s.size) := rfl

/-- A record that lies in the bytes of a store is read back from its position. -/
theorem store.Read_of_content (s : store) (pre post p : List Nat)
    (hc : s.content = pre ++ storeRecord p ++ post) (hfit : pre.length + 8 + p.length < 2 ^ 63) :
    s.Read pre.length = (s.Flush, Except.ok p) := by
  have hlen : p.length % 2 ^ 64 = p.length := Nat.mod_eq_of_lt (by omega)
  have h1 : File.ReadAt s.Flush.File (List.replicate lenWidth 0) (int64 pre.length)
      = (encoding.PutUint64 p.length, 8, none) := by
    rw [store.Flush_File, hc, int64_of_lt _ (by omega), storeRecord, hlen]
    have := File.ReadAt_mid pre (encoding.PutUint64 p.length) (p ++ post)
      (List.replicate lenWidth 0) (by simp [lenWidth, encoding.PutUint64_length])
    simpa [List.append_assoc, encoding.PutUint64_length] using this
  have h2 : encoding.Uint64 (encoding.PutUint64 p.length) = p.length := by
    have := encoding.Uint64_PutUint64 p.length [] (by omega)
    simpa using this
  have h3 : File.ReadAt s.Flush.File (List.replicate p.length 0)
      (int64 ((pre.length + lenWidth) % 2 ^ 64)) = (p, p.length, none) := by
    have hm : (pre.length + lenWidth) % 2 ^ 64 = pre.length + 8 :=
      Nat.mod_eq_of_lt (by simp only [lenWidth]; omega)
    rw [store.Flush_File, hc, hm, int64_of_lt _ (by omega), storeRecord, hlen]
    have := File.ReadAt_mid (pre ++ encoding.PutUint64 p.length) p post
      (List.replicate p.length 0) (by simp)
    simpa [List.append_assoc, encoding.PutUint64_length] using this
  unfold store.Read
  simp only [h1, h2]
  rw [if_neg (by omega)]
  simp only [h3]

theorem store.call_content (s : store) (c : store.Call) :
    (s.call c).1.content = s.content ++ store.Call.bytes [c] := by
  cases c with
  | Append input => simp [store.call, store.Append_content, store.Call.bytes]
  | Flush => simp [store.call, store.Flush_content, store.Call.bytes]

theorem store.run_content (s : store) (cs : List store.Call) :
    (s.run cs).1.content = s.content ++ store.Call.bytes cs := by
  induction cs generalizing s with
  | nil => simp [store.run, store.Call.bytes]
  | cons c cs ih =>
    simp only [store.run]
    rw [ih, store.call_content]
    cases c <;> simp [store.Call.bytes, List.append_assoc]

/-- The size counter follows the bytes held as long as these stay below 2^64. -/
theorem store.call_size (s : store) (c : store.Call) (hs : s.size = s.content.length)
    (hfit : (s.call c).1.content.length < 2 ^ 64) :
    (s.call c).1.size = (s.call c).1.content.length := by
  cases c with
  | Append input =>
    simp only [store.call, store.Append_content, List.length_append, storeRecord_length] at hfit ⊢
    rw [store.Append_size, hs]
    omega
  | Flush => simpa [store.call, store.Flush_content, store.Flush_size] using hs

theorem store.run_read (s : store) (calls : List store.Call) (i : Nat) (p : List Nat)
    (hs : s.size = s.content.length)
    (hfit : (s.run calls).1.content.length < 2 ^ 63)
    (hi : calls[i]? = some (store.Call.Append p)) :
    ∃ pre post, (s.run calls).2[i]? = some (some ((p.length + 8) % 2 ^ 64, pre.length)) ∧
      (s.run calls).1.content = pre ++ storeRecord p ++ post ∧ s.content.length ≤ pre.length := by
  induction calls generalizing s i with
  | nil => simp at hi
  | cons c cs ih =>
    cases i with
    | zero =>
      simp only [List.getElem?_cons_zero, Option.some.injEq] at hi
      subst hi
      refine ⟨s.content, store.Call.bytes cs, ?_, ?_, Nat.le_refl _⟩
      · simp [store.run, store.call, store.Append_result, hs]
      · simp only [store.run]
        rw [store.run_content]
        simp [store.call, store.Append_content]
    | succ j =>
      simp only [List.getElem?_cons_succ] at hi
      simp only [store.run] at hfit ⊢
      have hs1 : (s.call c).1.size = (s.call c).1.content.length := by
        apply store.call_size s c hs
        rw [store.run_content] at hfit
        simp only [List.length_append] at hfit
        omega
      obtain ⟨pre, post, h1, h2, h3⟩ := ih (s.call c).1 j hs1 hfit hi
      refine ⟨pre, post, by simpa using h1, h2, ?_⟩
      rw [store.call_content, List.length_append] at h3
      omega

/-- Reading back what was appended, on any store whose size counter agrees with
the bytes it holds: after a sequence of appends and buffer flushes that keeps
the store below 2^63 bytes, the position returned for an appended payload `p`
lies behind the bytes the store started with and reads back exactly `p`, with
or without a flush, also through `newStore` over the flushed file. -/
theorem store.run_read_back (s : store) (calls : List store.Call) (i : Nat)
    (p : List Nat)
    (hs : s.size = s.File.length + s.buf.length)
    (hfit : (s.run calls).1.File.length + (s.run calls).1.buf.length < 2 ^ 63)
    (hi : calls[i]? = some (store.Call.Append p)) :
    ∃ n pos, (s.run calls).2[i]? = some (some (n, pos)) ∧
      s.File.length + s.buf.length ≤ pos ∧
      ((s.run calls).1.Read pos).2 = Except.ok p ∧
      ((s.run calls).1.Flush.Read pos).2 = Except.ok p ∧
      ((newStore (s.run calls).1.Flush.File).Read pos).2 = Except.ok p := by
  have hs1 : s.size = s.content.length := by simpa [store.content] using hs
  have hfit1 : (s.run calls).1.content.length < 2 ^ 63 := by simpa [store.content] using hfit
  obtain ⟨pre, post, h1, h2, h3⟩ := store.run_read s calls i p hs1 hfit1 hi
  have hlen : pre.length + 8 + p.length < 2 ^ 63 := by
    rw [h2] at hfit1
    simp only [List.length_append, storeRecord_length] at hfit1
    omega
  refine ⟨_, _, h1, by simpa [store.content] using h3, ?_, ?_, ?_⟩
  · rw [store.Read_of_content _ pre post p h2 hlen]
  · rw [store.Read_of_content _ pre post p (by rw [store.Flush_content, h2]) hlen]
  · rw [store.Read_of_content _ pre post p
      (by rw [store.Flush_File, ← h2]; simp [newStore, store.content]) hlen]

/-- C5. Round trip of `store.Append` and `store.Read`: on the store that
`newStore` makes over any file (an empty one, or one that holds earlier
records), after any sequence of appends and buffer flushes that keeps the store
below 2^63 bytes, the position returned for an appended payload `p` lies behind
the bytes of the file and reads back exactly `p`, whatever follows the append
and whether the buffer is flushed or not, and so does a store made by
`newStore` over the flushed file. -/
theorem store_append_read_roundtrip (file : List Nat) (calls : List store.Call) (i : Nat)
    (p : List Nat)
    (hfit : ((newStore file).run calls).1.File.length
      + ((newStore file).run calls).1.buf.length < 2 ^ 63)
    (hi : calls[i]? = some (store.Call.Append p)) :
    ∃ n pos, ((newStore file).run calls).2[i]? = some (some (n, pos)) ∧
      file.length ≤ pos ∧
      (((newStore file).run calls).1.Read pos).2 = Except.ok p ∧
      (((newStore file).run calls).1.Flush.Read pos).2 = Except.ok p ∧
      ((newStore ((newStore file).run calls).1.Flush.File).Read pos).2 = Except.ok p := by
  have hfile : file.length < 2 ^ 63 := by
    have h := store.run_content (newStore file) calls
    have hc : ((newStore file).run calls).1.content.length < 2 ^ 63 := by
      simpa [store.content] using hfit
    rw [h, List.length_append] at hc
    simp only [store.content, newStore, List.append_nil] at hc
    omega
  have hs : (newStore file).size = (newStore file).File.length + (newStore file).buf.length := by
    simp only [newStore, List.length_nil, Nat.add_zero]
    exact Nat.mod_eq_of_lt (by omega)
  obtain ⟨n, pos, h1, h2, h3⟩ := store.run_read_back (newStore file) calls i p hs hfit hi
  exact ⟨n, pos, h1, by simpa [newStore] using h2, h3⟩

/-- C5 over a file that holds one record of the store test: two appends with a
flush between them; the second is returned position 38 and read back. -/
theorem store_append_read_roundtrip_witness :
    ((newStore (storeBytes [store_test.write])).run [store.Call.Append store_test.write,
        store.Call.Flush, store.Call.Append store_test.write]).1.File.length
      + ((newStore (storeBytes [store_test.write])).run [store.Call.Append store_test.write,
        store.Call.Flush, store.Call.Append store_test.write]).1.buf.length < 2 ^ 63 ∧
    ((newStore (storeBytes [store_test.write])).run [store.Call.Append store_test.write,
        store.Call.Flush, store.Call.Append store_test.write]).2[2]? = some (some (19, 38)) ∧
    (((newStore (storeBytes [store_test.write])).run [store.Call.Append store_test.write,
        store.Call.Flush, store.Call.Append store_test.write]).1.Read 38).2
      = Except.ok store_test.write ∧
    ∃ n pos, ((newStore (storeBytes [store_test.write])).run
        [store.Call.Append store_test.write, store.Call.Flush,
          store.Call.Append store_test.write]).2[2]? = some (some (n, pos)) ∧
      (storeBytes [store_test.write]).length ≤ pos ∧
      (((newStore (storeBytes [store_test.write])).run [store.Call.Append store_test.write,
        store.Call.Flush, store.Call.Append store_test.write]).1.Read pos).2
        = Except.ok store_test.write ∧
      (((newStore (storeBytes [store_test.write])).run [store.Call.Append store_test.write,
        store.Call.Flush, store.Call.Append store_test.write]).1.Flush.Read pos).2
        = Except.ok store_test.write ∧
      ((newStore ((newStore (storeBytes [store_test.write])).run
        [store.Call.Append store_test.write, store.Call.Flush,
          store.Call.Append store_test.write]).1.Flush.File).Read pos).2
        = Except.ok store_test.write :=
  ⟨by decide, by decide, by decide,
    store_append_read_roundtrip (storeBytes [store_test.write])
      [store.Call.Append store_test.write, store.Call.Flush, store.Call.Append store_test.write]
      2 store_test.write (by decide) (by decide)⟩

theorem store.appendAll_content (s : store) (ps : List (List Nat)) :
    (s.appendAll ps).1.content = s.content ++ storeBytes ps := by
  induction ps generalizing s with
  | nil => simp [store.appendAll, storeBytes]
  | cons p ps ih =>
    simp only [store.appendAll]
    rw [ih, store.Append_content]
    simp [storeBytes, List.append_assoc]

theorem storeBytes_append (ps qs : List (List Nat)) :
    storeBytes (ps ++ qs) = storeBytes ps ++ storeBytes qs := by
  induction ps with
  | nil => simp [storeBytes]
  | cons p ps ih => simp [storeBytes, ih, List.append_assoc]

/-- Every append of a run returns the number of bytes of its record and the
number of bytes held before it, as long as the size counter does not wrap. -/
theorem store.appendAll_results (s : store) (ps : List (List Nat))
    (hs : s.size = s.content.length)
    (hfit : s.content.length + (storeBytes ps).length < 2 ^ 64) (i : Nat) (hi : i < ps.length) :
    (s.appendAll ps).2[i]? =
      some (8 + (ps[i]).length, s.content.length + (storeBytes (ps.take i)).length) := by
  induction ps generalizing s i with
  | nil => simp at hi
  | cons p ps ih =>
    simp only [storeBytes, List.length_append, storeRecord_length] at hfit
    cases i with
    | zero =>
      simp only [store.appendAll, List.getElem?_cons_zero, store.Append_result,
        List.getElem_cons_zero, List.take_zero, storeBytes, List.length_nil, Nat.add_zero, hs]
      rw [Nat.mod_eq_of_lt (by omega), Nat.add_comm]
    | succ j =>
      simp only [List.length_cons, Nat.add_lt_add_iff_right] at hi
      have hs1 : (s.Append p).1.size = (s.Append p).1.content.length := by
        rw [store.Append_size, store.Append_content, List.length_append, storeRecord_length, hs]
        omega
      have := ih (s.Append p).1 hs1
        (by rw [store.Append_content, List.length_append, storeRecord_length]; omega) j hi
      simp only [store.appendAll, List.getElem?_cons_succ, List.getElem_cons_succ,
        List.take_succ_cons, storeBytes, List.length_append, storeRecord_length]
      rw [this, store.Append_content, List.length_append, storeRecord_length]
      simp only [Option.some.injEq, Prod.mk.injEq, true_and]
      omega

/-- C6. A `store.Append(p)` on a store of logical size `s` returns
`bytesWritten = 8 + len(p)` and `pos = s` and leaves the logical size at
`s + 8 + len(p)` (the 64-bit counter not wrapping); hence the `i`-th of a run of
appends of payloads of length `w - 8` to an empty store has
`pos + bytesWritten = w * i`. -/
theorem store_append_position (s : store) (p : List Nat)
    (hfit : s.size + 8 + p.length < 2 ^ 64) :
    (s.Append p).2 = (8 + p.length, s.size) ∧
      (s.Append p).1.size = s.size + 8 + p.length ∧
      ∀ (w : Nat) (ps : List (List Nat)) (i : Nat), i < ps.length →
        (∀ q ∈ ps, q.length + 8 = w) → w * ps.length < 2 ^ 64 →
        ∃ n pos, ((newStore []).appendAll ps).2[i]? = some (n, pos) ∧ pos + n = w * (i + 1) := by
  refine ⟨?_, ?_, ?_⟩
  · rw [store.Append_result, Nat.mod_eq_of_lt (by omega), Nat.add_comm]
  · rw [store.Append_size]
    omega
  · intro w ps i hi hw hfit2
    have hbytes : ∀ qs : List (List Nat), (∀ q ∈ qs, q.length + 8 = w) →
        (storeBytes qs).length = w * qs.length := by
      intro qs
      induction qs with
      | nil => simp [storeBytes]
      | cons q qs ih =>
        intro h
        simp only [storeBytes, List.length_append, storeRecord_length, List.length_cons]
        rw [ih (fun x hx => h x (List.mem_cons_of_mem _ hx)), Nat.mul_succ]
        have := h q (List.mem_cons_self _ _)
        omega
    have h0 : (newStore []).content.length = 0 := rfl
    have hres := store.appendAll_results (newStore []) ps rfl
      (by rw [h0, hbytes ps hw]; omega) i hi
    refine ⟨_, _, hres, ?_⟩
    rw [h0, hbytes (ps.take i) (fun q hq => hw q (List.mem_of_mem_take hq))]
    have hq := hw ps[i] (List.getElem_mem _)
    rw [List.length_take, Nat.min_eq_left (by omega), Nat.mul_succ]
    omega


/-- C6 at the first append of the store test. -/
theorem store_append_position_witness :
    (newStore []).size + 8 + store_test.write.length < 2 ^ 64 ∧
    ((newStore []).Append store_test.write).2 = (8 + store_test.write.length, (newStore []).size) ∧
    ((newStore []).Append store_test.write).1.size
      = (newStore []).size + 8 + store_test.write.length :=
  ⟨by decide, (store_append_position (newStore []) store_test.write (by decide)).1,
    (store_append_position (newStore []) store_test.write (by decide)).2.1⟩

theorem storeBytes_split (ps : List (List Nat)) (i : Nat) (hi : i < ps.length) :
    storeBytes ps = storeBytes (ps.take i) ++ storeRecord ps[i] ++ storeBytes (ps.drop (i + 1)) := by
  conv_lhs => rw [← List.take_append_drop i ps, List.drop_eq_getElem_cons hi]
  rw [storeBytes_append]
  simp [storeBytes, List.append_assoc]

/-- C7. Store byte layout: after the payloads `ps` are appended to an empty
store, `store.ReadAt` reads the file made of the records of `ps` in order, each
the 8-byte big-endian length followed by the payload; 8 bytes read at `pos_i`
decode to `len(p_i)`, and `len(p_i)` bytes read at `pos_i + 8` are `p_i`, with
`len(p_i)` reported as read. -/
theorem store_byte_layout (ps : List (List Nat)) (hfit : (storeBytes ps).length < 2 ^ 63) :
    (∀ (p : List Nat) (off : Int),
        (((newStore []).appendAll ps).1.ReadAt p off).2 = File.ReadAt (storeBytes ps) p off) ∧
      ∀ (i : Nat) (hi : i < ps.length), ∃ n pos,
        ((newStore []).appendAll ps).2[i]? = some (n, pos) ∧
        (∀ b : List Nat, b.length = 8 → ∃ b1,
          (((newStore []).appendAll ps).1.ReadAt b (pos : Int)).2 = (b1, 8, none) ∧
          encoding.Uint64 b1 = (ps[i]).length) ∧
        (∀ b : List Nat, b.length = (ps[i]).length →
          (((newStore []).appendAll ps).1.ReadAt b ((pos : Int) + 8)).2
            = (ps[i], (ps[i]).length, none)) := by
  have hcontent : ((newStore []).appendAll ps).1.Flush.File = storeBytes ps := by
    rw [store.Flush_File, store.appendAll_content]
    simp [newStore, store.content]
  have hread : ∀ (p : List Nat) (off : Int),
      (((newStore []).appendAll ps).1.ReadAt p off).2 = File.ReadAt (storeBytes ps) p off := by
    intro p off
    simp only [store.ReadAt, hcontent]
  refine ⟨hread, ?_⟩
  intro i hi
  have h0 : (newStore []).content.length = 0 := rfl
  have hres := store.appendAll_results (newStore []) ps rfl (by rw [h0]; omega) i hi
  rw [h0, Nat.zero_add] at hres
  have hsplit := storeBytes_split ps i hi
  have hlen : (storeBytes (ps.take i)).length + 8 + (ps[i]).length < 2 ^ 63 := by
    rw [hsplit] at hfit
    simp only [List.length_append, storeRecord_length] at hfit
    omega
  refine ⟨_, _, hres, ?_, ?_⟩
  · intro b hb
    refine ⟨encoding.PutUint64 (ps[i]).length, ?_, ?_⟩
    · rw [hread, hsplit, storeRecord, Nat.mod_eq_of_lt (by omega)]
      have := File.ReadAt_mid (storeBytes (ps.take i)) (encoding.PutUint64 (ps[i]).length)
        (ps[i] ++ storeBytes (ps.drop (i + 1))) b (by simp [hb, encoding.PutUint64_length])
      simpa [List.append_assoc, encoding.PutUint64_length] using this
    · simpa using encoding.Uint64_PutUint64 (ps[i]).length [] (by omega)
  · intro b hb
    rw [hread, hsplit, storeRecord, Nat.mod_eq_of_lt (by omega)]
    have := File.ReadAt_mid (storeBytes (ps.take i) ++ encoding.PutUint64 (ps[i]).length) ps[i]
      (storeBytes (ps.drop (i + 1))) b hb
    simpa [List.append_assoc, encoding.PutUint64_length] using this

/-- C7 at the three appends of the store test: the first eight bytes. -/
theorem store_byte_layout_witness :
    (storeBytes [store_test.write, store_test.write, store_test.write]).length < 2 ^ 63 ∧
    (((newStore []).appendAll [store_test.write, store_test.write, store_test.write]).1.ReadAt
        [0, 0, 0, 0, 0, 0, 0, 0] 0).2
      = File.ReadAt (storeBytes [store_test.write, store_test.write, store_test.write])
        [0, 0, 0, 0, 0, 0, 0, 0] 0 :=
  ⟨by decide,
    (store_byte_layout [store_test.write, store_test.write, store_test.write] (by decide)).1
      [0, 0, 0, 0, 0, 0, 0, 0] 0⟩

/-- C8. The method `store.Close` flushes the write buffer: on a store whose
logical size is the file length plus the buffered bytes, the file after `Close`
has the logical size as its length and holds the old file followed by the
buffer, hence all appended records in order; after an append that left bytes in
the buffer, and so after any append of at most 4088 bytes to a new empty store,
the file is strictly longer after `Close` than before it. -/
theorem store_close_flushes (s : store) (hs : s.size = s.File.length + s.buf.length) :
    s.Close.File.length = s.size ∧ s.Close.File = s.File ++ s.buf ∧
      (∀ ps : List (List Nat),
        (s.appendAll ps).1.Close.File = s.File ++ s.buf ++ storeBytes ps) ∧
      (∀ p : List Nat, (s.Append p).1.buf ≠ [] →
        (s.Append p).1.File.length < (s.Append p).1.Close.File.length) ∧
      (∀ p : List Nat, p.length + 8 ≤ 4096 →
        ((newStore []).Append p).1.File.length < ((newStore []).Append p).1.Close.File.length) := by
  refine ⟨?_, rfl, ?_, ?_, ?_⟩
  · simp [store.Close, store.Flush, hs]
  · intro ps
    have := store.appendAll_content s ps
    simpa [store.Close, store.Flush_File, store.content] using this
  · intro p hp
    simp only [store.Close, store.Flush, List.length_append]
    have : 0 < (s.Append p).1.buf.length := List.length_pos.mpr hp
    omega
  · intro p hp
    have h1 : ((newStore []).Append p).1.File = [] := by
      simp only [store.Append, newStore, bufio.Write, bufio.defaultBufSize, List.length_nil,
        encoding.PutUint64_length]
      simp only [Nat.sub_zero, Nat.reduceLeDiff, if_true, List.nil_append]
      rw [if_pos (by rw [encoding.PutUint64_length]; omega)]
    have h2 := store.Append_content (newStore []) p
    simp only [store.Close, store.Flush_File, h2, h1, List.length_nil, List.length_append,
      storeRecord_length]
    omega


/-- C8 at the store of the close test: one append, still in the buffer. -/
theorem store_close_flushes_witness :
    ((newStore []).Append store_test.write).1.size
      = ((newStore []).Append store_test.write).1.File.length
        + ((newStore []).Append store_test.write).1.buf.length ∧
    ((newStore []).Append store_test.write).1.Close.File.length
      = ((newStore []).Append store_test.write).1.size :=
  ⟨by decide,
    (store_close_flushes ((newStore []).Append store_test.write).1 (by decide)).1⟩

/-! ## The index -/

theorem uint32_of_nat (m : Nat) (h : m < 2 ^ 32) : uint32 (m : Int) = m := by
  unfold uint32
  omega

theorem uint32_lt (v : Int) : uint32 v < 2 ^ 32 := by
  unfold uint32
  omega

theorem index.entryOf_lt (i : index) (inp : Int) : i.entryOf inp < 2 ^ 32 := by
  unfold index.entryOf
  split
  · exact Nat.mod_lt _ (by norm_num)
  · exact uint32_lt _

theorem index.Read_eq (i : index) (inp : Int) :
    i.Read inp =
      if i.size = 0 then Except.error Err.EOF
      else if i.size < (i.entryOf inp * entWidth % 2 ^ 64 + entWidth) % 2 ^ 64 then
        Except.error Err.EOF
      else
        match slice i.mmap (i.entryOf inp * entWidth % 2 ^ 64)
            ((i.entryOf inp * entWidth % 2 ^ 64 + offWidth) % 2 ^ 64),
          slice i.mmap ((i.entryOf inp * entWidth % 2 ^ 64 + offWidth) % 2 ^ 64)
            ((i.entryOf inp * entWidth % 2 ^ 64 + entWidth) % 2 ^ 64) with
        | some a, some b => Except.ok (encoding.Uint32 a, encoding.Uint64 b)
        | _, _ => Except.error Err.panic := rfl

theorem index.Read_eof (i : index) (inp : Int) (h : i.size < 12 * i.entryOf inp + 12) :
    i.Read inp = Except.error Err.EOF := by
  have hlt := i.entryOf_lt inp
  rw [index.Read_eq]
  split
  · rfl
  · rw [if_pos]
    simp only [entWidth, offWidth, posWidth]
    omega

theorem index.Read_entry (i : index) (inp : Int) (hsz : i.size ≤ i.mmap.length)
    (h : 12 * i.entryOf inp + 12 ≤ i.size) :
    i.Read inp = Except.ok
      (encoding.Uint32 ((i.mmap.drop (12 * i.entryOf inp)).take 4),
        encoding.Uint64 ((i.mmap.drop (12 * i.entryOf inp + 4)).take 8)) := by
  have hlt := i.entryOf_lt inp
  rw [index.Read_eq, if_neg (by omega)]
  have e1 : i.entryOf inp * entWidth % 2 ^ 64 = 12 * i.entryOf inp := by
    simp only [entWidth, offWidth, posWidth]; omega
  have e2 : (12 * i.entryOf inp + offWidth) % 2 ^ 64 = 12 * i.entryOf inp + 4 := by
    simp only [offWidth]; omega
  have e3 : (12 * i.entryOf inp + entWidth) % 2 ^ 64 = 12 * i.entryOf inp + 12 := by
    simp only [entWidth, offWidth, posWidth]; omega
  simp only [e1, e2, e3]
  rw [if_neg (by omega)]
  have s1 : slice i.mmap (12 * i.entryOf inp) (12 * i.entryOf inp + 4)
      = some ((i.mmap.drop (12 * i.entryOf inp)).take 4) := by
    unfold slice
    rw [if_pos (by omega)]
    congr 2
    omega
  have s2 : slice i.mmap (12 * i.entryOf inp + 4) (12 * i.entryOf inp + 12)
      = some ((i.mmap.drop (12 * i.entryOf inp + 4)).take 8) := by
    unfold slice
    rw [if_pos (by omega)]
    congr 2
    omega
  simp only [s1, s2]

/-- C10, amended. For an index with `size <= len(mmap)` and an entry number
`n >= 0` given as an `int64`, `index.Read(n)` works on the entry number
`uint32(n)`, which is `n` itself when `n < 2^32`: if `size < 12 * uint32(n) + 12`
it fails with `io.EOF`, and otherwise it returns the 4-byte big-endian relative
offset at the mapping bytes `[12 * uint32(n), 12 * uint32(n) + 4)` and the
8-byte big-endian position at the 8 bytes after them. -/
theorem index_read_entry (i : index) (n : Int) (hsz : i.size ≤ i.mmap.length) (h0 : 0 ≤ n) :
    (n < 2 ^ 32 → uint32 n = n.toNat) ∧
    (i.size < 12 * uint32 n + 12 → i.Read n = Except.error Err.EOF) ∧
    (12 * uint32 n + 12 ≤ i.size →
      i.Read n = Except.ok
        (encoding.Uint32 ((i.mmap.drop (12 * uint32 n)).take 4),
          encoding.Uint64 ((i.mmap.drop (12 * uint32 n + 4)).take 8))) := by
  have he : i.entryOf n = uint32 n := by
    unfold index.entryOf
    rw [if_neg (by omega)]
  refine ⟨?_, ?_, ?_⟩
  · intro h
    unfold uint32
    omega
  · intro h
    exact i.Read_eof n (by rw [he]; exact h)
  · intro h
    have := i.Read_entry n hsz (by rw [he]; exact h)
    rwa [he] at this

/-- C10 as stated fails: with one entry in the index, entry number 2^32 lies
past the size, and `index.Read(2^32)` returns entry 0 instead of `io.EOF`. -/
theorem index_read_entry_counterexample :
    (index.mk [0, 0, 0, 1, 0, 0, 0, 0, 0, 0, 0, 5] 12).size
        ≤ (index.mk [0, 0, 0, 1, 0, 0, 0, 0, 0, 0, 0, 5] 12).mmap.length ∧
      (0 : Int) ≤ 2 ^ 32 ∧
      ((index.mk [0, 0, 0, 1, 0, 0, 0, 0, 0, 0, 0, 5] 12).size : Int) < 12 * 2 ^ 32 + 12 ∧
      (index.mk [0, 0, 0, 1, 0, 0, 0, 0, 0, 0, 0, 5] 12).Read (2 ^ 32) = Except.ok (1, 5) := by
  decide

/-- C10 amended, at the second entry of an index of two entries. -/
theorem index_read_entry_witness :
    (index.mk [0, 0, 0, 0, 0, 0, 0, 0, 0, 0, 0, 0, 0, 0, 0, 1, 0, 0, 0, 0, 0, 0, 0, 19] 24).size
      ≤ (index.mk [0, 0, 0, 0, 0, 0, 0, 0, 0, 0, 0, 0, 0, 0, 0, 1, 0, 0, 0, 0, 0, 0, 0, 19]
        24).mmap.length ∧
    (0 : Int) ≤ 1 ∧
    (12 * uint32 1 + 12
        ≤ (index.mk [0, 0, 0, 0, 0, 0, 0, 0, 0, 0, 0, 0, 0, 0, 0, 1, 0, 0, 0, 0, 0, 0, 0, 19]
          24).size →
      (index.mk [0, 0, 0, 0, 0, 0, 0, 0, 0, 0, 0, 0, 0, 0, 0, 1, 0, 0, 0, 0, 0, 0, 0, 19] 24).Read 1
        = Except.ok
          (encoding.Uint32 (((index.mk
              [0, 0, 0, 0, 0, 0, 0, 0, 0, 0, 0, 0, 0, 0, 0, 1, 0, 0, 0, 0, 0, 0, 0, 19]
              24).mmap.drop (12 * uint32 1)).take 4),
            encoding.Uint64 (((index.mk
              [0, 0, 0, 0, 0, 0, 0, 0, 0, 0, 0, 0, 0, 0, 0, 1, 0, 0, 0, 0, 0, 0, 0, 19]
              24).mmap.drop (12 * uint32 1 + 4)).take 8))) :=
  ⟨by decide, by decide,
    (index_read_entry
      (index.mk [0, 0, 0, 0, 0, 0, 0, 0, 0, 0, 0, 0, 0, 0, 0, 1, 0, 0, 0, 0, 0, 0, 0, 19] 24) 1
      (by decide) (by decide)).2.2⟩

theorem index.Write_ok (i : index) (off pos : Nat) (hroom : i.size + 12 ≤ i.mmap.length)
    (h64 : i.size + 12 < 2 ^ 64) :
    i.Write off pos =
      ({ mmap := i.mmap.take i.size ++ (encoding.PutUint32 off ++ encoding.PutUint64 pos)
            ++ i.mmap.drop (i.size + 12),
         size := i.size + 12 }, none) := by
  have e2 : (i.size + offWidth) % 2 ^ 64 = i.size + 4 := by
    simp only [offWidth]; omega
  have e3 : (i.size + entWidth) % 2 ^ 64 = i.size + 12 := by
    simp only [entWidth, offWidth, posWidth]; omega
  unfold index.Write
  simp only [e2, e3]
  rw [if_neg (by omega)]
  have s1 : slice i.mmap i.size (i.size + 4) = some ((i.mmap.drop i.size).take (i.size + 4 - i.size)) := by
    unfold slice
    rw [if_pos (by omega)]
  have p1 : putAt i.mmap i.size (encoding.PutUint32 off)
      = some (i.mmap.take i.size ++ encoding.PutUint32 off ++ i.mmap.drop (i.size + 4)) := by
    unfold putAt
    rw [if_pos (by rw [encoding.PutUint32_length]; omega), encoding.PutUint32_length]
  have hl1 : (i.mmap.take i.size ++ encoding.PutUint32 off ++ i.mmap.drop (i.size + 4)).length
      = i.mmap.length := by
    simp only [List.length_append, List.length_take, List.length_drop, encoding.PutUint32_length]
    omega
  have s2 : slice (i.mmap.take i.size ++ encoding.PutUint32 off ++ i.mmap.drop (i.size + 4))
      (i.size + 4) (i.size + 12) ≠ none := by
    unfold slice
    rw [if_pos (by rw [hl1]; omega)]
    simp
  have p2 : putAt (i.mmap.take i.size ++ encoding.PutUint32 off ++ i.mmap.drop (i.size + 4))
      (i.size + 4) (encoding.PutUint64 pos)
      = some (i.mmap.take i.size ++ (encoding.PutUint32 off ++ encoding.PutUint64 pos)
          ++ i.mmap.drop (i.size + 12)) := by
    unfold putAt
    rw [if_pos (by rw [hl1, encoding.PutUint64_length]; omega), encoding.PutUint64_length]
    have hlen : (i.mmap.take i.size ++ encoding.PutUint32 off).length = i.size + 4 := by
      simp only [List.length_append, List.length_take, encoding.PutUint32_length]
      omega
    rw [List.take_append_of_le_length (by omega), List.take_of_length_le (by omega),
      List.drop_append_eq_append_drop, List.drop_of_length_le (by omega), hlen, List.drop_drop]
    simp only [List.nil_append, List.append_assoc, Option.some.injEq, List.append_cancel_left_eq]
    congr 1
    omega
  simp only [s1, p1]
  split
  · rename_i h
    exact absurd h s2
  · simp only [p2]


/-- A window that lies in the first part of a list does not see the rest. -/
theorem List.take_drop_append_left {α : Type} (pre rest : List α) (a n : Nat)
    (h : a + n ≤ pre.length) : ((pre ++ rest).drop a).take n = (pre.drop a).take n := by
  rw [List.drop_append_of_le_length (by omega), List.take_append_of_le_length]
  rw [List.length_drop]
  omega

/-- A window below `k` is the same in a list and in its first `k` elements. -/
theorem List.take_drop_take {α : Type} (m : List α) (k a n : Nat) (h : a + n ≤ k)
    (hk : k ≤ m.length) : ((m.take k).drop a).take n = (m.drop a).take n := by
  conv_rhs => rw [← List.take_append_drop k m]
  rw [List.take_drop_append_left]
  rw [List.length_take]
  omega


/-- An entry written right after `12 * k` bytes is what reading entry `k` gives. -/
theorem index.Read_written (i1 : index) (pre rest : List Nat) (off pos k : Nat) (inp : Int)
    (hm : i1.mmap = pre ++ (encoding.PutUint32 off ++ encoding.PutUint64 pos) ++ rest)
    (hpre : pre.length = 12 * k) (hs : 12 * k + 12 ≤ i1.size) (hlen : i1.size ≤ i1.mmap.length)
    (hoff : off < 2 ^ 32) (hpos : pos < 2 ^ 64) (he : i1.entryOf inp = k) :
    i1.Read inp = Except.ok (off, pos) := by
  rw [index.Read_entry i1 inp hlen (by rw [he]; exact hs), he, hm]
  have d1 : (pre ++ (encoding.PutUint32 off ++ encoding.PutUint64 pos) ++ rest).drop (12 * k)
      = encoding.PutUint32 off ++ (encoding.PutUint64 pos ++ rest) := by
    rw [List.append_assoc, ← hpre, List.drop_left]
    simp
  have d2 : (pre ++ (encoding.PutUint32 off ++ encoding.PutUint64 pos) ++ rest).drop (12 * k + 4)
      = encoding.PutUint64 pos ++ rest := by
    rw [← List.drop_drop, d1]
    have := List.drop_left (encoding.PutUint32 off) (encoding.PutUint64 pos ++ rest)
    rwa [encoding.PutUint32_length] at this
  rw [d1, d2]
  have t1 : (encoding.PutUint32 off ++ (encoding.PutUint64 pos ++ rest)).take 4
      = encoding.PutUint32 off := by
    have := List.take_left (encoding.PutUint32 off) (encoding.PutUint64 pos ++ rest)
    rwa [encoding.PutUint32_length] at this
  have t2 : (encoding.PutUint64 pos ++ rest).take 8 = encoding.PutUint64 pos := by
    have := List.take_left (encoding.PutUint64 pos) rest
    rwa [encoding.PutUint64_length] at this
  rw [t1, t2]
  have u1 := encoding.Uint32_PutUint32 off [] hoff
  have u2 := encoding.Uint64_PutUint64 pos [] hpos
  simp only [List.append_nil] at u1 u2
  rw [u1, u2]

/-- C9. Round trip of `index.Write` and `index.Read`: on an index of `k < 2^32`
entries (`size = 12 * k`) with room for one more (`size + 12 <= len(mmap)`),
`Write(off, pos)` succeeds, after it `Read(k)` and `Read(-1)` both return
`(off, pos)`, the size has grown by exactly 12, and `Read(j)` for every entry
`j < k` returns what it returned before. -/
theorem index_write_read_roundtrip (i : index) (off pos k : Nat)
    (hk : i.size = 12 * k) (hk32 : k < 2 ^ 32) (hroom : i.size + 12 ≤ i.mmap.length)
    (hoff : off < 2 ^ 32) (hpos : pos < 2 ^ 64) :
    (i.Write off pos).2 = none ∧
      (i.Write off pos).1.Read (k : Int) = Except.ok (off, pos) ∧
      (i.Write off pos).1.Read (-1) = Except.ok (off, pos) ∧
      (i.Write off pos).1.size = i.size + 12 ∧
      ∀ j : Nat, j < k → (i.Write off pos).1.Read (j : Int) = i.Read (j : Int) := by
  have hw := index.Write_ok i off pos hroom (by omega)
  have hl : (i.mmap.take i.size).length = 12 * k := by
    rw [List.length_take]; omega
  have hmm : (i.Write off pos).1.mmap = i.mmap.take i.size
      ++ (encoding.PutUint32 off ++ encoding.PutUint64 pos) ++ i.mmap.drop (i.size + 12) := by
    rw [hw]
  have hsz : (i.Write off pos).1.size = i.size + 12 := by rw [hw]
  have hlen : (i.Write off pos).1.mmap.length = i.mmap.length := by
    rw [hmm]
    simp only [List.length_append, List.length_take, List.length_drop, encoding.PutUint32_length,
      encoding.PutUint64_length]
    omega
  refine ⟨by rw [hw], ?_, ?_, hsz, ?_⟩
  · apply index.Read_written _ _ _ off pos k _ hmm hl (by omega) (by omega) hoff hpos
    unfold index.entryOf
    rw [if_neg (by omega)]
    exact uint32_of_nat k hk32
  · apply index.Read_written _ _ _ off pos k _ hmm hl (by omega) (by omega) hoff hpos
    unfold index.entryOf
    rw [if_pos rfl, hsz]
    simp only [entWidth, offWidth, posWidth]
    omega
  · intro j hj
    have he1 : ∀ i1 : index, i1.entryOf (j : Int) = j := by
      intro i1
      unfold index.entryOf
      rw [if_neg (by omega)]
      exact uint32_of_nat j (by omega)
    rw [index.Read_entry _ (j : Int) (by omega) (by rw [he1]; omega),
      index.Read_entry i (j : Int) (by omega) (by rw [he1]; omega), he1, he1, hmm]
    rw [List.append_assoc, List.take_drop_append_left _ _ _ _ (by omega),
      List.take_drop_append_left _ _ _ _ (by omega),
      List.take_drop_take _ _ _ _ (by omega) (by omega),
      List.take_drop_take _ _ _ _ (by omega) (by omega)]


/-- C9 at an index of one entry in a mapping of 36 bytes. -/
theorem index_write_read_roundtrip_witness :
    (index.mk (List.replicate 36 0) 12).size = 12 * 1 ∧ 1 < 2 ^ 32 ∧
    (index.mk (List.replicate 36 0) 12).size + 12
      ≤ (index.mk (List.replicate 36 0) 12).mmap.length ∧
    1 < 2 ^ 32 ∧ 19 < 2 ^ 64 ∧
    ((index.mk (List.replicate 36 0) 12).Write 1 19).1.Read ((1 : Nat) : Int)
      = Except.ok (1, 19) :=
  ⟨by decide, by decide, by decide, by decide, by decide,
    (index_write_read_roundtrip (index.mk (List.replicate 36 0) 12) 1 19 1
      (by decide) (by decide) (by decide) (by decide) (by decide)).2.1⟩

/-! ## The log -/

theorem newSegment_nil (b : Nat) (c : Config) :
    newSegment [] b c =
      { store := newStore [],
        index := { mmap := List.replicate c.Segment.MaxIndexBytes 0, size := 0 },
        baseOffset := b, nextOffset := b, config := c } := by
  simp [newSegment, newIndex, index.Read, newStore]

theorem NewLog_nil (c : Config) :
    NewLog [] c = Log.ofHeap c.withDefaults
      [newSegment [] c.withDefaults.Segment.InitialOffset c.withDefaults] := by
  simp [NewLog, Log.setup, ioutil.ReadDir, Log.setup.everyOther, Log.newSegment, Log.ofHeap,
    Config.withDefaults, List.range_succ]

theorem Log.Append_ofHeap (c : Proglog.Config) (pre : List segment) (a : segment) (r : Record) :
    (Log.ofHeap c (pre ++ [a])).Append r =
      match a.Append r with
      | (a1, Except.error err) => (Log.ofHeap c (pre ++ [a1]), 0, some err)
      | (a1, Except.ok off) =>
        if a1.IsMaxed then
          (Log.ofHeap c (pre ++ [a1] ++ [Proglog.newSegment [] ((off + 1) % 2 ^ 64) c]), off, none)
        else (Log.ofHeap c (pre ++ [a1]), off, none) := by
  have hset : ∀ a1 : segment, (pre ++ [a]).set pre.length a1 = pre ++ [a1] := by
    intro a1
    rw [List.set_append_right _ _ (Nat.le_refl _)]
    simp
  simp only [Log.Append, Log.ofHeap, List.length_append, List.length_singleton,
    Nat.add_sub_cancel, List.getElem?_concat_length]
  rcases h : a.Append r with ⟨a1, e | off⟩
  · simp [hset]
  · simp only [hset]
    split
    · simp [Log.newSegment, List.range_succ, hset]
    · simp

theorem Log.Read.find_range (heap : List segment) (off : Nat) (n p : Nat)
    (h : p + n ≤ heap.length) :
    Log.Read.find heap off (List.range' p n) = findSegment off ((heap.drop p).take n) p := by
  induction n generalizing p with
  | zero => simp [Log.Read.find, findSegment]
  | succ n ih =>
    have hp : p < heap.length := by omega
    rw [List.range'_succ, List.drop_eq_getElem_cons hp, List.take_succ_cons]
    simp only [Log.Read.find, findSegment, List.getElem?_eq_getElem hp]
    rw [ih (p + 1) (by omega)]

theorem Log.Read.find_ofHeap (c : Proglog.Config) (heap : List segment) (off : Nat) :
    Log.Read.find (Log.ofHeap c heap).heap off (Log.ofHeap c heap).segments
      = findSegment off heap 0 := by
  simp only [Log.ofHeap, List.range_eq_range']
  rw [Log.Read.find_range heap off heap.length 0 (by omega)]
  simp

theorem Log.LowestOffset_ofHeap (c : Proglog.Config) (s : segment) (ss : List segment) :
    (Log.ofHeap c (s :: ss)).LowestOffset = Except.ok s.baseOffset := by
  simp [Log.LowestOffset, Log.ofHeap, List.range_succ_eq_map]

theorem Log.HighestOffset_ofHeap (c : Proglog.Config) (pre : List segment) (a : segment) :
    (Log.ofHeap c (pre ++ [a])).HighestOffset
      = if a.nextOffset = 0 then Except.ok 0 else Except.ok (a.nextOffset - 1) := by
  simp [Log.HighestOffset, Log.ofHeap, List.range_succ, List.getLast?_concat]

/-! ### What `segment.Append` does to the offsets -/

/-- The two ways `segment.Append` ends, by what `index.Write` returns for the
relative offset and the position of the record. -/
theorem segment.Append_cases (s : segment) (r : Record) :
    (∃ idx e, s.index.Write ((s.nextOffset + 2 ^ 64 - s.baseOffset) % 2 ^ 64 % 2 ^ 32)
          s.store.size = (idx, some e) ∧
        s.Append r = ({ s with store := (s.store.Append r).1, index := idx }, Except.error e)) ∨
    (∃ idx, s.index.Write ((s.nextOffset + 2 ^ 64 - s.baseOffset) % 2 ^ 64 % 2 ^ 32)
          s.store.size = (idx, none) ∧
        s.Append r = ({ s with store := (s.store.Append r).1, index := idx,
                               nextOffset := (s.nextOffset + 1) % 2 ^ 64 },
          Except.ok s.nextOffset)) := by
  rcases h : s.index.Write ((s.nextOffset + 2 ^ 64 - s.baseOffset) % 2 ^ 64 % 2 ^ 32)
    s.store.size with ⟨idx, _ | e⟩
  · right
    refine ⟨idx, rfl, ?_⟩
    simp only [segment.Append, store.Append_result, h]
  · left
    refine ⟨idx, e, rfl, ?_⟩
    simp only [segment.Append, store.Append_result, h]

theorem segment.Append_baseOffset (s : segment) (r : Record) :
    (s.Append r).1.baseOffset = s.baseOffset := by
  rcases s.Append_cases r with ⟨idx, e, _, h⟩ | ⟨idx, _, h⟩ <;> rw [h]

theorem segment.Append_error (s : segment) (r : Record) (e : Err)
    (h : (s.Append r).2 = Except.error e) : (s.Append r).1.nextOffset = s.nextOffset := by
  rcases s.Append_cases r with ⟨idx, e1, _, h1⟩ | ⟨idx, _, h1⟩
  · rw [h1]
  · rw [h1] at h
    simp at h

theorem segment.Append_ok (s : segment) (r : Record) (off : Nat)
    (h : (s.Append r).2 = Except.ok off) :
    off = s.nextOffset ∧ (s.Append r).1.nextOffset = (s.nextOffset + 1) % 2 ^ 64 := by
  rcases s.Append_cases r with ⟨idx, e1, _, h1⟩ | ⟨idx, _, h1⟩
  · rw [h1] at h
    simp at h
  · rw [h1] at h ⊢
    simp only [Except.ok.injEq] at h
    exact ⟨h.symm, rfl⟩


/-! ### Segments that follow one another -/

theorem HeapChain_le (lo hi : Nat) (ss : List segment) (h : HeapChain lo ss hi) : lo ≤ hi := by
  induction ss generalizing lo with
  | nil => exact Nat.le_of_eq h
  | cons s ss ih => exact Nat.le_trans h.2.1 (ih _ h.2.2)

theorem HeapChain_snoc (lo hi : Nat) (pre : List segment) (a : segment) :
    HeapChain lo (pre ++ [a]) hi ↔
      HeapChain lo pre a.baseOffset ∧ a.baseOffset ≤ a.nextOffset ∧ a.nextOffset = hi := by
  induction pre generalizing lo with
  | nil =>
    simp only [List.nil_append, HeapChain]
    constructor
    · rintro ⟨h1, h2, h3⟩
      exact ⟨h1.symm, by omega, h3⟩
    · rintro ⟨h1, h2, h3⟩
      exact ⟨h1.symm, by omega, h3⟩
  | cons s ss ih =>
    show HeapChain lo (s :: (ss ++ [a])) hi ↔ _
    constructor
    · rintro ⟨h1, h2, h3⟩
      have := (ih _).1 h3
      exact ⟨⟨h1, h2, this.1⟩, this.2⟩
    · rintro ⟨⟨h1, h2, h3⟩, h4⟩
      exact ⟨h1, h2, (ih _).2 ⟨h3, h4⟩⟩

theorem findSegment_none (lo hi off p : Nat) (ss : List segment) (h : HeapChain lo ss hi)
    (hoff : off < lo ∨ hi ≤ off) : findSegment off ss p = none := by
  induction ss generalizing lo p with
  | nil => rfl
  | cons s ss ih =>
    have hle := HeapChain_le _ _ _ h.2.2
    have hb := h.1
    have hn := h.2.1
    simp only [findSegment]
    rw [if_neg (by omega)]
    exact ih _ _ h.2.2 (by omega)

theorem Config.withDefaults_InitialOffset (c : Config) :
    c.withDefaults.Segment.InitialOffset = c.Segment.InitialOffset := by
  simp only [Config.withDefaults]
  split_ifs <;> rfl

theorem Log.Ordered_NewLog (c : Proglog.Config) :
    Log.Ordered c.withDefaults c.Segment.InitialOffset 0 (NewLog [] c) := by
  refine ⟨[], Proglog.newSegment [] c.withDefaults.Segment.InitialOffset c.withDefaults,
    NewLog_nil c, ?_, ?_⟩
  · simp [HeapChain, newSegment_nil, Config.withDefaults_InitialOffset]
  · simp [newSegment_nil, Config.withDefaults_InitialOffset]

theorem Log.Ordered_Append (c : Proglog.Config) (init n : Nat) (l : Log) (r : Record)
    (h : Log.Ordered c init n l) (hwrap : init + n + 1 < 2 ^ 64) :
    Log.Ordered c init (n + 1) (l.Append r).1 := by
  obtain ⟨pre, a, rfl, hch, htop⟩ := h
  rw [HeapChain_snoc] at hch
  obtain ⟨hpre, hba, -⟩ := hch
  rw [Log.Append_ofHeap]
  rcases hres : a.Append r with ⟨a1, e | off⟩
  · have hb : a1.baseOffset = a.baseOffset := by
      have := a.Append_baseOffset r
      rwa [hres] at this
    have hn : a1.nextOffset = a.nextOffset := by
      have := a.Append_error r e (by rw [hres])
      rwa [hres] at this
    refine ⟨pre, a1, rfl, ?_, by omega⟩
    rw [HeapChain_snoc]
    exact ⟨by rw [hb]; exact hpre, by omega, rfl⟩
  · have hb : a1.baseOffset = a.baseOffset := by
      have := a.Append_baseOffset r
      rwa [hres] at this
    obtain ⟨hoff, hn⟩ := a.Append_ok r off (by rw [hres])
    rw [hres] at hn
    simp only at hn
    have hn1 : a1.nextOffset = a.nextOffset + 1 := by omega
    have hch1 : HeapChain init (pre ++ [a1]) a1.nextOffset := by
      rw [HeapChain_snoc]
      exact ⟨by rw [hb]; exact hpre, by omega, rfl⟩
    simp only []
    split
    · refine ⟨pre ++ [a1], Proglog.newSegment [] ((off + 1) % 2 ^ 64) c, rfl, ?_, ?_⟩
      · rw [HeapChain_snoc]
        have : (off + 1) % 2 ^ 64 = a1.nextOffset := by omega
        simp only [newSegment_nil, this]
        exact ⟨hch1, Nat.le_refl _, trivial⟩
      · simp only [newSegment_nil]
        omega
    · exact ⟨pre, a1, rfl, hch1, by omega⟩

theorem Log.Ordered_appendAll (c : Proglog.Config) (init n : Nat) (l : Log) (rs : List Record)
    (h : Log.Ordered c init n l) (hwrap : init + n + rs.length < 2 ^ 64) :
    Log.Ordered c init (n + rs.length) (l.appendAll rs).1 := by
  induction rs generalizing l n with
  | nil => simpa [Log.appendAll] using h
  | cons r rs ih =>
    simp only [List.length_cons] at hwrap
    have h1 := Log.Ordered_Append c init n l r h (by omega)
    have h2 := ih (n + 1) (l.Append r).1 h1 (by omega)
    simp only [Log.appendAll, List.length_cons]
    have e : n + (rs.length + 1) = n + 1 + rs.length := by omega
    rw [e]
    exact h2

/-- C3, amended. In every log state reached from a new log over an empty
directory by `Append` calls, as long as the offsets stay below 2^64
(`initial_offset` plus the number of calls is less than 2^64), `LowestOffset`
and `HighestOffset` succeed, and for every offset `k` with `k < LowestOffset()`
or `k > HighestOffset()` the loop of `Log.Read` selects no segment and
`Log.Read(k)` fails with `ErrOffsetOutOfRange` carrying `k`, the log unchanged. -/
theorem log_read_out_of_range (c : Config) (rs : List Record) (k : Nat)
    (hwrap : c.Segment.InitialOffset + rs.length < 2 ^ 64) :
    ∃ lo hi, ((NewLog [] c).appendAll rs).1.LowestOffset = Except.ok lo ∧
      ((NewLog [] c).appendAll rs).1.HighestOffset = Except.ok hi ∧
      (k < lo ∨ hi < k →
        Log.Read.find ((NewLog [] c).appendAll rs).1.heap k
            ((NewLog [] c).appendAll rs).1.segments = none ∧
          ((NewLog [] c).appendAll rs).1.Read k
            = (((NewLog [] c).appendAll rs).1, Except.error (Err.ErrOffsetOutOfRange k))) := by
  have hord := Log.Ordered_appendAll c.withDefaults c.Segment.InitialOffset 0 (NewLog [] c) rs
    (Log.Ordered_NewLog c) (by omega)
  obtain ⟨pre, a, hl, hch, htop⟩ := hord
  rw [hl]
  have hfind : ∀ lo : Nat, (∃ s ss, pre ++ [a] = s :: ss ∧ s.baseOffset = lo) →
      (k < lo ∨ a.nextOffset ≤ k) →
      Log.Read.find (Log.ofHeap c.withDefaults (pre ++ [a])).heap k
          (Log.ofHeap c.withDefaults (pre ++ [a])).segments = none ∧
        (Log.ofHeap c.withDefaults (pre ++ [a])).Read k
          = (Log.ofHeap c.withDefaults (pre ++ [a]),
              Except.error (Err.ErrOffsetOutOfRange k)) := by
    rintro lo ⟨s, ss, hs, hlo⟩ hk
    have hnone : Log.Read.find (Log.ofHeap c.withDefaults (pre ++ [a])).heap k
        (Log.ofHeap c.withDefaults (pre ++ [a])).segments = none := by
      rw [Log.Read.find_ofHeap]
      apply findSegment_none _ _ _ _ _ hch
      have : c.Segment.InitialOffset = lo := by
        rw [hs] at hch
        rw [← hlo]
        exact hch.1.symm
      omega
    refine ⟨hnone, ?_⟩
    unfold Log.Read
    rw [hnone]
  cases hpre : pre ++ [a] with
  | nil => simp at hpre
  | cons s ss =>
    rw [← hpre, Log.HighestOffset_ofHeap]
    refine ⟨s.baseOffset, if a.nextOffset = 0 then 0 else a.nextOffset - 1, ?_, ?_, ?_⟩
    · rw [hpre, Log.LowestOffset_ofHeap]
    · split <;> rfl
    · intro hk
      apply hfind s.baseOffset ⟨s, ss, hpre, rfl⟩
      split at hk <;> omega
/-! ### Dense offsets -/

theorem Config.withDefaults_MaxIndexBytes (c : Config) (h : c.Segment.MaxIndexBytes ≠ 0) :
    c.withDefaults.Segment.MaxIndexBytes = c.Segment.MaxIndexBytes := by
  simp only [Config.withDefaults]
  split_ifs <;> rfl

theorem Config.withDefaults_MaxIndexBytes_zero (c : Config) (h : c.Segment.MaxIndexBytes = 0) :
    c.withDefaults.Segment.MaxIndexBytes = 1024 := by
  simp only [Config.withDefaults]
  split_ifs <;> rfl

theorem Config.withDefaults_MaxStoreBytes_pos (c : Config) :
    0 < c.withDefaults.Segment.MaxStoreBytes := by
  simp only [Config.withDefaults]
  split_ifs <;> first | omega | (dsimp only; omega)

theorem segment.IsMaxed_false (s : segment) (h : s.IsMaxed = false) :
    s.store.size < s.config.Segment.MaxStoreBytes ∧
      s.index.size + 12 ≤ s.config.Segment.MaxIndexBytes := by
  simp only [segment.IsMaxed, Bool.or_eq_false_iff, decide_eq_false_iff_not, entWidth, offWidth,
    posWidth] at h
  omega

theorem newSegment_not_maxed (b : Nat) (c : Config) (hs : 0 < c.Segment.MaxStoreBytes)
    (hi : 12 ≤ c.Segment.MaxIndexBytes) : (newSegment [] b c).IsMaxed = false := by
  simp only [newSegment_nil, segment.IsMaxed, newStore, Bool.or_eq_false_iff,
    decide_eq_false_iff_not, entWidth, offWidth, posWidth, List.length_nil]
  omega

/-- An append to a segment whose index has room for one more entry. -/
theorem segment.Append_room (s : segment) (r : Record)
    (hroom : s.index.size + 12 ≤ s.index.mmap.length) (h64 : s.index.size + 12 < 2 ^ 64) :
    s.Append r =
      ({ s with
          store := (s.store.Append r).1
          index :=
            { mmap := s.index.mmap.take s.index.size
                ++ (encoding.PutUint32 ((s.nextOffset + 2 ^ 64 - s.baseOffset) % 2 ^ 64 % 2 ^ 32)
                  ++ encoding.PutUint64 s.store.size)
                ++ s.index.mmap.drop (s.index.size + 12),
              size := s.index.size + 12 }
          nextOffset := (s.nextOffset + 1) % 2 ^ 64 },
        Except.ok s.nextOffset) := by
  have hw := index.Write_ok s.index ((s.nextOffset + 2 ^ 64 - s.baseOffset) % 2 ^ 64 % 2 ^ 32)
    s.store.size hroom h64
  rcases s.Append_cases r with ⟨idx, e, h1, _⟩ | ⟨idx, h1, h2⟩
  · rw [hw] at h1
    simp at h1
  · rw [hw] at h1
    simp only [Prod.mk.injEq, and_true] at h1
    rw [h2, ← h1]

theorem Log.Dense_NewLog (c : Proglog.Config) (h12 : 12 ≤ c.Segment.MaxIndexBytes)
    (hinit : c.Segment.InitialOffset < 2 ^ 64) :
    Log.Dense c.withDefaults c.Segment.InitialOffset 0 (NewLog [] c) := by
  have hm := Config.withDefaults_MaxIndexBytes c (by omega)
  refine ⟨[], Proglog.newSegment [] c.withDefaults.Segment.InitialOffset c.withDefaults,
    NewLog_nil c, ?_, ?_, ?_, ?_, ?_⟩
  · simp [newSegment_nil]
  · simp [newSegment_nil]
  · exact newSegment_not_maxed _ _ (Config.withDefaults_MaxStoreBytes_pos c) (by omega)
  · simp only [newSegment_nil, Config.withDefaults_InitialOffset, Nat.add_zero]
    omega
  · intro s hs
    left
    simp only [List.nil_append, List.mem_singleton] at hs
    rw [hs, newSegment_nil, Config.withDefaults_InitialOffset]


/-- What an append to a segment with room gives, without the bytes. -/
theorem segment.Append_room_facts (s : segment) (r : Record)
    (hroom : s.index.size + 12 ≤ s.index.mmap.length) (h64 : s.index.size + 12 < 2 ^ 64) :
    ∃ s1, s.Append r = (s1, Except.ok s.nextOffset) ∧ s1.baseOffset = s.baseOffset ∧
      s1.config = s.config ∧ s1.nextOffset = (s.nextOffset + 1) % 2 ^ 64 ∧
      s1.index.mmap.length = s.index.mmap.length := by
  refine ⟨_, s.Append_room r hroom h64, rfl, rfl, rfl, ?_⟩
  simp only [List.length_append, List.length_take, List.length_drop,
    encoding.PutUint32_length, encoding.PutUint64_length]
  omega

theorem Log.Dense_Append (c : Proglog.Config) (init n : Nat) (l : Log) (r : Record)
    (h : Log.Dense c init n l) (h12 : 12 ≤ c.Segment.MaxIndexBytes)
    (h64 : c.Segment.MaxIndexBytes < 2 ^ 64) (hs : 0 < c.Segment.MaxStoreBytes) :
    (l.Append r).2 = ((init + n) % 2 ^ 64, none) ∧ Log.Dense c init (n + 1) (l.Append r).1 := by
  obtain ⟨pre, a, rfl, hcfg, hlen, hmax, hnext, hbase⟩ := h
  have hroom := (a.IsMaxed_false hmax).2
  rw [hcfg] at hroom
  obtain ⟨a1, happ, hb1, hc1, hn1, hl1⟩ := a.Append_room_facts r (by omega) (by omega)
  have hbase1 : ∀ s ∈ pre ++ [a1], s.baseOffset = init ∨
      ∃ i, i < n + 1 ∧ s.baseOffset = ((init + i) % 2 ^ 64 + 1) % 2 ^ 64 := by
    intro s hs
    have key : s.baseOffset = init ∨
        ∃ i, i < n ∧ s.baseOffset = ((init + i) % 2 ^ 64 + 1) % 2 ^ 64 := by
      rcases List.mem_append.1 hs with hs1 | hs1
      · exact hbase s (List.mem_append_left _ hs1)
      · rw [List.mem_singleton.1 hs1, hb1]
        exact hbase a (by simp)
    rcases key with key | ⟨i, hi, key⟩
    · exact Or.inl key
    · exact Or.inr ⟨i, by omega, key⟩
  rw [Log.Append_ofHeap, happ]
  simp only []
  split
  · refine ⟨by rw [hnext], pre ++ [a1], Proglog.newSegment [] ((a.nextOffset + 1) % 2 ^ 64) c,
      rfl, ?_, ?_, ?_, ?_, ?_⟩
    · simp [newSegment_nil]
    · simp [newSegment_nil]
    · exact newSegment_not_maxed _ _ hs h12
    · simp only [newSegment_nil, hnext]
      omega
    · intro s hs
      rcases List.mem_append.1 hs with hs1 | hs1
      · exact hbase1 s hs1
      · right
        refine ⟨n, by omega, ?_⟩
        rw [List.mem_singleton.1 hs1, newSegment_nil, hnext]
  · rename_i hnm
    refine ⟨by rw [hnext], pre, a1, rfl, by rw [hc1, hcfg], by rw [hl1, hlen], ?_, ?_, hbase1⟩
    · simpa using hnm
    · rw [hn1, hnext]
      omega

theorem Log.Dense_appendAll (c : Proglog.Config) (init n : Nat) (l : Log) (rs : List Record)
    (h : Log.Dense c init n l) (h12 : 12 ≤ c.Segment.MaxIndexBytes)
    (h64 : c.Segment.MaxIndexBytes < 2 ^ 64) (hs : 0 < c.Segment.MaxStoreBytes) :
    (l.appendAll rs).2 = (List.range rs.length).map (fun i => ((init + (n + i)) % 2 ^ 64, none)) ∧
      Log.Dense c init (n + rs.length) (l.appendAll rs).1 := by
  induction rs generalizing l n with
  | nil => exact ⟨rfl, h⟩
  | cons r rs ih =>
    obtain ⟨h1, h2⟩ := Log.Dense_Append c init n l r h h12 h64 hs
    obtain ⟨h3, h4⟩ := ih (n + 1) (l.Append r).1 h2
    refine ⟨?_, ?_⟩
    · simp only [Log.appendAll, List.length_cons, List.range_succ_eq_map, List.map_cons,
        List.map_map, h1, h3, Nat.add_zero, List.cons.injEq, true_and]
      apply List.map_congr_left
      intro i _
      simp only [Function.comp, Nat.succ_eq_add_one]
      have : n + 1 + i = n + (i + 1) := by omega
      rw [this]
    · have e : n + (r :: rs).length = n + 1 + rs.length := by
        simp only [List.length_cons]; omega
      rw [e]
      exact h4


/-! ### A segment and the records it holds -/

theorem storeBytes_length_append (ps qs : List (List Nat)) :
    (storeBytes (ps ++ qs)).length = (storeBytes ps).length + (storeBytes qs).length := by
  rw [storeBytes_append, List.length_append]

theorem indexBytes_length (rel pos : Nat) (g : List Record) :
    (indexBytes rel pos g).length = 12 * g.length := by
  induction g generalizing rel pos with
  | nil => rfl
  | cons r g ih =>
    simp only [indexBytes, List.length_append, encoding.PutUint32_length,
      encoding.PutUint64_length, ih, List.length_cons]
    omega

theorem indexBytes_append (rel pos : Nat) (g h : List Record) :
    indexBytes rel pos (g ++ h)
      = indexBytes rel pos g ++ indexBytes (rel + g.length) (pos + (storeBytes g).length) h := by
  induction g generalizing rel pos with
  | nil => simp [indexBytes, storeBytes]
  | cons r g ih =>
    show indexBytes rel pos (r :: (g ++ h)) = indexBytes rel pos (r :: g) ++ _
    rw [indexBytes, indexBytes, ih]
    simp only [List.append_assoc, List.length_cons, storeBytes, List.length_append,
      storeRecord_length]
    have e1 : rel + 1 + g.length = rel + (g.length + 1) := by omega
    have e2 : pos + (8 + r.length) + (storeBytes g).length
        = pos + (8 + r.length + (storeBytes g).length) := by omega
    rw [e1, e2]

theorem indexBytes_split (g : List Record) (i : Nat) (hi : i < g.length) :
    indexBytes 0 0 g = indexBytes 0 0 (g.take i)
      ++ (encoding.PutUint32 i ++ encoding.PutUint64 (storeBytes (g.take i)).length)
      ++ indexBytes (i + 1) ((storeBytes (g.take i)).length + (8 + (g[i]).length))
          (g.drop (i + 1)) := by
  conv_lhs => rw [← List.take_append_drop i g, List.drop_eq_getElem_cons hi]
  rw [indexBytes_append]
  simp only [indexBytes, List.length_take, Nat.min_eq_left (Nat.le_of_lt hi), Nat.zero_add,
    List.append_assoc]

theorem segment.Holds.Read (c : Config) (s : segment) (g : List Record) (h : s.Holds c g)
    (i : Nat) (hi : i < g.length) :
    s.Read (s.baseOffset + i) = ({ s with store := s.store.Flush }, Except.ok g[i]) := by
  have hnext := h.next
  have hlt := h.next_lt
  have hcount := h.count
  have hsfit := h.sfit
  have hsplit := storeBytes_split g i hi
  have hpos : (storeBytes (g.take i)).length + 8 + (g[i]).length < 2 ^ 63 := by
    rw [hsplit] at hsfit
    simp only [List.length_append, storeRecord_length] at hsfit
    omega
  have hrel : (s.baseOffset + i + 2 ^ 64 - s.baseOffset) % 2 ^ 64 = i := by omega
  have hidx : s.index.Read (int64 i) = Except.ok (i, (storeBytes (g.take i)).length) := by
    rw [int64_of_lt i (by omega)]
    apply index.Read_written s.index (indexBytes 0 0 (g.take i))
      (indexBytes (i + 1) ((storeBytes (g.take i)).length + (8 + (g[i]).length))
        (g.drop (i + 1)) ++ s.index.mmap.drop (12 * g.length))
      i _ i
    · conv_lhs => rw [← List.take_append_drop (12 * g.length) s.index.mmap, h.entries,
        indexBytes_split g i hi]
      simp only [List.append_assoc]
    · rw [indexBytes_length, List.length_take, Nat.min_eq_left (Nat.le_of_lt hi)]
    · rw [h.isize]; omega
    · rw [h.isize, h.mlen]; exact h.room
    · omega
    · omega
    · unfold index.entryOf
      rw [if_neg (by omega)]
      exact uint32_of_nat i (by omega)
  have hst := store.Read_of_content s.store (storeBytes (g.take i)) (storeBytes (g.drop (i + 1)))
    g[i] (by rw [h.content, hsplit]) hpos
  unfold segment.Read
  rw [hrel, hidx]
  simp only [hst]

theorem segment.Holds.Flush (c : Config) (s : segment) (g : List Record) (h : s.Holds c g) :
    segment.Holds c { s with store := s.store.Flush } g :=
  { config := h.config, next := h.next, next_lt := h.next_lt, isize := h.isize, mlen := h.mlen,
    room := h.room, entries := h.entries,
    content := by rw [store.Flush_content]; exact h.content,
    ssize := by rw [store.Flush_size]; exact h.ssize,
    sfit := h.sfit, count := h.count }

theorem segment.Holds.newSegment (c : Config) (b : Nat) (hb : b < 2 ^ 64) :
    (newSegment [] b c).Holds c [] := by
  rw [newSegment_nil]
  exact
    { config := rfl, next := rfl, next_lt := hb, isize := rfl, mlen := by simp,
      room := by simp, entries := by simp [indexBytes], content := rfl, ssize := rfl,
      sfit := by simp [storeBytes], count := by simp }

theorem segment.Holds.Append (c : Config) (s : segment) (g : List Record) (r : Record)
    (h : s.Holds c g) (hroom : 12 * g.length + 12 ≤ c.Segment.MaxIndexBytes)
    (h32 : c.Segment.MaxIndexBytes < 12 * 2 ^ 32 + 12)
    (hnext : s.nextOffset + 1 < 2 ^ 64) (hfit : (storeBytes (g ++ [r])).length < 2 ^ 63) :
    ∃ s1, s.Append r = (s1, Except.ok s.nextOffset) ∧ s1.Holds c (g ++ [r]) ∧
      s1.baseOffset = s.baseOffset := by
  have hisize := h.isize
  have hmlen := h.mlen
  have hn := h.next
  have hfit1 := hfit
  rw [storeBytes_length_append] at hfit1
  simp only [storeBytes, List.append_nil, storeRecord_length] at hfit1
  have happ := s.Append_room r (by omega) (by omega)
  have hrel : (s.nextOffset + 2 ^ 64 - s.baseOffset) % 2 ^ 64 % 2 ^ 32 = g.length := by omega
  rw [hrel, h.ssize, hisize] at happ
  refine ⟨_, happ, ?_, rfl⟩
  have hl : (s.index.mmap.take (12 * g.length)).length = 12 * g.length := by
    rw [List.length_take]; omega
  exact
    { config := h.config
      next := by
        simp only [List.length_append, List.length_singleton]
        omega
      next_lt := by
        simp only []
        omega
      isize := by
        simp only [List.length_append, List.length_singleton]
        omega
      mlen := by
        simp only [List.length_append, List.length_take, List.length_drop,
          encoding.PutUint32_length, encoding.PutUint64_length]
        omega
      room := by
        simp only [List.length_append, List.length_singleton]
        omega
      entries := by
        simp only [List.length_append, List.length_singleton]
        rw [List.take_append_of_le_length (by
          simp only [List.length_append, hl, encoding.PutUint32_length,
            encoding.PutUint64_length]
          omega)]
        rw [List.take_of_length_le (by
          simp only [List.length_append, hl, encoding.PutUint32_length,
            encoding.PutUint64_length]
          omega)]
        rw [h.entries, indexBytes_append]
        simp [indexBytes]
      content := by
        simp only []
        rw [store.Append_content, h.content, storeBytes_append]
        simp [storeBytes]
      ssize := by
        simp only []
        rw [store.Append_size, h.ssize, storeBytes_length_append]
        simp only [storeBytes, List.append_nil, storeRecord_length]
        omega
      sfit := hfit
      count := by
        simp only [List.length_append, List.length_singleton]
        omega }

/-! ### A log and the records it holds -/

theorem HeapHolds_snoc (c : Config) (lo : Nat) (pre : List segment) (a : segment)
    (rs : List Record) :
    HeapHolds c lo (pre ++ [a]) rs ↔
      ∃ r1 g, rs = r1 ++ g ∧ HeapHolds c lo pre r1 ∧ a.baseOffset = lo + r1.length ∧
        a.Holds c g := by
  induction pre generalizing lo rs with
  | nil =>
    constructor
    · rintro ⟨g, rest, h1, h2, h3, h4⟩
      have h4 : rest = [] := h4
      subst h4
      exact ⟨[], g, by simpa using h1, rfl, by simpa using h2, h3⟩
    · rintro ⟨r1, g, h1, h2, h3, h4⟩
      have h2 : r1 = [] := h2
      subst h2
      exact ⟨g, [], by simpa using h1, by simpa using h3, h4, rfl⟩
  | cons s ss ih =>
    show HeapHolds c lo (s :: (ss ++ [a])) rs ↔ _
    constructor
    · rintro ⟨g, rest, h1, h2, h3, h4⟩
      obtain ⟨r1, g1, h5, h6, h7, h8⟩ := (ih _ _).1 h4
      refine ⟨g ++ r1, g1, by rw [h1, h5, List.append_assoc], ⟨g, r1, rfl, h2, h3, h6⟩, ?_, h8⟩
      rw [h7, List.length_append]
      omega
    · rintro ⟨r1, g1, h1, ⟨g, r2, h2, h3, h4, h5⟩, h6, h7⟩
      refine ⟨g, r2 ++ g1, by rw [h1, h2, List.append_assoc], h3, h4, ?_⟩
      refine (ih _ _).2 ⟨r2, g1, rfl, h5, ?_, h7⟩
      rw [h6, h2, List.length_append]
      omega

/-- The loop of `Log.Read` finds the segment that holds the record number `i`. -/
theorem HeapHolds_find (c : Config) (lo p : Nat) (heap : List segment) (rs : List Record)
    (h : HeapHolds c lo heap rs) (i : Nat) (hi : i < rs.length) :
    ∃ h1 s h2 g j, heap = h1 ++ s :: h2 ∧
      findSegment (lo + i) heap p = some (p + h1.length, s) ∧ s.Holds c g ∧
      ∃ hj : j < g.length, s.baseOffset + j = lo + i ∧ g[j] = rs[i] ∧
      ∀ s1 : segment, s1.Holds c g → s1.baseOffset = s.baseOffset →
        HeapHolds c lo (h1 ++ s1 :: h2) rs := by
  induction heap generalizing lo p rs i with
  | nil =>
    have : rs = [] := h
    subst this
    simp at hi
  | cons s ss ih =>
    obtain ⟨g, rest, h1, h2, h3, h4⟩ := h
    subst h1
    by_cases hig : i < g.length
    · refine ⟨[], s, ss, g, i, rfl, ?_, h3, hig, by rw [h2], ?_, ?_⟩
      · simp only [findSegment, List.length_nil, Nat.add_zero]
        rw [if_pos ⟨by omega, by rw [h3.next]; omega⟩]
      · rw [List.getElem_append_left hig]
      · intro s1 hs1 hb1
        exact ⟨g, rest, rfl, by rw [hb1, h2], hs1, h4⟩
    · have hi2 : i - g.length < rest.length := by
        rw [List.length_append] at hi
        omega
      obtain ⟨k1, s0, k2, g0, j, e1, e2, e3, hj, e4, e5, e6⟩ :=
        ih (lo + g.length) (p + 1) rest h4 (i - g.length) hi2
      have eoff : lo + g.length + (i - g.length) = lo + i := by omega
      rw [eoff] at e2 e4
      refine ⟨s :: k1, s0, k2, g0, j, by rw [e1]; rfl, ?_, e3, hj, e4, ?_, ?_⟩
      · simp only [findSegment, List.length_cons]
        rw [if_neg (by rw [h3.next]; omega), e2]
        congr 2
        omega
      · rw [e5, List.getElem_append_right (by omega)]
      · intro s1 hs1 hb1
        exact ⟨g, rest, rfl, h2, h3, e6 s1 hs1 hb1⟩

theorem segment.IsMaxed_Flush (s : segment) :
    segment.IsMaxed { s with store := s.store.Flush } = s.IsMaxed := rfl

theorem Log.Holds_Read (c : Proglog.Config) (init : Nat) (l : Log) (rs : List Record)
    (h : Log.Holds c init l rs) (i : Nat) (hi : i < rs.length) :
    (l.Read (init + i)).2 = Except.ok rs[i] ∧ Log.Holds c init (l.Read (init + i)).1 rs := by
  obtain ⟨heap, rfl, hh, hmax⟩ := h
  obtain ⟨h1, s, h2, g, j, e1, e2, e3, hj, e4, e5, e6⟩ := HeapHolds_find c init 0 heap rs hh i hi
  have hfind := Log.Read.find_ofHeap c heap (init + i)
  rw [e2] at hfind
  have hread := e3.Read c s g j hj
  rw [e4] at hread
  have hnext : ¬ s.nextOffset ≤ init + i := by
    rw [e3.next]; omega
  unfold Log.Read
  rw [hfind]
  simp only []
  rw [if_neg hnext, hread]
  refine ⟨by rw [e5], h1 ++ { s with store := s.store.Flush } :: h2, ?_, ?_, ?_⟩
  · subst e1
    simp only [Log.ofHeap, Nat.zero_add, List.length_append, List.length_cons, Log.mk.injEq,
      true_and, and_true]
    rw [List.set_append_right _ _ (Nat.le_refl _)]
    simp
  · exact e6 _ (e3.Flush c s g) rfl
  · subst e1
    simpa [segment.IsMaxed_Flush] using hmax


theorem HeapHolds_length (c : Config) (lo : Nat) (heap : List segment) (rs : List Record)
    (h : HeapHolds c lo heap rs) (a : segment) (ha : heap.getLast? = some a) :
    a.nextOffset = lo + rs.length := by
  obtain ⟨pre, rfl⟩ : ∃ pre, heap = pre ++ [a] := by
    rcases List.eq_nil_or_concat heap with h0 | ⟨pre, b, h0⟩
    · rw [h0] at ha
      simp at ha
    · rw [h0, List.concat_eq_append, List.getLast?_concat] at ha
      simp only [Option.some.injEq] at ha
      rw [h0, List.concat_eq_append, ha]
      exact ⟨pre, rfl⟩
  obtain ⟨r1, g, h1, _, h3, h4⟩ := (HeapHolds_snoc c lo pre a rs).1 h
  rw [h4.next, h3, h1, List.length_append]
  omega

theorem Log.Holds_NewLog (c : Proglog.Config) (h12 : 12 ≤ c.withDefaults.Segment.MaxIndexBytes)
    (hinit : c.Segment.InitialOffset < 2 ^ 64) :
    Log.Holds c.withDefaults c.Segment.InitialOffset (NewLog [] c) [] := by
  refine ⟨_, NewLog_nil c, ?_, ?_⟩
  · refine ⟨[], [], rfl, ?_, ?_, rfl⟩
    · rw [newSegment_nil, Config.withDefaults_InitialOffset]
    · exact segment.Holds.newSegment _ _ (by rw [Config.withDefaults_InitialOffset]; exact hinit)
  · simp only [List.map_cons, List.map_nil, List.getLast?_singleton, Option.some.injEq]
    exact newSegment_not_maxed _ _ (Config.withDefaults_MaxStoreBytes_pos c) h12

theorem Log.Holds_Append (c : Proglog.Config) (init : Nat) (l : Log) (rs : List Record)
    (r : Record) (h : Log.Holds c init l rs) (h12 : 12 ≤ c.Segment.MaxIndexBytes)
    (h32 : c.Segment.MaxIndexBytes < 12 * 2 ^ 32 + 12) (hs : 0 < c.Segment.MaxStoreBytes)
    (hwrap : init + rs.length + 1 < 2 ^ 64) (hfit : (storeBytes (rs ++ [r])).length < 2 ^ 63) :
    (l.Append r).2 = (init + rs.length, none) ∧ Log.Holds c init (l.Append r).1 (rs ++ [r]) := by
  obtain ⟨heap, rfl, hh, hmax⟩ := h
  obtain ⟨pre, a, rfl⟩ : ∃ pre a, heap = pre ++ [a] := by
    rcases List.eq_nil_or_concat heap with h0 | ⟨pre, b, h0⟩
    · rw [h0] at hmax
      simp at hmax
    · exact ⟨pre, b, by rw [h0, List.concat_eq_append]⟩
  have hamax : a.IsMaxed = false := by
    simpa [List.getLast?_concat] using hmax
  obtain ⟨r1, g, e1, e2, e3, e4⟩ := (HeapHolds_snoc c init pre a rs).1 hh
  subst e1
  have hroom := (a.IsMaxed_false hamax).2
  rw [e4.config, e4.isize] at hroom
  have hanext : a.nextOffset = init + (r1 ++ g).length := by
    rw [e4.next, e3, List.length_append]
    omega
  have hfit1 : (storeBytes (g ++ [r])).length < 2 ^ 63 := by
    rw [List.append_assoc, storeBytes_length_append] at hfit
    omega
  obtain ⟨a1, happ, hold1, hb1⟩ := e4.Append c a g r hroom h32 (by omega) hfit1
  have hh1 : HeapHolds c init (pre ++ [a1]) (r1 ++ g ++ [r]) :=
    (HeapHolds_snoc c init pre a1 _).2
      ⟨r1, g ++ [r], by rw [List.append_assoc], e2, by rw [hb1, e3], hold1⟩
  rw [Log.Append_ofHeap, happ]
  simp only []
  split
  · refine ⟨by rw [hanext], _, rfl, ?_, ?_⟩
    · refine (HeapHolds_snoc c init (pre ++ [a1]) _ _).2
        ⟨r1 ++ g ++ [r], [], by simp, hh1, ?_, ?_⟩
      · rw [newSegment_nil, hanext]
        simp only [List.length_append, List.length_singleton] at hwrap ⊢
        omega
      · exact segment.Holds.newSegment _ _ (Nat.mod_lt _ (by norm_num))
    · rw [List.map_append, List.map_singleton, List.getLast?_concat]
      rw [newSegment_not_maxed _ _ hs h12]
  · rename_i hnm
    refine ⟨by rw [hanext], _, rfl, hh1, ?_⟩
    rw [List.map_append, List.map_singleton, List.getLast?_concat]
    simpa using hnm

theorem Log.Holds_appendAll (c : Proglog.Config) (init : Nat) (l : Log) (rs qs : List Record)
    (h : Log.Holds c init l rs) (h12 : 12 ≤ c.Segment.MaxIndexBytes)
    (h32 : c.Segment.MaxIndexBytes < 12 * 2 ^ 32 + 12) (hs : 0 < c.Segment.MaxStoreBytes)
    (hwrap : init + (rs ++ qs).length < 2 ^ 64)
    (hfit : (storeBytes (rs ++ qs)).length < 2 ^ 63) :
    (l.appendAll qs).2
        = (List.range qs.length).map (fun i => (init + (rs.length + i), none)) ∧
      Log.Holds c init (l.appendAll qs).1 (rs ++ qs) := by
  induction qs generalizing l rs with
  | nil => exact ⟨rfl, by simpa using h⟩
  | cons q qs ih =>
    have e : rs ++ q :: qs = rs ++ [q] ++ qs := by simp
    rw [e] at hwrap hfit ⊢
    have hw1 : init + rs.length + 1 < 2 ^ 64 := by
      simp only [List.length_append, List.length_singleton] at hwrap
      omega
    have hf1 : (storeBytes (rs ++ [q])).length < 2 ^ 63 := by
      rw [storeBytes_length_append (rs ++ [q])] at hfit
      omega
    obtain ⟨h1, h2⟩ := Log.Holds_Append c init l rs q h h12 h32 hs hw1 hf1
    obtain ⟨h3, h4⟩ := ih (l.Append q).1 (rs ++ [q]) h2 hwrap hfit
    refine ⟨?_, h4⟩
    simp only [Log.appendAll, List.length_cons, List.range_succ_eq_map, List.map_cons,
      List.map_map, h1, h3, Nat.add_zero, List.cons.injEq, true_and]
    apply List.map_congr_left
    intro i _
    simp only [Function.comp, Nat.succ_eq_add_one, List.length_append, List.length_singleton]
    have : rs.length + 1 + i = rs.length + (i + 1) := by omega
    rw [this]

theorem Log.Holds_readAll (c : Proglog.Config) (init : Nat) (l : Log) (rs : List Record)
    (h : Log.Holds c init l rs) (order : List (Fin rs.length)) :
    (l.readAll (order.map fun i => init + i.val)).2 = order.map (fun i => Except.ok (rs.get i)) ∧
      Log.Holds c init (l.readAll (order.map fun i => init + i.val)).1 rs := by
  induction order generalizing l with
  | nil => exact ⟨rfl, h⟩
  | cons i order ih =>
    obtain ⟨h1, h2⟩ := Log.Holds_Read c init l rs h i.val i.isLt
    obtain ⟨h3, h4⟩ := ih (l.Read (init + i.val)).1 h2
    refine ⟨?_, h4⟩
    simp only [List.map_cons, Log.readAll, h1, h3]
    rfl

/-- C1, amended. Round trip of `Log.Append` and `Log.Read`: for a configuration
with `12 <= max_index_bytes < 12 * (2^32 + 1)` (relative offsets fit 32 bits),
records `rs` appended in order to a new log over an empty directory, with
`initial_offset + len(rs) < 2^64` and fewer than 2^63 bytes of store records,
the `i`-th append returns `initial_offset + i` without error, and reading these
offsets one after the other in any order, repeats included and across
roll-overs, returns each time exactly the record appended at that offset. -/
theorem log_append_read_roundtrip (c : Config) (rs : List Record) (order : List (Fin rs.length))
    (h12 : 12 ≤ c.Segment.MaxIndexBytes) (h32 : c.Segment.MaxIndexBytes < 12 * 2 ^ 32 + 12)
    (hwrap : c.Segment.InitialOffset + rs.length < 2 ^ 64)
    (hfit : (storeBytes rs).length < 2 ^ 63) :
    ((NewLog [] c).appendAll rs).2
        = (List.range rs.length).map (fun i => (c.Segment.InitialOffset + i, none)) ∧
      (((NewLog [] c).appendAll rs).1.readAll
          (order.map fun i => c.Segment.InitialOffset + i.val)).2
        = order.map (fun i => Except.ok (rs.get i)) := by
  have hm := Config.withDefaults_MaxIndexBytes c (by omega)
  have h0 := Log.Holds_NewLog c (by rw [hm]; exact h12) (by omega)
  obtain ⟨h1, h2⟩ := Log.Holds_appendAll c.withDefaults c.Segment.InitialOffset (NewLog [] c)
    [] rs h0 (by rw [hm]; exact h12) (by rw [hm]; exact h32)
    (Config.withDefaults_MaxStoreBytes_pos c) (by simpa using hwrap) (by simpa using hfit)
  rw [List.nil_append] at h2
  refine ⟨?_, (Log.Holds_readAll _ _ _ rs h2 order).1⟩
  simpa using h1


/-! ### A log whose index has no room for a single entry -/

theorem segment.Append_full (s : segment) (r : Record) (hlen : s.index.mmap.length < 12)
    (hsize : s.index.size = 0) :
    ∃ s1, s.Append r = (s1, Except.error Err.EOF) ∧ s1.baseOffset = s.baseOffset ∧
      s1.nextOffset = s.nextOffset ∧ s1.index = s.index := by
  have hw : ∀ off pos : Nat, s.index.Write off pos = (s.index, some Err.EOF) := by
    intro off pos
    unfold index.Write
    rw [if_pos (by rw [hsize]; simp only [entWidth, offWidth, posWidth]; omega)]
  rcases s.Append_cases r with ⟨idx, e, h1, h2⟩ | ⟨idx, h1, _⟩
  · rw [hw] at h1
    simp only [Prod.mk.injEq, Option.some.injEq] at h1
    obtain ⟨h3, h4⟩ := h1
    subst h3
    subst h4
    exact ⟨_, h2, rfl, rfl, rfl⟩
  · rw [hw] at h1
    simp at h1

theorem Log.appendAll_full (c : Proglog.Config) (a : segment) (rs : List Record)
    (hlen : a.index.mmap.length < 12) (hsize : a.index.size = 0) :
    ∃ a1, ((Log.ofHeap c [a]).appendAll rs).1 = Log.ofHeap c [a1] ∧
      a1.baseOffset = a.baseOffset ∧ a1.nextOffset = a.nextOffset ∧
      ∀ x ∈ ((Log.ofHeap c [a]).appendAll rs).2, x.2 ≠ none := by
  induction rs generalizing a with
  | nil => exact ⟨a, rfl, rfl, rfl, by simp [Log.appendAll]⟩
  | cons r rs ih =>
    obtain ⟨s1, h1, h2, h3, h4⟩ := a.Append_full r hlen hsize
    have happ : (Log.ofHeap c [a]).Append r = (Log.ofHeap c [s1], 0, some Err.EOF) := by
      have := Log.Append_ofHeap c [] a r
      simp only [List.nil_append] at this
      rw [this, h1]
    obtain ⟨a1, e1, e2, e3, e4⟩ := ih s1 (by rw [h4]; exact hlen) (by rw [h4]; exact hsize)
    refine ⟨a1, ?_, by rw [e2, h2], by rw [e3, h3], ?_⟩
    · simp only [Log.appendAll, happ]
      exact e1
    · intro x hx
      simp only [Log.appendAll, happ, List.mem_cons] at hx
      rcases hx with hx | hx
      · rw [hx]
        simp
      · exact e4 x hx

/-- C4, amended. In every log state reached from a new log over an empty
directory by `Append` calls, unless nothing has been stored and `initial_offset`
is 0 (and with `max_index_bytes < 12 * (2^32 + 1)`, offsets below 2^64 and
fewer than 2^63 bytes of store records), `LowestOffset` and `HighestOffset`
succeed and for every `k` with `LowestOffset() <= k <= HighestOffset()` the call
`Log.Read(k)` succeeds and returns exactly the record whose append returned `k`. -/
theorem log_read_in_range (c : Config) (rs : List Record) (k : Nat)
    (h32 : c.Segment.MaxIndexBytes < 12 * 2 ^ 32 + 12)
    (hwrap : c.Segment.InitialOffset + rs.length < 2 ^ 64)
    (hfit : (storeBytes rs).length < 2 ^ 63)
    (hne : c.Segment.InitialOffset ≠ 0 ∨ ∃ x ∈ ((NewLog [] c).appendAll rs).2, x.2 = none) :
    ∃ lo hi, ((NewLog [] c).appendAll rs).1.LowestOffset = Except.ok lo ∧
      ((NewLog [] c).appendAll rs).1.HighestOffset = Except.ok hi ∧
      (lo ≤ k → k ≤ hi → ∃ i : Fin rs.length,
        ((NewLog [] c).appendAll rs).2[i.val]? = some (k, none) ∧
        (((NewLog [] c).appendAll rs).1.Read k).2 = Except.ok (rs.get i)) := by
  by_cases h12 : 12 ≤ c.withDefaults.Segment.MaxIndexBytes
  · -- every append succeeds
    have h32d : c.withDefaults.Segment.MaxIndexBytes < 12 * 2 ^ 32 + 12 := by
      by_cases h0 : c.Segment.MaxIndexBytes = 0
      · rw [Config.withDefaults_MaxIndexBytes_zero c h0]
        norm_num
      · rw [Config.withDefaults_MaxIndexBytes c h0]
        exact h32
    have h0 := Log.Holds_NewLog c h12 (by omega)
    obtain ⟨h1, heap, h2, hh, hmax⟩ := Log.Holds_appendAll c.withDefaults
      c.Segment.InitialOffset (NewLog [] c) [] rs h0 h12 h32d
      (Config.withDefaults_MaxStoreBytes_pos c) (by simpa using hwrap) (by simpa using hfit)
    rw [List.nil_append] at hh
    simp only [List.length_nil, Nat.zero_add] at h1
    have hholds : Log.Holds c.withDefaults c.Segment.InitialOffset
        ((NewLog [] c).appendAll rs).1 rs := ⟨heap, h2, hh, hmax⟩
    obtain ⟨pre, a, rfl⟩ : ∃ pre a, heap = pre ++ [a] := by
      rcases List.eq_nil_or_concat heap with e | ⟨pre, b, e⟩
      · rw [e] at hmax
        simp at hmax
      · exact ⟨pre, b, by rw [e, List.concat_eq_append]⟩
    have hnext := HeapHolds_length _ _ _ _ hh a (by simp [List.getLast?_concat])
    have hrs : rs ≠ [] ∨ c.Segment.InitialOffset ≠ 0 := by
      rcases hne with hne | ⟨x, hx, _⟩
      · exact Or.inr hne
      · left
        intro e
        rw [e] at hx
        simp [Log.appendAll] at hx
    have hlen : 0 < rs.length ∨ c.Segment.InitialOffset ≠ 0 := by
      rcases hrs with hrs | hrs
      · exact Or.inl (List.length_pos.mpr hrs)
      · exact Or.inr hrs
    have hlow : (Log.ofHeap c.withDefaults (pre ++ [a])).LowestOffset
        = Except.ok c.Segment.InitialOffset := by
      cases hpre : pre ++ [a] with
      | nil => simp at hpre
      | cons s ss =>
        rw [hpre] at hh
        obtain ⟨g, rest, _, hb, _, _⟩ := hh
        rw [Log.LowestOffset_ofHeap, hb]
    rw [h2, hlow, Log.HighestOffset_ofHeap, if_neg (by omega), ← h2]
    refine ⟨_, _, rfl, rfl, ?_⟩
    intro hlo hhi
    have hk : k - c.Segment.InitialOffset < rs.length := by omega
    refine ⟨⟨k - c.Segment.InitialOffset, hk⟩, ?_, ?_⟩
    · rw [h1]
      simp only [List.getElem?_map, List.getElem?_range hk, Option.map_some']
      congr 2
      omega
    · have := (Log.Holds_Read _ _ _ rs hholds (k - c.Segment.InitialOffset) hk).1
      have e : c.Segment.InitialOffset + (k - c.Segment.InitialOffset) = k := by omega
      rw [e] at this
      exact this
  · -- no append succeeds
    have hnil := newSegment_nil c.withDefaults.Segment.InitialOffset c.withDefaults
    obtain ⟨a1, e1, e2, e3, e4⟩ := Log.appendAll_full c.withDefaults
      (newSegment [] c.withDefaults.Segment.InitialOffset c.withDefaults) rs
      (by rw [hnil]; simp only [List.length_replicate]; omega) (by rw [hnil])
    rw [← NewLog_nil] at e1 e4
    rw [hnil] at e2 e3
    simp only [Config.withDefaults_InitialOffset] at e2 e3
    have hinit : c.Segment.InitialOffset ≠ 0 := by
      rcases hne with hne | ⟨x, hx, hx2⟩
      · exact hne
      · exact absurd hx2 (e4 x hx)
    have hh := Log.HighestOffset_ofHeap c.withDefaults [] a1
    have hl := Log.LowestOffset_ofHeap c.withDefaults a1 []
    simp only [List.nil_append] at hh
    rw [e1, hh, hl, if_neg (by omega)]
    refine ⟨_, _, rfl, rfl, ?_⟩
    intro hlo hhi
    omega


/-! ## The claims about the log -/

/-- C2, amended. Dense offsets: for a configuration with
`max_index_bytes >= 12`, the `i`-th (from 0) of the `Append` calls on a new log
over an empty directory succeeds and returns
`(initial_offset + i) mod 2^64`, which is `initial_offset + i` as long as
`initial_offset + n <= 2^64`; the segment list holds every segment created, and
each of them starts at `initial_offset` or at a returned offset plus one
(mod 2^64), roll-overs included. -/
theorem log_append_dense (c : Config) (rs : List Record)
    (h12 : 12 ≤ c.Segment.MaxIndexBytes) (h64 : c.Segment.MaxIndexBytes < 2 ^ 64)
    (hinit : c.Segment.InitialOffset < 2 ^ 64) :
    ((NewLog [] c).appendAll rs).2
        = (List.range rs.length).map (fun i => ((c.Segment.InitialOffset + i) % 2 ^ 64, none)) ∧
      (c.Segment.InitialOffset + rs.length ≤ 2 ^ 64 →
        ((NewLog [] c).appendAll rs).2
          = (List.range rs.length).map (fun i => (c.Segment.InitialOffset + i, none))) ∧
      ((NewLog [] c).appendAll rs).1.segments
        = List.range ((NewLog [] c).appendAll rs).1.heap.length ∧
      ∀ s ∈ ((NewLog [] c).appendAll rs).1.heap,
        s.baseOffset = c.Segment.InitialOffset ∨
          ∃ i, i < rs.length ∧ s.baseOffset = ((c.Segment.InitialOffset + i) % 2 ^ 64 + 1) % 2 ^ 64 := by
  have hm := Config.withDefaults_MaxIndexBytes c (by omega)
  obtain ⟨h1, pre, a, h2, _, _, _, _, h3⟩ := Log.Dense_appendAll c.withDefaults
    c.Segment.InitialOffset 0 (NewLog [] c) rs (Log.Dense_NewLog c h12 hinit)
    (by rw [hm]; exact h12) (by rw [hm]; exact h64) (Config.withDefaults_MaxStoreBytes_pos c)
  simp only [Nat.zero_add] at h1 h3
  refine ⟨h1, ?_, by rw [h2]; rfl, by rw [h2]; exact h3⟩
  intro hle
  rw [h1]
  apply List.map_congr_left
  intro i hi
  rw [List.mem_range] at hi
  rw [Nat.mod_eq_of_lt (by omega)]

/-- C2 as stated fails: from the initial offset `2^64 - 1` the second append
returns 0, not `initial_offset + 1`. -/
theorem log_append_dense_counterexample :
    12 ≤ Config.atTop.Segment.MaxIndexBytes ∧
      ((NewLog [] Config.atTop).appendAll [[1], [2]]).2
        = [(2 ^ 64 - 1, none), (0, none)] ∧
      (0 : Nat) ≠ Config.atTop.Segment.InitialOffset + 1 := by
  decide

/-- C2, amended, at four appends with the configuration of the first scenario. -/
theorem log_append_dense_witness :
    12 ≤ Config.scenario.Segment.MaxIndexBytes ∧ Config.scenario.Segment.MaxIndexBytes < 2 ^ 64 ∧
    Config.scenario.Segment.InitialOffset < 2 ^ 64 ∧
    ((NewLog [] Config.scenario).appendAll
        [store_test.write, store_test.write, store_test.write, store_test.write]).2
      = (List.range
          [store_test.write, store_test.write, store_test.write, store_test.write].length).map
        (fun i => ((Config.scenario.Segment.InitialOffset + i) % 2 ^ 64, none)) :=
  ⟨by decide, by decide, by decide,
    (log_append_dense Config.scenario
      [store_test.write, store_test.write, store_test.write, store_test.write]
      (by decide) (by decide) (by decide)).1⟩

/-- C1 as stated fails: with `max_index_bytes = 12` and the initial offset
`2^64 - 1`, the append returns `2^64 - 1` and `Log.Read(2^64 - 1)` fails. -/
theorem log_append_read_roundtrip_counterexample :
    12 ≤ Config.atTop.Segment.MaxIndexBytes ∧
      ((NewLog [] Config.atTop).appendAll [[1]]).2 = [(2 ^ 64 - 1, none)] ∧
      (((NewLog [] Config.atTop).appendAll [[1]]).1.Read (2 ^ 64 - 1)).2
        = Except.error (Err.ErrOffsetOutOfRange (2 ^ 64 - 1)) := by
  decide

/-- C1, amended, at three records read back in the order 2, 0, 1, 0. -/
theorem log_append_read_roundtrip_witness :
    12 ≤ Config.scenario.Segment.MaxIndexBytes ∧
    Config.scenario.Segment.MaxIndexBytes < 12 * 2 ^ 32 + 12 ∧
    Config.scenario.Segment.InitialOffset + [store_test.write, [1, 2, 3], []].length < 2 ^ 64 ∧
    (storeBytes [store_test.write, [1, 2, 3], []]).length < 2 ^ 63 ∧
    (((NewLog [] Config.scenario).appendAll [store_test.write, [1, 2, 3], []]).1.readAll
        ((([Fin.mk 2 (by decide), Fin.mk 0 (by decide), Fin.mk 1 (by decide), Fin.mk 0 (by decide)]
          : List (Fin [store_test.write, [1, 2, 3], []].length))).map
          fun i => Config.scenario.Segment.InitialOffset + i.val)).2
      = ([Fin.mk 2 (by decide), Fin.mk 0 (by decide), Fin.mk 1 (by decide), Fin.mk 0 (by decide)]
          : List (Fin [store_test.write, [1, 2, 3], []].length)).map
          (fun i => Except.ok ([store_test.write, [1, 2, 3], []].get i)) :=
  ⟨by decide, by decide, by decide, by decide,
    (log_append_read_roundtrip Config.scenario [store_test.write, [1, 2, 3], []]
      [Fin.mk 2 (by decide), Fin.mk 0 (by decide), Fin.mk 1 (by decide), Fin.mk 0 (by decide)]
      (by decide) (by decide) (by decide) (by decide)).2⟩

/-- C3 as stated fails: after two appends from the initial offset `2^64 - 1`
(a roll-over after each), the lowest offset is `2^64 - 1`, yet `Log.Read(0)`
succeeds. -/
theorem log_read_out_of_range_counterexample :
    ((NewLog [] Config.atTop).appendAll [[1], [2]]).1.LowestOffset = Except.ok (2 ^ 64 - 1) ∧
      (0 : Nat) < 2 ^ 64 - 1 ∧
      (((NewLog [] Config.atTop).appendAll [[1], [2]]).1.Read 0).2 = Except.ok [2] := by
  decide

/-- C3, amended, at two appends and the offset 2. -/
theorem log_read_out_of_range_witness :
    Config.scenario.Segment.InitialOffset + [store_test.write, store_test.write].length < 2 ^ 64 ∧
    ∃ lo hi,
      ((NewLog [] Config.scenario).appendAll [store_test.write, store_test.write]).1.LowestOffset
        = Except.ok lo ∧
      ((NewLog [] Config.scenario).appendAll [store_test.write, store_test.write]).1.HighestOffset
        = Except.ok hi ∧
      (2 < lo ∨ hi < 2 →
        Log.Read.find
            ((NewLog [] Config.scenario).appendAll [store_test.write, store_test.write]).1.heap 2
            ((NewLog [] Config.scenario).appendAll [store_test.write, store_test.write]).1.segments
          = none ∧
        ((NewLog [] Config.scenario).appendAll [store_test.write, store_test.write]).1.Read 2
          = (((NewLog [] Config.scenario).appendAll [store_test.write, store_test.write]).1,
              Except.error (Err.ErrOffsetOutOfRange 2))) :=
  ⟨by decide,
    log_read_out_of_range Config.scenario [store_test.write, store_test.write] 2 (by decide)⟩

/-- C4 as stated fails: in a new log with `initial_offset = 0` both
`LowestOffset` and `HighestOffset` are 0, and `Log.Read(0)` fails. -/
theorem log_read_in_range_counterexample :
    ((NewLog [] Config.zero).appendAll []).1.LowestOffset = Except.ok 0 ∧
      ((NewLog [] Config.zero).appendAll []).1.HighestOffset = Except.ok 0 ∧
      (((NewLog [] Config.zero).appendAll []).1.Read 0).2
        = Except.error (Err.ErrOffsetOutOfRange 0) := by
  decide

/-- C4, amended, at two appends and the offset 1. -/
theorem log_read_in_range_witness :
    Config.scenario.Segment.MaxIndexBytes < 12 * 2 ^ 32 + 12 ∧
    Config.scenario.Segment.InitialOffset + [store_test.write, [1, 2, 3]].length < 2 ^ 64 ∧
    (storeBytes [store_test.write, [1, 2, 3]]).length < 2 ^ 63 ∧
    (Config.scenario.Segment.InitialOffset ≠ 0 ∨
      ∃ x ∈ ((NewLog [] Config.scenario).appendAll [store_test.write, [1, 2, 3]]).2, x.2 = none) ∧
    ∃ lo hi,
      ((NewLog [] Config.scenario).appendAll [store_test.write, [1, 2, 3]]).1.LowestOffset
        = Except.ok lo ∧
      ((NewLog [] Config.scenario).appendAll [store_test.write, [1, 2, 3]]).1.HighestOffset
        = Except.ok hi ∧
      (lo ≤ 1 → 1 ≤ hi → ∃ i : Fin [store_test.write, [1, 2, 3]].length,
        ((NewLog [] Config.scenario).appendAll [store_test.write, [1, 2, 3]]).2[i.val]?
          = some (1, none) ∧
        (((NewLog [] Config.scenario).appendAll [store_test.write, [1, 2, 3]]).1.Read 1).2
          = Except.ok ([store_test.write, [1, 2, 3]].get i)) :=
  ⟨by decide, by decide, by decide, Or.inr (by decide),
    log_read_in_range Config.scenario [store_test.write, [1, 2, 3]] 1
      (by decide) (by decide) (by decide) (Or.inr (by decide))⟩

/-! ## A full index -/

/-- C11. For an index whose `size + 12` stays in the 64 bits of the size counter
(every size that `newIndex` and `Write` produce does), `index.Write(off, pos)`
fails with `io.EOF` if and only if `size + 12` exceeds the length of the
mapping; a call that fails so leaves the size and every byte of the mapping as
they were, and a call with room for the entry succeeds. -/
theorem index_write_eof (i : index) (off pos : Nat) (h64 : i.size + 12 < 2 ^ 64) :
    ((i.Write off pos).2 = some Err.EOF ↔ i.mmap.length < i.size + 12) ∧
      ((i.Write off pos).2 = some Err.EOF →
        (i.Write off pos).1.size = i.size ∧ (i.Write off pos).1.mmap = i.mmap) ∧
      (i.size + 12 ≤ i.mmap.length → (i.Write off pos).2 = none) := by
  have e3 : (i.size + entWidth) % 2 ^ 64 = i.size + 12 := by
    simp only [entWidth, offWidth, posWidth]; omega
  have hfail : i.mmap.length < i.size + 12 → i.Write off pos = (i, some Err.EOF) := by
    intro h
    unfold index.Write
    rw [if_pos (by rw [e3]; exact h)]
  have hok : i.size + 12 ≤ i.mmap.length → (i.Write off pos).2 = none := by
    intro h
    rw [index.Write_ok i off pos h h64]
  have hiff : (i.Write off pos).2 = some Err.EOF ↔ i.mmap.length < i.size + 12 := by
    refine ⟨fun h => ?_, fun h => by rw [hfail h]⟩
    by_contra hn
    rw [hok (by omega)] at h
    simp at h
  exact ⟨hiff, fun h => by rw [hfail (hiff.1 h)]; exact ⟨rfl, rfl⟩, hok⟩

/-- C11 at an index of one entry whose mapping of 12 bytes is full. -/
theorem index_write_eof_witness :
    (index.mk (List.replicate 12 0) 12).size + 12 < 2 ^ 64 ∧
    (((index.mk (List.replicate 12 0) 12).Write 1 19).2 = some Err.EOF ↔
      (index.mk (List.replicate 12 0) 12).mmap.length
        < (index.mk (List.replicate 12 0) 12).size + 12) :=
  ⟨by decide, (index_write_eof (index.mk (List.replicate 12 0) 12) 1 19 (by decide)).1⟩

/-! ### The size stays within the mapping -/

theorem index.Write_inv (i : index) (off pos : Nat) (hsz : i.size ≤ i.mmap.length)
    (hlen : i.mmap.length < 2 ^ 63) :
    (i.Write off pos).1.size ≤ (i.Write off pos).1.mmap.length ∧
      (i.Write off pos).1.mmap.length = i.mmap.length ∧
      (12 ∣ i.size → 12 ∣ (i.Write off pos).1.size) ∧
      (i.Write off pos).2 ≠ some Err.panic := by
  by_cases h : i.mmap.length < i.size + 12
  · have : i.Write off pos = (i, some Err.EOF) := by
      unfold index.Write
      rw [if_pos (by simp only [entWidth, offWidth, posWidth]; omega)]
    rw [this]
    exact ⟨hsz, rfl, fun h => h, by simp⟩
  · rw [index.Write_ok i off pos (by omega) (by omega)]
    refine ⟨?_, ?_, ?_, by simp⟩
    · simp only [List.length_append, List.length_take, List.length_drop,
        encoding.PutUint32_length, encoding.PutUint64_length]
      omega
    · simp only [List.length_append, List.length_take, List.length_drop,
        encoding.PutUint32_length, encoding.PutUint64_length]
      omega
    · intro hd
      exact Nat.dvd_add hd (Nat.dvd_refl 12)

theorem index.Read_no_panic (i : index) (n : Int) (hsz : i.size ≤ i.mmap.length) :
    i.Read n ≠ Except.error Err.panic := by
  by_cases h : i.size < 12 * i.entryOf n + 12
  · rw [index.Read_eof i n h]
    simp
  · rw [index.Read_entry i n hsz (by omega)]
    simp

theorem index.writeAll_inv (i : index) (ws : List (Nat × Nat)) (hsz : i.size ≤ i.mmap.length)
    (hlen : i.mmap.length < 2 ^ 63) :
    (i.writeAll ws).size ≤ (i.writeAll ws).mmap.length ∧
      (i.writeAll ws).mmap.length = i.mmap.length ∧
      (12 ∣ i.size → 12 ∣ (i.writeAll ws).size) := by
  induction ws generalizing i with
  | nil => exact ⟨hsz, rfl, fun h => h⟩
  | cons w ws ih =>
    obtain ⟨h1, h2, h3, _⟩ := i.Write_inv w.1 w.2 hsz hlen
    obtain ⟨h4, h5, h6⟩ := ih (i.Write w.1 w.2).1 h1 (by rw [h2]; exact hlen)
    exact ⟨h4, by rw [← h2]; exact h5, fun h => h6 (h3 h)⟩

/-- C20. Index bounds safety: in every index state reached from `newIndex` on a
file of at most `MaxIndexBytes` bytes by any sequence of `Write` calls (with
`MaxIndexBytes` below 2^63, the sizes a file can be truncated to and mapped
at), `size <= len(mmap)` holds and the size is a multiple of 12 if it started
as one; in such a state no `Read(n)`, for any integer `n`, negative ones and -1
included, and no `Write(off, pos)` slices outside the mapping: the out-of-range
branch of the embedding is never taken. -/
theorem index_bounds_safety (file : List Nat) (c : Config) (ws : List (Nat × Nat))
    (hfile : file.length ≤ c.Segment.MaxIndexBytes) (hmax : c.Segment.MaxIndexBytes < 2 ^ 63) :
    ((newIndex file c).writeAll ws).size ≤ ((newIndex file c).writeAll ws).mmap.length ∧
      (12 ∣ (newIndex file c).size → 12 ∣ ((newIndex file c).writeAll ws).size) ∧
      (∀ n : Int, ((newIndex file c).writeAll ws).Read n ≠ Except.error Err.panic) ∧
      ∀ off pos : Nat, (((newIndex file c).writeAll ws).Write off pos).2 ≠ some Err.panic := by
  have hl : (newIndex file c).mmap.length = c.Segment.MaxIndexBytes := by
    simp only [newIndex, List.length_take, List.length_append, List.length_replicate]
    omega
  have hs : (newIndex file c).size = file.length := by
    simp only [newIndex]
    omega
  obtain ⟨h1, h2, h3⟩ := (newIndex file c).writeAll_inv ws (by rw [hl, hs]; exact hfile)
    (by rw [hl]; exact hmax)
  refine ⟨h1, h3, fun n => index.Read_no_panic _ n h1, fun off pos => ?_⟩
  exact (index.Write_inv _ off pos h1 (by rw [h2, hl]; exact hmax)).2.2.2

/-- C20 at an index over a file of one entry, a mapping of 36 bytes and three
writes, the last of which finds the index full. -/
theorem index_bounds_safety_witness :
    [0, 0, 0, 0, 0, 0, 0, 0, 0, 0, 0, 9].length ≤ Config.threeEntries.Segment.MaxIndexBytes ∧
    Config.threeEntries.Segment.MaxIndexBytes < 2 ^ 63 ∧
    ((newIndex [0, 0, 0, 0, 0, 0, 0, 0, 0, 0, 0, 9] Config.threeEntries).writeAll
        [(1, 20), (2, 40), (3, 60)]).size
      ≤ ((newIndex [0, 0, 0, 0, 0, 0, 0, 0, 0, 0, 0, 9] Config.threeEntries).writeAll
        [(1, 20), (2, 40), (3, 60)]).mmap.length :=
  ⟨by decide, by decide,
    (index_bounds_safety [0, 0, 0, 0, 0, 0, 0, 0, 0, 0, 0, 9] Config.threeEntries
      [(1, 20), (2, 40), (3, 60)] (by decide) (by decide)).1⟩

/-! ## Truncating the log -/

theorem segment.Remove_span (s : segment) (dir : Dir) : (s.Remove dir).1.span = s.span := rfl

theorem segment.Remove_nil (s : segment) : (s.Remove []).2 = [] := rfl

theorem List.map_span_set (heap : List segment) (p : Nat) (s s1 : segment)
    (hp : heap[p]? = some s) (hs : s1.span = s.span) :
    (heap.set p s1).map segment.span = heap.map segment.span := by
  rw [List.map_set, hs]
  apply List.ext_getElem?
  intro q
  by_cases hq : p = q
  · subst hq
    have hlt : p < heap.length := by
      rcases Nat.lt_or_ge p heap.length with h | h
      · exact h
      · rw [List.getElem?_eq_none h] at hp
        simp at hp
    rw [List.getElem?_set_self (by simpa using hlt)]
    simp [hp]
  · rw [List.getElem?_set_ne hq]

/-- What the loop of `Log.Truncate` returns, in terms of the heap `H` it
started from: the pointers kept and removed are the two parts of the list, the
spans of all segments stay, and a kept segment is not touched. -/
theorem Log.Truncate.loop_spec (lowest : Nat) (H : List segment) (ps : List Nat)
    (dir : Proglog.Dir) (heap : List segment) (segs rem : List Nat)
    (dir1 : Proglog.Dir) (heap1 : List segment) (segs1 rem1 : List Nat)
    (hspan : heap.map segment.span = H.map segment.span)
    (hkeep : ∀ (p : Nat) (s : segment), H[p]? = some s → (lowest + 1) % 2 ^ 64 < s.nextOffset → heap[p]? = some s)
    (h : Log.Truncate.loop lowest ps dir heap segs rem = Except.ok (dir1, heap1, segs1, rem1)) :
    segs1 = segs ++ ps.filter (fun p =>
        (H[p]?).any fun s => decide ((lowest + 1) % 2 ^ 64 < s.nextOffset)) ∧
      rem1 = rem ++ ps.filter (fun p =>
        (H[p]?).any fun s => decide (s.nextOffset ≤ (lowest + 1) % 2 ^ 64)) ∧
      heap1.map segment.span = H.map segment.span ∧
      (∀ (p : Nat) (s : segment), H[p]? = some s → (lowest + 1) % 2 ^ 64 < s.nextOffset →
        heap1[p]? = some s) ∧
      (∀ p ∈ ps, ∃ s, H[p]? = some s) ∧
      (dir = [] → dir1 = []) := by
  induction ps generalizing dir heap segs rem with
  | nil =>
    simp only [Log.Truncate.loop, Except.ok.injEq, Prod.mk.injEq] at h
    obtain ⟨h1, h2, h3, h4⟩ := h
    subst h1 h2 h3 h4
    exact ⟨by simp, by simp, hspan, hkeep, by simp, fun h => h⟩
  | cons p ps ih =>
    unfold Log.Truncate.loop at h
    have hnext : ∀ s, heap[p]? = some s → ∃ s0, H[p]? = some s0 ∧ s0.span = s.span := by
      intro s hs
      have := congrArg (fun l => l[p]?) hspan
      simp only [List.getElem?_map, hs, Option.map_some'] at this
      cases hH : H[p]? with
      | none => rw [hH] at this; simp at this
      | some s0 =>
        rw [hH] at this
        simp only [Option.map_some', Option.some.injEq] at this
        exact ⟨s0, rfl, this.symm⟩
    cases hp : heap[p]? with
    | none => rw [hp] at h; simp at h
    | some s =>
      rw [hp] at h
      simp only at h
      obtain ⟨s0, hH, hs0⟩ := hnext s hp
      have hn : s0.nextOffset = s.nextOffset := congrArg Prod.snd hs0
      by_cases hrem : s.nextOffset ≤ (lowest + 1) % 2 ^ 64
      · rw [if_pos hrem] at h
        obtain ⟨h1, h2, h3, h4, h5, h6⟩ := ih (s.Remove dir).2 (heap.set p (s.Remove dir).1) segs
          (rem ++ [p])
          (by rw [List.map_span_set heap p s _ hp (segment.Remove_span s dir)]; exact hspan)
          (by
            intro q sq hq hlt
            have hne : p ≠ q := by
              intro e
              subst e
              rw [hH] at hq
              simp only [Option.some.injEq] at hq
              subst hq
              omega
            rw [List.getElem?_set_ne hne]
            exact hkeep q sq hq hlt)
          h
        refine ⟨?_, ?_, h3, h4, ?_, ?_⟩
        · rw [h1, List.filter_cons]
          simp only [hH, Option.any_some, decide_eq_true_eq, hn]
          rw [if_neg (Nat.not_lt.mpr hrem)]
        · rw [h2, List.filter_cons]
          simp only [hH, Option.any_some, decide_eq_true_eq, hn]
          rw [if_pos hrem]
          simp only [List.append_assoc, List.singleton_append]
        · intro q hq
          rcases List.mem_cons.1 hq with e | e
          · exact ⟨s0, by rw [e]; exact hH⟩
          · exact h5 q e
        · intro hd
          apply h6
          rw [hd]
          rfl
      · rw [if_neg hrem] at h
        obtain ⟨h1, h2, h3, h4, h5, h6⟩ := ih dir heap (segs ++ [p]) rem hspan hkeep h
        refine ⟨?_, ?_, h3, h4, ?_, h6⟩
        · rw [h1, List.filter_cons]
          simp only [hH, Option.any_some, decide_eq_true_eq, hn]
          rw [if_pos (Nat.lt_of_not_le hrem)]
          simp only [List.append_assoc, List.singleton_append]
        · rw [h2, List.filter_cons]
          simp only [hH, Option.any_some, decide_eq_true_eq, hn]
          rw [if_neg hrem]
        · intro q hq
          rcases List.mem_cons.1 hq with e | e
          · exact ⟨s0, by rw [e]; exact hH⟩
          · exact h5 q e

/-- What a successful `Log.Truncate` returns, with `T = (lowest + 1) mod 2^64`. -/
theorem Log.Truncate_spec (l l1 : Log) (lowest : Nat) (removed : List Nat)
    (h : l.Truncate lowest = (l1, removed, none)) :
    l1.segments = l.segments.filter (fun p =>
        (l.heap[p]?).any fun s => decide ((lowest + 1) % 2 ^ 64 < s.nextOffset)) ∧
      removed = l.segments.filter (fun p =>
        (l.heap[p]?).any fun s => decide (s.nextOffset ≤ (lowest + 1) % 2 ^ 64)) ∧
      l1.heap.map segment.span = l.heap.map segment.span ∧
      (∀ (p : Nat) (s : segment), l.heap[p]? = some s → (lowest + 1) % 2 ^ 64 < s.nextOffset →
        l1.heap[p]? = some s) ∧
      (∀ p ∈ l.segments, ∃ s, l.heap[p]? = some s) ∧
      l1.activeSegment = l.activeSegment ∧ l1.Config = l.Config ∧ (l.Dir = [] → l1.Dir = []) := by
  unfold Log.Truncate at h
  cases hloop : Log.Truncate.loop lowest l.segments l.Dir l.heap [] [] with
  | error e => rw [hloop] at h; simp at h
  | ok r =>
    obtain ⟨dir1, heap1, segs1, rem1⟩ := r
    rw [hloop] at h
    simp only [Prod.mk.injEq, and_true] at h
    obtain ⟨h1, h2⟩ := h
    subst h1 h2
    obtain ⟨e1, e2, e3, e4, e5, e6⟩ := Log.Truncate.loop_spec lowest l.heap l.segments l.Dir
      l.heap [] [] dir1 heap1 segs1 rem1 rfl (fun p s hp _ => hp) hloop
    exact ⟨by simpa using e1, by simpa using e2, e3, e4, e5, rfl, rfl, e6⟩

/-- The segments of the pointers kept are the kept ones of the segments. -/
theorem List.filterMap_filter_heap (H heap1 : List segment) (T : Nat) (ps : List Nat)
    (hkeep : ∀ (p : Nat) (s : segment), H[p]? = some s → T < s.nextOffset → heap1[p]? = some s) :
    (ps.filter fun p => (H[p]?).any fun s => decide (T < s.nextOffset)).filterMap
        (fun p => heap1[p]?)
      = (ps.filterMap fun p => H[p]?).filter (fun s => decide (T < s.nextOffset)) := by
  induction ps with
  | nil => rfl
  | cons p ps ih =>
    rw [List.filter_cons, List.filterMap_cons]
    cases hp : H[p]? with
    | none => simpa using ih
    | some s =>
      simp only [Option.any_some, decide_eq_true_eq]
      by_cases hlt : T < s.nextOffset
      · rw [if_pos hlt, List.filterMap_cons, hkeep p s hp hlt, List.filter_cons]
        simp only [decide_eq_true_eq]
        rw [if_pos hlt, ih]
      · rw [if_neg hlt, List.filter_cons]
        simp only [decide_eq_true_eq]
        rw [if_neg hlt, ih]

/-- C12. For every log and every `lowest < 2^64 - 1`, after a `Log.Truncate(lowest)`
that returns no error the segment list is the previous list restricted, in its
order, to the segments with `nextOffset > lowest + 1`, and `Remove` was called
on exactly the other segments of the list, those with
`nextOffset <= lowest + 1`, in the order of the list. -/
theorem log_truncate_segments (l : Log) (lowest : Nat) (hlow : lowest < 2 ^ 64 - 1)
    (hok : (l.Truncate lowest).2.2 = none) :
    (l.Truncate lowest).1.segments
        = l.segments.filter (fun p =>
            (l.heap[p]?).any fun s => decide (lowest + 1 < s.nextOffset)) ∧
      (l.Truncate lowest).2.1
        = l.segments.filter (fun p =>
            (l.heap[p]?).any fun s => decide (s.nextOffset ≤ lowest + 1)) ∧
      (l.Truncate lowest).1.segmentList
        = l.segmentList.filter (fun s => decide (lowest + 1 < s.nextOffset)) := by
  have hT : (lowest + 1) % 2 ^ 64 = lowest + 1 := Nat.mod_eq_of_lt (by omega)
  obtain ⟨e1, e2, _, e4, _, _⟩ := Log.Truncate_spec l (l.Truncate lowest).1 lowest
    (l.Truncate lowest).2.1 (by rw [← hok])
  rw [hT] at e1 e2 e4
  refine ⟨e1, e2, ?_⟩
  unfold Log.segmentList
  rw [e1]
  exact List.filterMap_filter_heap l.heap _ (lowest + 1) l.segments e4

/-! ### Reading after a truncation -/

theorem Log.Read.find_some (heap : List segment) (k : Nat) (ps : List Nat) (p : Nat)
    (s : segment) (h : Log.Read.find heap k ps = some (p, s)) :
    p ∈ ps ∧ heap[p]? = some s ∧ s.baseOffset ≤ k ∧ k < s.nextOffset := by
  induction ps with
  | nil => simp [Log.Read.find] at h
  | cons q ps ih =>
    unfold Log.Read.find at h
    cases hq : heap[q]? with
    | none =>
      rw [hq] at h
      obtain ⟨h1, h2⟩ := ih h
      exact ⟨List.mem_cons_of_mem _ h1, h2⟩
    | some sq =>
      rw [hq] at h
      simp only at h
      by_cases hr : sq.baseOffset ≤ k ∧ k < sq.nextOffset
      · rw [if_pos hr] at h
        simp only [Option.some.injEq, Prod.mk.injEq] at h
        obtain ⟨h1, h2⟩ := h
        subst h1 h2
        exact ⟨List.mem_cons_self _ _, hq, hr.1, hr.2⟩
      · rw [if_neg hr] at h
        obtain ⟨h1, h2⟩ := ih h
        exact ⟨List.mem_cons_of_mem _ h1, h2⟩

theorem Log.Read.find_filter_some (H heap1 : List segment) (T k : Nat) (ps : List Nat) (p : Nat)
    (s : segment)
    (hkeep : ∀ (p : Nat) (s : segment), H[p]? = some s → T < s.nextOffset → heap1[p]? = some s)
    (h : Log.Read.find H k ps = some (p, s)) (hT : T < s.nextOffset) :
    Log.Read.find heap1 k (ps.filter fun p => (H[p]?).any fun s => decide (T < s.nextOffset))
      = some (p, s) := by
  induction ps with
  | nil => simp [Log.Read.find] at h
  | cons q ps ih =>
    unfold Log.Read.find at h
    rw [List.filter_cons]
    cases hq : H[q]? with
    | none =>
      rw [hq] at h
      simp only [Option.any_none]
      exact ih h
    | some sq =>
      rw [hq] at h
      simp only at h
      simp only [Option.any_some, decide_eq_true_eq]
      by_cases hr : sq.baseOffset ≤ k ∧ k < sq.nextOffset
      · rw [if_pos hr] at h
        simp only [Option.some.injEq, Prod.mk.injEq] at h
        obtain ⟨h1, h2⟩ := h
        subst h1 h2
        rw [if_pos hT]
        unfold Log.Read.find
        rw [hkeep q sq hq hT]
        simp only
        rw [if_pos hr]
      · rw [if_neg hr] at h
        by_cases hlt : T < sq.nextOffset
        · rw [if_pos hlt]
          unfold Log.Read.find
          rw [hkeep q sq hq hlt]
          simp only
          rw [if_neg hr]
          exact ih h
        · rw [if_neg hlt]
          exact ih h

theorem Log.Read.find_filter_none (H heap1 : List segment) (T k : Nat) (ps : List Nat)
    (hkeep : ∀ (p : Nat) (s : segment), H[p]? = some s → T < s.nextOffset → heap1[p]? = some s)
    (h : ∀ p ∈ ps, ∀ s : segment, H[p]? = some s → s.baseOffset ≤ k → k < s.nextOffset →
      s.nextOffset ≤ T) :
    Log.Read.find heap1 k (ps.filter fun p => (H[p]?).any fun s => decide (T < s.nextOffset))
      = none := by
  induction ps with
  | nil => rfl
  | cons q ps ih =>
    have ih1 := ih (fun p hp => h p (List.mem_cons_of_mem _ hp))
    rw [List.filter_cons]
    cases hq : H[q]? with
    | none =>
      simp only [Option.any_none]
      exact ih1
    | some sq =>
      simp only [Option.any_some, decide_eq_true_eq]
      by_cases hlt : T < sq.nextOffset
      · rw [if_pos hlt]
        unfold Log.Read.find
        rw [hkeep q sq hq hlt]
        simp only
        rw [if_neg, ih1]
        intro hr
        have := h q (List.mem_cons_self _ _) sq hq hr.1 hr.2
        omega
      · rw [if_neg hlt]
        exact ih1

/-- C14, amended. For every log and every `L`, after a `Log.Truncate(L)` that
returns no error, `Log.Read(k)` fails with `ErrOffsetOutOfRange` carrying `k`,
the log unchanged, for every offset `k` that before the truncation lay in no
segment of the list with `nextOffset > L + 1` (the sum taken on 64 bits): the
segments holding `k` were all removed. -/
theorem log_truncate_removed_reads (l : Log) (L k : Nat) (hok : (l.Truncate L).2.2 = none)
    (hk : ∀ s ∈ l.segmentList, s.baseOffset ≤ k → k < s.nextOffset →
      s.nextOffset ≤ (L + 1) % 2 ^ 64) :
    (l.Truncate L).1.Read k
      = ((l.Truncate L).1, Except.error (Err.ErrOffsetOutOfRange k)) := by
  obtain ⟨e1, _, _, e4, _, _⟩ := Log.Truncate_spec l (l.Truncate L).1 L
    (l.Truncate L).2.1 (by rw [← hok])
  have hnone : Log.Read.find (l.Truncate L).1.heap k (l.Truncate L).1.segments = none := by
    rw [e1]
    apply Log.Read.find_filter_none l.heap _ _ k l.segments e4
    intro p hp s hs
    apply hk s
    unfold Log.segmentList
    rw [List.mem_filterMap]
    exact ⟨p, hp, hs⟩
  unfold Log.Read
  rw [hnone]

theorem Log.Truncate.loop_ok (lowest : Nat) (ps : List Nat) (dir : Proglog.Dir)
    (heap : List segment) (segs rem : List Nat) (h : ∀ p ∈ ps, p < heap.length) :
    ∃ r, Log.Truncate.loop lowest ps dir heap segs rem = Except.ok r := by
  induction ps generalizing dir heap segs rem with
  | nil => exact ⟨_, rfl⟩
  | cons p ps ih =>
    unfold Log.Truncate.loop
    rw [List.getElem?_eq_getElem (h p (List.mem_cons_self _ _))]
    simp only
    split
    · apply ih
      intro q hq
      rw [List.length_set]
      exact h q (List.mem_cons_of_mem _ hq)
    · exact ih _ _ _ _ (fun q hq => h q (List.mem_cons_of_mem _ hq))

theorem Log.Truncate_ok (l : Log) (lowest : Nat) (h : ∀ p ∈ l.segments, p < l.heap.length) :
    (l.Truncate lowest).2.2 = none := by
  obtain ⟨r, hr⟩ := Log.Truncate.loop_ok lowest l.segments l.Dir l.heap [] [] h
  unfold Log.Truncate
  rw [hr]

theorem store.Flush_Flush (s : store) : s.Flush.Flush = s.Flush := by
  simp [store.Flush]

theorem store.Read_fst (s : store) (pos : Nat) : (s.Read pos).1 = s.Flush := by
  unfold store.Read
  dsimp only
  split
  · rfl
  · split
    · rfl
    · split <;> rfl

theorem store.Read_Flush (s : store) (pos : Nat) : s.Flush.Read pos = s.Read pos := by
  unfold store.Read
  rw [store.Flush_Flush]

theorem segment.Read_span (s : segment) (k : Nat) : (s.Read k).1.span = s.span := by
  unfold segment.Read
  split <;> rfl

/-- Reading a segment a second time gives what the first read gave. -/
theorem segment.Read_again (s : segment) (k : Nat) : ((s.Read k).1.Read k).2 = (s.Read k).2 := by
  have hb : (s.Read k).1.baseOffset = s.baseOffset := congrArg Prod.fst (s.Read_span k)
  have hi : (s.Read k).1.index = s.index := by
    unfold segment.Read
    split <;> rfl
  have hs : (s.Read k).1.store = s.store ∨ (s.Read k).1.store = s.store.Flush := by
    unfold segment.Read
    split
    · exact Or.inl rfl
    · exact Or.inl rfl
    · right
      exact store.Read_fst _ _
  have key : ∀ t : segment, t.baseOffset = s.baseOffset → t.index = s.index →
      (t.store = s.store ∨ t.store = s.store.Flush) → (t.Read k).2 = (s.Read k).2 := by
    intro t h1 h2 h3
    unfold segment.Read
    rw [h1, h2]
    split
    · rfl
    · rfl
    · rcases h3 with h3 | h3
      · simp only [h3]
      · simp only [h3, store.Read_Flush]
  exact key _ hb hi hs

/-- What a read that succeeds went through. -/
theorem Log.Read_ok (l : Log) (k : Nat) (b : Record) (h : (l.Read k).2 = Except.ok b) :
    ∃ p s, Log.Read.find l.heap k l.segments = some (p, s) ∧ (s.Read k).2 = Except.ok b ∧
      l.Read k = ({ l with heap := l.heap.set p (s.Read k).1 }, (s.Read k).2) := by
  unfold Log.Read at h ⊢
  cases hf : Log.Read.find l.heap k l.segments with
  | none => rw [hf] at h; simp at h
  | some r =>
    obtain ⟨p, s⟩ := r
    rw [hf] at h
    simp only at h ⊢
    by_cases hn : s.nextOffset ≤ k
    · rw [if_pos hn] at h
      simp at h
    · rw [if_neg hn] at h ⊢
      exact ⟨p, s, rfl, h, rfl⟩

theorem Log.Read_of_find (l : Log) (k : Nat) (p : Nat) (s : segment)
    (h : Log.Read.find l.heap k l.segments = some (p, s)) : (l.Read k).2 = (s.Read k).2 := by
  obtain ⟨_, _, _, hlt⟩ := Log.Read.find_some _ _ _ _ _ h
  unfold Log.Read
  rw [h]
  simp only
  rw [if_neg (by omega)]

theorem Log.Read.find_set (H : List segment) (k : Nat) (ps : List Nat) (p : Nat) (s s1 : segment)
    (h : Log.Read.find H k ps = some (p, s)) (hs : s1.span = s.span) :
    Log.Read.find (H.set p s1) k ps = some (p, s1) := by
  obtain ⟨-, hp, -, -⟩ := Log.Read.find_some _ _ _ _ _ h
  have hb : s1.baseOffset = s.baseOffset := congrArg Prod.fst hs
  have hn : s1.nextOffset = s.nextOffset := congrArg Prod.snd hs
  have hplt : p < H.length := by
    rcases Nat.lt_or_ge p H.length with h1 | h1
    · exact h1
    · rw [List.getElem?_eq_none h1] at hp
      simp at hp
  induction ps with
  | nil => simp [Log.Read.find] at h
  | cons q ps ih =>
    unfold Log.Read.find at h ⊢
    by_cases hqp : p = q
    · subst hqp
      rw [hp] at h
      simp only at h
      rw [List.getElem?_set_self hplt]
      simp only
      by_cases hr : s.baseOffset ≤ k ∧ k < s.nextOffset
      · rw [if_pos (by rw [hb, hn]; exact hr)]
      · rw [if_neg hr] at h
        rw [if_neg (by rw [hb, hn]; exact hr)]
        exact ih h
    · rw [List.getElem?_set_ne hqp]
      cases hq : H[q]? with
      | none =>
        rw [hq] at h
        exact ih h
      | some sq =>
        rw [hq] at h
        simp only at h ⊢
        by_cases hr : sq.baseOffset ≤ k ∧ k < sq.nextOffset
        · rw [if_pos hr] at h
          simp only [Option.some.injEq, Prod.mk.injEq] at h
          exact absurd h.1.symm hqp
        · rw [if_neg hr] at h ⊢
          exact ih h

/-- C15. For every log, every `L` and every 64-bit offset `k > L` at which
`Log.Read(k)` returned the bytes `b`, after a `Log.Truncate(L)` that returns no
error `Log.Read(k)` still returns `b`, whether the truncation is made on the
log as it was before the read or on the log the read left: the segment that
holds `k` has `nextOffset > L + 1` and is not removed. -/
theorem log_truncate_keeps_reads (l : Log) (L k : Nat) (b : Record) (hk : k < 2 ^ 64)
    (hL : L < k) (hok : (l.Truncate L).2.2 = none) (hread : (l.Read k).2 = Except.ok b) :
    ((l.Truncate L).1.Read k).2 = Except.ok b ∧
      (((l.Read k).1.Truncate L).2.2 = none ∧
        (((l.Read k).1.Truncate L).1.Read k).2 = Except.ok b) := by
  have hT : (L + 1) % 2 ^ 64 = L + 1 := Nat.mod_eq_of_lt (by omega)
  -- any log whose read of `k` succeeds keeps it through the truncation
  have key : ∀ l0 : Log, (l0.Truncate L).2.2 = none → (l0.Read k).2 = Except.ok b →
      ((l0.Truncate L).1.Read k).2 = Except.ok b := by
    intro l0 h0 hr
    obtain ⟨p, s, hf, hs, _⟩ := Log.Read_ok l0 k b hr
    obtain ⟨_, _, _, hlt⟩ := Log.Read.find_some _ _ _ _ _ hf
    obtain ⟨e1, _, _, e4, _, _⟩ := Log.Truncate_spec l0 (l0.Truncate L).1 L
      (l0.Truncate L).2.1 (by rw [← h0])
    have hf1 : Log.Read.find (l0.Truncate L).1.heap k (l0.Truncate L).1.segments
        = some (p, s) := by
      rw [e1]
      exact Log.Read.find_filter_some l0.heap _ _ k l0.segments p s e4 hf (by omega)
    rw [Log.Read_of_find _ k p s hf1, hs]
  refine ⟨key l hok hread, ?_⟩
  obtain ⟨p, s, hf, hs, hl1⟩ := Log.Read_ok l k b hread
  obtain ⟨_, _, _, _, hvalid, _⟩ := Log.Truncate_spec l (l.Truncate L).1 L
    (l.Truncate L).2.1 (by rw [← hok])
  have hok1 : ((l.Read k).1.Truncate L).2.2 = none := by
    apply Log.Truncate_ok
    rw [hl1]
    intro q hq
    simp only [List.length_set]
    obtain ⟨sq, hsq⟩ := hvalid q hq
    rcases Nat.lt_or_ge q l.heap.length with h1 | h1
    · exact h1
    · rw [List.getElem?_eq_none h1] at hsq
      simp at hsq
  refine ⟨hok1, key _ hok1 ?_⟩
  have hf1 : Log.Read.find (l.Read k).1.heap k (l.Read k).1.segments
      = some (p, (s.Read k).1) := by
    rw [hl1]
    exact Log.Read.find_set l.heap k l.segments p s _ hf (s.Read_span k)
  rw [Log.Read_of_find _ k p _ hf1, segment.Read_again, hs]

theorem Log.Append_mk (dir : Proglog.Dir) (c : Proglog.Config) (pre : List segment) (a : segment)
    (segs : List Nat) (rem : Bool) (r : Record) :
    (Log.mk dir c (pre ++ [a]) (some pre.length) segs rem).Append r =
      match a.Append r with
      | (a1, Except.error err) => (Log.mk dir c (pre ++ [a1]) (some pre.length) segs rem, 0, some err)
      | (a1, Except.ok off) =>
        if a1.IsMaxed then
          (Log.mk dir c (pre ++ [a1] ++ [Proglog.newSegment dir ((off + 1) % 2 ^ 64) c])
            (some (pre.length + 1)) (segs ++ [pre.length + 1]) rem, off, none)
        else (Log.mk dir c (pre ++ [a1]) (some pre.length) segs rem, off, none) := by
  have hset : ∀ a1 : segment, (pre ++ [a]).set pre.length a1 = pre ++ [a1] := by
    intro a1
    rw [List.set_append_right _ _ (Nat.le_refl _)]
    simp
  simp only [Log.Append, List.getElem?_concat_length]
  rcases h : a.Append r with ⟨a1, e | off⟩
  · simp [hset]
  · simp only [hset]
    split
    · simp [Log.newSegment]
    · simp

theorem Log.Sound_NewLog (c : Proglog.Config) :
    Log.Sound c.withDefaults c.Segment.InitialOffset 0 (NewLog [] c) := by
  rw [NewLog_nil, newSegment_nil]
  refine ⟨rfl, rfl, by simp [Log.ofHeap], rfl, ⟨0, by simp [Log.ofHeap], rfl⟩, ?_, ?_⟩
  · simp [Log.ofHeap]
  · intro x hx
    simp only [Log.ofHeap, List.map_cons, List.map_nil, List.getLast?_singleton,
      Option.mem_def, Option.some.injEq] at hx
    subst hx
    simp [segment.span, Config.withDefaults_InitialOffset]

theorem segment.span_Append_ok (a : segment) (r : Record) (off : Nat) (a1 : segment)
    (h : a.Append r = (a1, Except.ok off)) (hwrap : a.nextOffset + 1 < 2 ^ 64) :
    off = a.nextOffset ∧ a1.baseOffset = a.baseOffset ∧ a1.nextOffset = a.nextOffset + 1 := by
  obtain ⟨h1, h2⟩ := a.Append_ok r off (by rw [h])
  have h3 := a.Append_baseOffset r
  rw [h] at h2 h3
  simp only at h2 h3
  exact ⟨h1, h3, by rw [h2, Nat.mod_eq_of_lt hwrap]⟩

theorem Log.Sound_Append (c : Proglog.Config) (init n : Nat) (l : Log) (r : Record)
    (h : Log.Sound c init n l) (hok : (l.Append r).2.2 = none)
    (hwrap : init + n + 1 < 2 ^ 64) : Log.Sound c init (n + 1) (l.Append r).1 := by
  obtain ⟨hdir, hcfg, hne, hact, ⟨j, hj, hsegs⟩, hchain, hlast⟩ := h
  obtain ⟨dir, cfg, heap, act, segs, rem⟩ := l
  simp only at hdir hcfg hne hact hj hsegs hchain hlast
  subst hdir hcfg
  obtain ⟨pre, a, rfl⟩ : ∃ pre a, heap = pre ++ [a] := by
    rcases List.eq_nil_or_concat heap with e | ⟨pre, b, e⟩
    · exact absurd e hne
    · exact ⟨pre, b, by rw [e, List.concat_eq_append]⟩
  simp only [List.length_append, List.length_singleton, Nat.add_sub_cancel] at hact hj hsegs
  subst hact
  have hsp : (pre ++ [a]).map segment.span = pre.map segment.span ++ [a.span] := by simp
  rw [hsp] at hchain hlast
  have hla := hlast a.span (by simp [List.getLast?_concat])
  simp only [segment.span] at hla
  rw [List.chain'_append] at hchain
  obtain ⟨hc1, -, hc3⟩ := hchain
  rw [Log.Append_mk] at hok ⊢
  rcases hres : a.Append r with ⟨a1, e | off⟩
  · rw [hres] at hok
    simp at hok
  · obtain ⟨hoff, hb1, hn1⟩ := segment.span_Append_ok a r off a1 hres (by omega)
    -- the chain with the active segment one record longer
    have hchain1 : List.Chain' segment.span.Follows (pre.map segment.span ++ [a1.span]) := by
      rw [List.chain'_append]
      refine ⟨hc1, List.chain'_singleton _, ?_⟩
      intro x hx y hy
      simp only [List.head?_cons, Option.mem_def, Option.some.injEq] at hy
      subst hy
      have := hc3 x hx a.span (by simp)
      simp only [segment.span.Follows, segment.span, hb1, hn1] at this ⊢
      omega
    simp only
    split
    · refine ⟨rfl, rfl, by simp, ?_, ⟨j, ?_, ?_⟩, ?_, ?_⟩
      · simp
      · simp only [List.length_append, List.length_singleton]
        omega
      · simp only [List.length_append, List.length_singleton]
        rw [hsegs]
        have e : pre.length + 1 + 1 - j = (pre.length + 1 - j) + 1 := by omega
        rw [e, List.range'_1_concat]
        congr 2
        omega
      · simp only [List.map_append, List.map_cons, List.map_nil]
        rw [List.chain'_append]
        refine ⟨hchain1, List.chain'_singleton _, ?_⟩
        intro x hx y hy
        simp only [List.getLast?_concat, Option.mem_def, Option.some.injEq] at hx
        simp only [List.head?_cons, Option.mem_def, Option.some.injEq] at hy
        subst hx hy
        simp only [segment.span.Follows, hb1, hn1, newSegment_nil, segment.span, hoff]
        omega
      · intro x hx
        simp only [List.map_append, List.map_cons, List.map_nil, List.getLast?_concat,
          Option.mem_def, Option.some.injEq] at hx
        subst hx
        simp only [newSegment_nil, segment.span, hoff]
        omega
    · refine ⟨rfl, rfl, by simp, ?_, ⟨j, ?_, ?_⟩, ?_, ?_⟩
      · simp
      · simp only [List.length_append, List.length_singleton]
        omega
      · simp only [List.length_append, List.length_singleton, Nat.add_sub_cancel]
        exact hsegs
      · simp only [List.map_append, List.map_cons, List.map_nil]
        exact hchain1
      · intro x hx
        simp only [List.map_append, List.map_cons, List.map_nil, List.getLast?_concat,
          Option.mem_def, Option.some.injEq] at hx
        subst hx
        simp only [segment.span, hb1, hn1]
        omega

/-- Of a run of consecutive numbers, a test that stays true once it is true
keeps the last ones. -/
theorem List.filter_range_suffix (keep : Nat → Bool) (j m : Nat)
    (hmono : ∀ p q, j ≤ p → p ≤ q → q < j + m → keep p = true → keep q = true) :
    ∃ j1, j ≤ j1 ∧ j1 ≤ j + m ∧ (List.range' j m).filter keep = List.range' j1 (j + m - j1) := by
  induction m generalizing j with
  | zero => exact ⟨j, Nat.le_refl _, Nat.le_refl _, by simp⟩
  | succ m ih =>
    by_cases hk : keep j = true
    · refine ⟨j, Nat.le_refl _, by omega, ?_⟩
      have e : j + (m + 1) - j = m + 1 := by omega
      rw [e, List.filter_eq_self]
      intro q hq
      rw [List.mem_range'_1] at hq
      exact hmono j q (Nat.le_refl _) hq.1 hq.2 hk
    · obtain ⟨j1, h1, h2, h3⟩ := ih (j + 1)
        (fun p q hp hpq hq => hmono p q (by omega) hpq (by omega))
      refine ⟨j1, by omega, by omega, ?_⟩
      rw [List.range'_succ, List.filter_cons, if_neg hk, h3]
      congr 1
      omega

/-- Along segments that follow one another the next offsets do not decrease. -/
theorem segment.span.Follows_mono (sp : List (Nat × Nat))
    (h : List.Chain' segment.span.Follows sp) (p q : Nat) (hpq : p ≤ q) (hp : p < sp.length)
    (hq : q < sp.length) : sp[p].2 ≤ sp[q].2 := by
  rcases Nat.eq_or_lt_of_le hpq with e | hlt
  · subst e
    exact Nat.le_refl _
  · have hS : List.Chain' (fun a b : Nat × Nat => a.2 ≤ b.2) sp :=
      h.imp (fun a b hab => by
        simp only [segment.span.Follows] at hab
        omega)
    haveI : IsTrans (Nat × Nat) (fun a b => a.2 ≤ b.2) := ⟨fun a b c h1 h2 => Nat.le_trans h1 h2⟩
    rw [List.chain'_iff_pairwise, List.pairwise_iff_getElem] at hS
    exact hS p q (by omega) hq hlt

theorem Log.Sound_Truncate (c : Proglog.Config) (init n : Nat) (l : Log) (L : Nat)
    (h : Log.Sound c init n l) (hok : (l.Truncate L).2.2 = none) :
    Log.Sound c init n (l.Truncate L).1 := by
  obtain ⟨hdir, hcfg, hne, hact, ⟨j, hj, hsegs⟩, hchain, hlast⟩ := h
  obtain ⟨e1, -, e3, -, -, e6, e7, e8⟩ := Log.Truncate_spec l (l.Truncate L).1 L
    (l.Truncate L).2.1 (by rw [← hok])
  have hlen : (l.Truncate L).1.heap.length = l.heap.length := by
    have := congrArg List.length e3
    simpa using this
  refine ⟨e8 hdir, by rw [e7, hcfg], ?_, by rw [e6, hact, hlen], ?_, by rw [e3]; exact hchain,
    by rw [e3]; exact hlast⟩
  · intro e
    rw [e] at hlen
    exact hne (List.length_eq_zero.mp hlen.symm)
  · have hmono : ∀ p q, j ≤ p → p ≤ q → q < j + (l.heap.length - j) →
        ((l.heap[p]?).any fun s => decide ((L + 1) % 2 ^ 64 < s.nextOffset)) = true →
        ((l.heap[q]?).any fun s => decide ((L + 1) % 2 ^ 64 < s.nextOffset)) = true := by
      intro p q _ hpq hq hp
      have hq1 : q < l.heap.length := by omega
      have hp1 : p < l.heap.length := by omega
      rw [List.getElem?_eq_getElem hp1] at hp
      rw [List.getElem?_eq_getElem hq1]
      simp only [Option.any_some, decide_eq_true_eq] at hp ⊢
      have := segment.span.Follows_mono (l.heap.map segment.span) hchain p q hpq
        (by simpa using hp1) (by simpa using hq1)
      simp only [List.getElem_map, segment.span] at this
      omega
    obtain ⟨j1, h1, h2, h3⟩ := List.filter_range_suffix _ j (l.heap.length - j) hmono
    refine ⟨j1, by rw [hlen]; omega, ?_⟩
    rw [e1, hsegs, h3, hlen]
    congr 1
    omega

theorem Log.Sound_run (c : Proglog.Config) (init : Nat) (calls : List Log.Call) (n : Nat) (l : Log)
    (h : Log.Sound c init n l) (hok : ∀ e ∈ (l.run calls).2, e = none)
    (hwrap : init + n + Log.Call.appends calls < 2 ^ 64) :
    Log.Sound c init (n + Log.Call.appends calls) (l.run calls).1 := by
  induction calls generalizing n l with
  | nil => exact h
  | cons call calls ih =>
    simp only [Log.run, List.mem_cons, forall_eq_or_imp] at hok ⊢
    cases call with
    | Append r =>
      simp only [Log.call, Log.Call.appends] at hok hwrap ⊢
      have := ih (n + 1) (l.Append r).1 (Log.Sound_Append c init n l r h hok.1 (by omega)) hok.2
        (by omega)
      have e : n + (Log.Call.appends calls + 1) = n + 1 + Log.Call.appends calls := by omega
      rw [e]
      exact this
    | Truncate L =>
      simp only [Log.call, Log.Call.appends] at hok hwrap ⊢
      exact ih n (l.Truncate L).1 (Log.Sound_Truncate c init n l L h hok.1) hok.2 hwrap

/-- The segments at a run of pointers that ends with the heap are the last
segments of the heap. -/
theorem List.filterMap_range_heap (heap : List segment) (m j : Nat) (h : j + m = heap.length) :
    (List.range' j m).filterMap (fun p => heap[p]?) = heap.drop j := by
  induction m generalizing j with
  | zero =>
    have : heap.length ≤ j := by omega
    simp [List.drop_eq_nil_of_le this]
  | succ m ih =>
    have hj : j < heap.length := by omega
    rw [List.range'_succ, List.filterMap_cons, List.getElem?_eq_getElem hj,
      List.drop_eq_getElem_cons hj, ih (j + 1) (by omega)]

/-- In a sound log the segment list is ascending and without gaps. -/
theorem Log.Sound_order (c : Proglog.Config) (init n : Nat) (l : Log) (h : Log.Sound c init n l) :
    List.Chain' (fun s1 s2 : segment => s1.baseOffset < s2.baseOffset ∧
      s1.nextOffset = s2.baseOffset) l.segmentList := by
  obtain ⟨-, -, -, -, ⟨j, hj, hsegs⟩, hchain, -⟩ := h
  have e : l.segmentList = l.heap.drop j := by
    rw [Log.segmentList, hsegs]
    exact List.filterMap_range_heap l.heap _ j (by omega)
  rw [e]
  have h1 := List.Chain'.drop hchain j
  rw [← List.map_drop, List.chain'_map] at h1
  refine h1.imp ?_
  intro a b hab
  simp only [segment.span.Follows, segment.span] at hab
  exact ⟨by omega, hab.2.1⟩

/-- C17, amended. In every log state reached from a new log over an empty
directory by any sequence of `Append` and `Truncate` calls that all returned no
error, as long as `initial_offset` plus the number of appends is less than
2^64, the base offsets of the segment list are strictly ascending and every two
adjacent segments `S1`, `S2` of the list have `S1.nextOffset = S2.baseOffset`. -/
theorem log_segment_order (c : Config) (calls : List Log.Call)
    (hok : ∀ e ∈ ((NewLog [] c).run calls).2, e = none)
    (hwrap : c.Segment.InitialOffset + Log.Call.appends calls < 2 ^ 64) :
    (((NewLog [] c).run calls).1.segmentList.map fun s => s.baseOffset).Pairwise (· < ·) ∧
      List.Chain' (fun s1 s2 : segment => s1.baseOffset < s2.baseOffset ∧
        s1.nextOffset = s2.baseOffset) ((NewLog [] c).run calls).1.segmentList := by
  have h := Log.Sound_order _ _ _ _ (Log.Sound_run c.withDefaults c.Segment.InitialOffset calls 0
    (NewLog [] c) (Log.Sound_NewLog c) hok (by omega))
  refine ⟨?_, h⟩
  rw [← List.chain'_iff_pairwise, List.chain'_map]
  exact h.imp fun a b hab => hab.1

/-- C17 as stated fails: with `initial_offset = 2^64 - 1` and room for one
entry in an index, one append fills the first segment and the next one is
created at offset 0, below the base offset of the first. -/
theorem log_segment_order_counterexample :
    (((NewLog [] Config.atTop).run [Log.Call.Append [1]]).2 = [none]) ∧
      ((NewLog [] Config.atTop).run [Log.Call.Append [1]]).1.segmentList.map segment.span
        = [(2 ^ 64 - 1, 0), (0, 0)] ∧
      ¬ (((NewLog [] Config.atTop).run [Log.Call.Append [1]]).1.segmentList.map
          fun s => s.baseOffset).Pairwise (· < ·) := by
  decide

/-- C17 amended, at four appends, a truncation at offset 2 and one more append,
with segments of three records. -/
theorem log_segment_order_witness :
    (∀ e ∈ ((NewLog [] Config.threeEntries).run Log.Call.scenario).2, e = none) ∧
      Config.threeEntries.Segment.InitialOffset + Log.Call.appends Log.Call.scenario < 2 ^ 64 ∧
      ((NewLog [] Config.threeEntries).run Log.Call.scenario).1.segmentList.map segment.span
        = [(3, 5)] ∧
      List.Chain' (fun s1 s2 : segment => s1.baseOffset < s2.baseOffset ∧
        s1.nextOffset = s2.baseOffset)
        ((NewLog [] Config.threeEntries).run Log.Call.scenario).1.segmentList :=
  ⟨by decide, by decide, by decide,
    (log_segment_order Config.threeEntries Log.Call.scenario (by decide) (by decide)).2⟩

/-! ## Opening the segments of a directory -/

theorem Log.setup.everyOther_twice (ds : List Nat) :
    Log.setup.everyOther (Log.setup.twice ds) = ds := by
  induction ds with
  | nil => rfl
  | cons d ds ih => simp [Log.setup.twice, Log.setup.everyOther, ih]

theorem Log.setup.mem_twice (ds : List Nat) (x : Nat) : x ∈ Log.setup.twice ds ↔ x ∈ ds := by
  induction ds with
  | nil => simp [Log.setup.twice]
  | cons d ds ih => simp [Log.setup.twice, ih]

theorem Log.setup.sorted_twice (ds : List Nat) (h : ds.Pairwise (· < ·)) :
    (Log.setup.twice ds).Sorted (· ≤ ·) := by
  induction ds with
  | nil => simp [Log.setup.twice]
  | cons d ds ih =>
    rw [List.pairwise_cons] at h
    simp only [Log.setup.twice, List.sorted_cons, List.mem_cons, forall_eq_or_imp, le_refl,
      true_and, Log.setup.mem_twice]
    exact ⟨fun x hx => Nat.le_of_lt (h.1 x hx), fun x hx => Nat.le_of_lt (h.1 x hx), ih h.2⟩

theorem Log.foldl_newSegment (l : Log) (ds : List Nat) :
    (ds.foldl Log.newSegment l).heap
        = l.heap ++ ds.map (fun d => Proglog.newSegment l.Dir d l.Config) ∧
      (ds.foldl Log.newSegment l).segments = l.segments ++ List.range' l.heap.length ds.length ∧
      (ds ≠ [] → (ds.foldl Log.newSegment l).activeSegment
        = some (l.heap.length + ds.length - 1)) ∧
      (ds.foldl Log.newSegment l).Dir = l.Dir ∧
      (ds.foldl Log.newSegment l).Config = l.Config := by
  induction ds generalizing l with
  | nil => simp
  | cons d ds ih =>
    obtain ⟨h1, h2, h3, h4, h5⟩ := ih (l.newSegment d)
    simp only [List.foldl_cons]
    refine ⟨?_, ?_, ?_, ?_, ?_⟩
    · rw [h1]
      simp [Log.newSegment]
    · rw [h2]
      simp [Log.newSegment, List.range'_succ]
    · intro _
      by_cases hds : ds = []
      · subst hds
        simp [Log.newSegment]
      · rw [h3 hds]
        simp only [Log.newSegment, List.length_append, List.length_cons, List.length_nil]
        congr 1
        omega
    · rw [h4]
      rfl
    · rw [h5]
      rfl

/-- C19, amended. For every directory listing that holds exactly two names for
each of its base offsets `ds` (the parsed stems are the strictly ascending list
`ds` with every element twice, in any order), `Log.setup` on a log without
segments, its directory in place, opens exactly one segment per base offset of
`ds`, in ascending order,
and makes the one with the highest base offset active; on an empty listing it
creates a single segment at `config.Segment.InitialOffset` and makes it
active. -/
theorem log_setup_pairs (dir : Dir) (c : Config) (ds : List Nat)
    (hsorted : ds.Pairwise (· < ·))
    (hpairs : dir.baseOffsets.Perm (Log.setup.twice ds)) :
    (ds ≠ [] →
      (Log.setup (Log.mk dir c [] none [] false)).heap = ds.map (fun d => newSegment dir d c) ∧
      (Log.setup (Log.mk dir c [] none [] false)).segments = List.range ds.length ∧
      (Log.setup (Log.mk dir c [] none [] false)).activeSegment = some (ds.length - 1)) ∧
    (dir = [] →
      (Log.setup (Log.mk dir c [] none [] false)).heap = [newSegment dir c.Segment.InitialOffset c] ∧
      (Log.setup (Log.mk dir c [] none [] false)).segments = [0] ∧
      (Log.setup (Log.mk dir c [] none [] false)).activeSegment = some 0) := by
  have hs : dir.baseOffsets.insertionSort (· ≤ ·) = Log.setup.twice ds :=
    List.eq_of_perm_of_sorted ((List.perm_insertionSort _ _).trans hpairs)
      (List.sorted_insertionSort _ _) (Log.setup.sorted_twice ds hsorted)
  have hsetup : Log.setup (Log.mk dir c [] none [] false)
      = if (ds.foldl Log.newSegment (Log.mk dir c [] none [] false)).segments = [] then
          (ds.foldl Log.newSegment (Log.mk dir c [] none [] false)).newSegment
            (ds.foldl Log.newSegment (Log.mk dir c [] none [] false)).Config.Segment.InitialOffset
        else ds.foldl Log.newSegment (Log.mk dir c [] none [] false) := by
    have : (Log.mk dir c [] none [] false).Dir.baseOffsets.insertionSort (· ≤ ·)
        = Log.setup.twice ds := hs
    unfold Log.setup
    simp only [ioutil.ReadDir, Bool.false_eq_true, if_false]
    simp only [Dir.baseOffsets] at this
    simp only [this, Log.setup.everyOther_twice]
  obtain ⟨h1, h2, h3, h4, h5⟩ := Log.foldl_newSegment (Log.mk dir c [] none [] false) ds
  simp only [List.nil_append, List.length_nil, Nat.zero_add] at h1 h2 h3
  refine ⟨?_, ?_⟩
  · intro hne
    have hseg : (ds.foldl Log.newSegment (Log.mk dir c [] none [] false)).segments ≠ [] := by
      rw [h2]
      intro e
      have := congrArg List.length e
      simp only [List.length_range', List.length_nil] at this
      exact hne (List.length_eq_zero.mp this)
    rw [hsetup, if_neg hseg]
    exact ⟨h1, by rw [h2, List.range_eq_range'], h3 hne⟩
  · intro hdir
    have hds : ds = [] := by
      subst hdir
      have := hpairs.length_eq
      cases ds with
      | nil => rfl
      | cons d ds => simp [Dir.baseOffsets, Log.setup.twice] at this
    subst hds
    rw [hsetup]
    simp [Log.newSegment]

/-- C19 as stated fails: on a listing with the two names `0.store` and `1.store`
the stems are 0 and 1, and `Log.setup` opens a segment at 0 only, since its loop
skips every second base offset. -/
theorem log_setup_pairs_counterexample :
    (Dir.baseOffsets [("0.store", []), ("1.store", [])]) = [0, 1] ∧
      ((Log.setup (Log.mk [("0.store", []), ("1.store", [])] Config.threeEntries [] none
        [] false)).heap.map fun s => s.baseOffset) = [0] := by
  decide

/-- C19 amended, at a listing with the two files of the segments 0 and 7. -/
theorem log_setup_pairs_witness :
    [0, 7].Pairwise (· < ·) ∧
    (Dir.baseOffsets [("7.store", []), ("0.index", []), ("0.store", []), ("7.index", [])]).Perm
      (Log.setup.twice [0, 7]) ∧
    ([0, 7] ≠ [] →
      (Log.setup (Log.mk [("7.store", []), ("0.index", []), ("0.store", []), ("7.index", [])]
        Config.threeEntries [] none [] false)).heap
        = [0, 7].map (fun d => newSegment
            [("7.store", []), ("0.index", []), ("0.store", []), ("7.index", [])] d
            Config.threeEntries) ∧
      (Log.setup (Log.mk [("7.store", []), ("0.index", []), ("0.store", []), ("7.index", [])]
        Config.threeEntries [] none [] false)).segments = List.range [0, 7].length ∧
      (Log.setup (Log.mk [("7.store", []), ("0.index", []), ("0.store", []), ("7.index", [])]
        Config.threeEntries [] none [] false)).activeSegment = some ([0, 7].length - 1)) :=
  ⟨by decide, by decide,
    (log_setup_pairs [("7.store", []), ("0.index", []), ("0.store", []), ("7.index", [])]
      Config.threeEntries [0, 7] (by decide) (by decide)).1⟩

/-! ## Truncation and reset on concrete logs -/

/-- C12 at a log of two segments, `[0, 3)` and `[3, 4)`, truncated at 2. -/
theorem log_truncate_segments_witness :
    2 < 2 ^ 64 - 1 ∧ ((Log.appended 4).Truncate 2).2.2 = none ∧
      (Log.appended 4).segments = [0, 1] ∧
      ((Log.appended 4).Truncate 2).1.segments = [1] ∧
      ((Log.appended 4).Truncate 2).2.1 = [0] ∧
      ((Log.appended 4).Truncate 2).1.segmentList
        = (Log.appended 4).segmentList.filter (fun s => decide (2 + 1 < s.nextOffset)) :=
  ⟨by decide, by decide, by decide, by decide, by decide,
    (log_truncate_segments (Log.appended 4) 2 (by decide) (by decide)).2.2⟩

/-- C13. The code at the input of the claim: the log holds the segments
`[0, 3)` and `[3, 4)`, the highest offset of the first is 2, and `Truncate(2)`
calls `Remove` on the first segment and leaves the second alone in the list. -/
theorem log_truncate_highest_equal :
    (Log.appended 4).segmentList.map segment.span = [(0, 3), (3, 4)] ∧
      ((Log.appended 4).Truncate 2).2.2 = none ∧
      ((Log.appended 4).Truncate 2).2.1 = [0] ∧
      ((Log.appended 4).Truncate 2).1.segmentList.map segment.span = [(3, 4)] := by
  decide

/-- C14 as stated fails: after two appends the only segment is `[0, 2)`,
`Truncate(0)` keeps it, and `Read(0)` still returns the first record. -/
theorem log_truncate_removed_reads_counterexample :
    (Log.appended 2).segmentList.map segment.span = [(0, 2)] ∧
      ((Log.appended 2).Truncate 0).2.2 = none ∧ (0 : Nat) ≤ 0 ∧
      (((Log.appended 2).Truncate 0).1.Read 0).2 = Except.ok store_test.write := by
  decide

/-- C14 amended, at the segments `[0, 3)` and `[3, 4)` truncated at 2 and read
at offset 1. -/
theorem log_truncate_removed_reads_witness :
    ((Log.appended 4).Truncate 2).2.2 = none ∧
      (∀ s ∈ (Log.appended 4).segmentList, s.baseOffset ≤ 1 → 1 < s.nextOffset →
        s.nextOffset ≤ (2 + 1) % 2 ^ 64) ∧
      (((Log.appended 4).Truncate 2).1.Read 1).2
        = Except.error (Err.ErrOffsetOutOfRange 1) :=
  ⟨by decide, by decide,
    congrArg Prod.snd (log_truncate_removed_reads (Log.appended 4) 2 1 (by decide) (by decide))⟩

/-- C15 at the segments `[0, 3)` and `[3, 4)` truncated at 2 and read at
offset 3. -/
theorem log_truncate_keeps_reads_witness :
    3 < 2 ^ 64 ∧ 2 < 3 ∧ ((Log.appended 4).Truncate 2).2.2 = none ∧
      ((Log.appended 4).Read 3).2 = Except.ok store_test.write ∧
      (((Log.appended 4).Truncate 2).1.Read 3).2 = Except.ok store_test.write :=
  ⟨by decide, by decide, by decide, by decide,
    (log_truncate_keeps_reads (Log.appended 4) 2 3 store_test.write (by decide) (by decide)
      (by decide) (by decide)).1⟩

/-- C16. The code at two appends followed by `Truncate(1)`, all without error:
the only segment, `[0, 2)`, is removed, the segment list is left empty while
`activeSegment` still points to the removed segment, and `LowestOffset` and
`HighestOffset` index an empty list. -/
theorem log_truncate_active_segment :
    ((NewLog [] Config.threeEntries).run
        [Log.Call.Append store_test.write, Log.Call.Append store_test.write,
          Log.Call.Truncate 1]).2 = [none, none, none] ∧
      ((NewLog [] Config.threeEntries).run
        [Log.Call.Append store_test.write, Log.Call.Append store_test.write,
          Log.Call.Truncate 1]).1.segments = [] ∧
      ((NewLog [] Config.threeEntries).run
        [Log.Call.Append store_test.write, Log.Call.Append store_test.write,
          Log.Call.Truncate 1]).1.activeSegment = some 0 ∧
      ((NewLog [] Config.threeEntries).run
        [Log.Call.Append store_test.write, Log.Call.Append store_test.write,
          Log.Call.Truncate 1]).1.LowestOffset = Except.error Err.panic ∧
      ((NewLog [] Config.threeEntries).run
        [Log.Call.Append store_test.write, Log.Call.Append store_test.write,
          Log.Call.Truncate 1]).1.HighestOffset = Except.error Err.panic := by
  decide

/-- C18. The code at a log that holds one record: `Remove` closes the segment and
deletes the directory, `setup` then fails to list it, and `Reset` returns that
error with the log as `Remove` left it: the segment list is still the single
segment `[0, 1)`, also the active one, where a new log has the empty segment
`[0, 0)`. Nothing clears the list; even over an existing empty directory
`setup` adds no segment to it, since the list is not nil. -/
theorem log_reset_keeps_segments :
    (Log.appended 1).segmentList.map segment.span = [(0, 1)] ∧
      (Log.appended 1).Remove.2 = none ∧
      (Log.appended 1).Remove.1.removed = true ∧
      (Log.appended 1).Reset.2 = some Err.ErrNotExist ∧
      (Log.appended 1).Reset.1 = (Log.appended 1).Remove.1 ∧
      (Log.appended 1).Reset.1.segments = [0] ∧
      (Log.appended 1).Reset.1.activeSegment = some 0 ∧
      (Log.appended 1).Reset.1.segmentList.map segment.span = [(0, 1)] ∧
      (NewLog [] Config.threeEntries).segmentList.map segment.span = [(0, 0)] ∧
      (Log.setup { (Log.appended 1).Remove.1 with removed := false }).segments = [0] := by
  decide

end Proglog
